import Mathlib

/-!
Verification of the starsector Org-mode structured-editor core against its
natural-language specification.

The embedding models text as `List Char`.  The Rust structure parser operates
on bytes, but every byte it inspects is compared against the ASCII characters
`'\n'`, `'*'` and `' '`; in UTF-8 a byte equal to an ASCII code point is always
a complete character, so the character-level model coincides with the
byte-level code on all UTF-8 inputs (including tabs, CR and Unicode
whitespace, which are ordinary non-matching characters for this parser).
-/

namespace Starsector

abbrev Str := List Char

/-- Index of the first occurrence of `needle` in `l`, or `l.length` if none. -/
def memchrAux (needle : Char) : Str → Nat
  | [] => 0
  | c :: rest => if c = needle then 0 else memchrAux needle rest + 1

/-- Model of `RopeSliceExt::memchr` (src/src/ropeext.rs): index of the first
occurrence of `needle` at or after `offset`, or `input.length` if none.  The
callers always pass `offset ≤ input.length`, where `offset + memchrAux` of
the dropped tail agrees with the Rust function. -/
def memchr (input : Str) (needle : Char) (offset : Nat) : Nat :=
  offset + memchrAux needle (input.drop offset)

/-- Helper for `headlineLevel`: `stars` counts the `'*'` characters already
consumed, mirroring the enumerate index in the Rust loop. -/
def headlineLevelAux : Str → Nat → Nat
  | [], _ => 0
  | c :: rest, stars =>
    if c = '*' then headlineLevelAux rest (stars + 1)
    else if c = ' ' ∧ 0 < stars then stars
    else 0

/-- Model of `headline_level` (src/src/parser/structure.rs): the level of the
headline starting at `offset`, or 0 if the line at `offset` is not a headline.
A headline is one or more `'*'` followed by an ASCII space. -/
def headlineLevel (input : Str) (offset : Nat) : Nat :=
  headlineLevelAux (input.drop offset) 0

/-- Model of `lex_level` / `lex_level_str`. -/
def lexLevel (input : Str) : Nat := headlineLevel input 0

/-- Model of `next_line` (src/src/parser/structure.rs): the index of the next
`'\n'` at or after `offset`, or `input.length`. -/
def nextLine (input : Str) (offset : Nat) : Nat := memchr input '\n' offset

/-- Byte-range slice `input[a..b)`, modelling `slice_bytes(a..b)`. -/
def listSlice (input : Str) (a b : Nat) : Str := (input.take b).drop a

/-- The while-loop of `parse_section` (src/src/parser/structure.rs), with an
explicit fuel argument so that the definition computes by `decide`.  The fuel
is always sufficient (each iteration strictly increases `last`). -/
def parseSectionLoopF : Nat → Str → Nat → Nat
  | 0, _, last => last
  | fuel + 1, input, last =>
    if last < input.length then
      let i := memchr input '\n' last
      if input.length ≤ i ∨ (input[last]? = some '*' ∧ headlineLevel input last ≠ 0) then
        last
      else parseSectionLoopF fuel input (i + 1)
    else last

def parseSectionLoop (input : Str) (offset : Nat) : Nat :=
  parseSectionLoopF (input.length + 1) input offset

/-- Model of `parse_section` (src/src/parser/structure.rs).  Returns
`(new_offset, end)`: the start of the next headline (or `input.length`) and
the end of the consumed text (excluding a terminating newline). -/
def parseSection (input : Str) (offset : Nat) : Nat × Nat :=
  let last0 := parseSectionLoop input offset
  let last := if last0 < input.length ∧ headlineLevel input last0 = 0 then input.length else last0
  if offset < last ∧ last ≤ input.length ∧ input[last - 1]? = some '\n' then
    (last, last - 1)
  else (last, last)

/-- The headline-scanning loop of `parse_document`
(src/src/parser/structure.rs): collect the `(level, text)` of each headline
section in document order, starting at `offset`.  Fuel-based for
computability; each iteration strictly advances the offset. -/
def scanSectionsF : Nat → Str → Nat → List (Nat × Str)
  | 0, _, _ => []
  | fuel + 1, input, offset =>
    let level := headlineLevel input offset
    if level = 0 then []
    else
      let r := parseSection input (nextLine input offset)
      (level, listSlice input offset r.2) :: scanSectionsF fuel input r.1

def scanSections (input : Str) (offset : Nat) : List (Nat × Str) :=
  scanSectionsF (input.length + 1) input offset

/-- Model of `SectionData` (src/src/arena.rs). -/
structure SectionData where
  level : Nat
  text : Str
deriving DecidableEq, Repr

/-- The section tree: a node's children are the sections nested below it.
This is the tree the indextree arena represents through parent/child links. -/
inductive STree where
  | node : SectionData → List STree → STree

def STree.data : STree → SectionData
  | .node d _ => d

def STree.kids : STree → List STree
  | .node _ k => k

/-- A frame of the parse stack: a node under construction together with the
children attached to it so far (in order).  The Rust code attaches children
through the arena as it goes; here the attachment is materialised when the
frame is popped. -/
abbrev Frame := SectionData × List STree

/-- Popping a frame attaches the completed node as the last child of the frame
below it, mirroring `append` of indextree during parsing. -/
def closeFrame (top parentF : Frame) : Frame :=
  (parentF.1, parentF.2 ++ [STree.node top.1 top.2])

/-- The `while level <= stack.top.level { stack.pop() }` loop of
`parse_document`.  The stack is represented as top frame plus the frames
below it (it is never empty: the root, at level 0, is never popped). -/
def popStack (level : Nat) : Frame → List Frame → Frame × List Frame
  | top, [] => (top, [])
  | top, f :: rest =>
    if level ≤ top.1.level then popStack level (closeFrame top f) rest
    else (top, f :: rest)

/-- Fold the whole stack down to the root node (what the arena holds after
the loop finishes). -/
def closeAll : Frame → List Frame → STree
  | top, [] => STree.node top.1 top.2
  | top, f :: rest => closeAll (closeFrame top f) rest

/-- The tree-building part of `parse_document`'s headline loop: push each
scanned section onto the stack after popping to its insertion point. -/
def buildTree : Frame → List Frame → List (Nat × Str) → STree
  | top, rest, [] => closeAll top rest
  | top, rest, (level, text) :: sections =>
    let s := popStack level top rest
    buildTree (⟨level, text⟩, []) (s.1 :: s.2) sections

/-- Model of `Document` (src/src/tree.rs). -/
structure Document where
  root : STree
  emptyRootSection : Bool
  terminalNewline : Bool

/-- Model of `parse_document` (src/src/parser/structure.rs). -/
def parseDocument (input : Str) : Document :=
  if input.isEmpty then
    { root := STree.node ⟨0, []⟩ []
      emptyRootSection := true
      terminalNewline := false }
  else
    let r := parseSection input 0
    let sections := scanSections input r.1
    { root := buildTree (⟨0, listSlice input 0 r.2⟩, []) [] sections
      emptyRootSection := r.1 == r.2 && 0 == r.2
      terminalNewline := input.getLast? == some '\n' }

mutual
/-- The body of the recursive `emitter` closure in `section_tree_to_rope`
(src/src/emit.rs), applied to one child: emit the separator if owed, the
node's text, then its children. -/
def emitNode : STree → Str × Bool → Str × Bool
  | .node d kids, st =>
    emitKids kids ((if st.2 then st.1 ++ ['\n'] else st.1) ++ d.text, true)

/-- The `for child in node.children` loop of `emitter`. -/
def emitKids : List STree → Str × Bool → Str × Bool
  | [], st => st
  | t :: ts, st => emitKids ts (emitNode t st)
end

/-- Model of `section_tree_to_rope` (src/src/emit.rs). -/
def sectionTreeToRope (root : STree) (terminalNewline emptyRootSection : Bool) : Str :=
  match root with
  | .node d kids =>
    let st : Str × Bool :=
      if 0 < d.level then (d.text, true)
      else if d.text.isEmpty then (if emptyRootSection then ([], false) else ([], true))
      else (d.text, true)
    let r := emitKids kids st
    if terminalNewline && r.2 then r.1 ++ ['\n'] else r.1

/-- Model of `Document::to_rope` (src/src/tree.rs). -/
def Document.toRope (doc : Document) : Str :=
  sectionTreeToRope doc.root doc.terminalNewline doc.emptyRootSection

/-! ### Auxiliary definitions used by the round-trip proof -/

/-- Prefix each text with the `'\n'` separator the emitter owes before it. -/
def withSep : List Str → Str
  | [] => []
  | t :: ts => ('\n' :: t) ++ withSep ts

/-- Join texts with single `'\n'` separators (no separator before the first). -/
def sepJoin : List Str → Str
  | [] => []
  | t :: ts => t ++ withSep ts

mutual
/-- The texts of a subtree in depth-first preorder (the emission order). -/
def preTexts : STree → List Str
  | .node d kids => d.text :: forestTexts kids

/-- The texts of a forest in depth-first preorder. -/
def forestTexts : List STree → List Str
  | [] => []
  | t :: ts => preTexts t ++ forestTexts ts
end

/-- The preorder texts a frame will contribute once it is closed. -/
def frameTexts (f : Frame) : List Str := f.1.text :: forestTexts f.2

/-- The preorder texts of the tree obtained by closing the whole stack. -/
def stackTexts (top : Frame) (rest : List Frame) : List Str :=
  (rest.reverse.map frameTexts).flatten ++ frameTexts top

/-- The data of the bottom-most frame of the stack (the eventual root). -/
def bottomData (top : Frame) (rest : List Frame) : SectionData :=
  (rest.getLastD top).1

/-- The terminal newline re-appended by the emitter. -/
def tnlTail (input : Str) : Str := if input.getLast? = some '\n' then ['\n'] else []

/-- The adjusted value of `last` after the post-loop fixup in `parse_section`
(both components of the result are derived from it). -/
def psLast (input : Str) (o : Nat) : Nat :=
  if parseSectionLoop input o < input.length ∧
      headlineLevel input (parseSectionLoop input o) = 0
  then input.length else parseSectionLoop input o

/-! ### Lemmas: memchr and headline recognition -/

theorem memchrAux_le (c : Char) (l : Str) : memchrAux c l ≤ l.length := by
  induction l with
  | nil => simp [memchrAux]
  | cons a as ih =>
    by_cases h : a = c
    · simp [memchrAux, h]
    · simp only [memchrAux, if_neg h, List.length_cons]
      omega

theorem memchr_ge (input : Str) (c : Char) (o : Nat) : o ≤ memchr input c o :=
  Nat.le_add_right o _

theorem memchr_le (input : Str) (c : Char) (o : Nat) (h : o ≤ input.length) :
    memchr input c o ≤ input.length := by
  have h2 := memchrAux_le c (input.drop o)
  simp only [List.length_drop] at h2
  simp only [memchr]
  omega

theorem memchrAux_found (c : Char) (l : Str) (h : memchrAux c l < l.length) :
    l[memchrAux c l]? = some c := by
  induction l with
  | nil => simp [memchrAux] at h
  | cons a as ih =>
    by_cases ha : a = c
    · simp [memchrAux, ha]
    · simp only [memchrAux, if_neg ha, List.length_cons] at h
      simp only [memchrAux, if_neg ha, List.getElem?_cons_succ]
      exact ih (by omega)

theorem memchr_found (input : Str) (c : Char) (o : Nat)
    (h : memchr input c o < input.length) : input[memchr input c o]? = some c := by
  have hlen : memchrAux c (input.drop o) < (input.drop o).length := by
    have h1 := memchrAux_le c (input.drop o)
    simp only [memchr] at h
    simp only [List.length_drop]
    omega
  have h2 := memchrAux_found c (input.drop o) hlen
  rw [List.getElem?_drop] at h2
  simpa [memchr] using h2

theorem memchr_eq_self (input : Str) (c : Char) (o : Nat) (h : input[o]? = some c) :
    memchr input c o = o := by
  obtain ⟨hlt, hv⟩ := List.getElem?_eq_some.mp h
  have hd : input.drop o = input[o] :: input.drop (o + 1) := List.drop_eq_getElem_cons hlt
  simp only [memchr, hd, memchrAux, if_pos hv]
  omega

theorem memchr_gt (input : Str) (c : Char) (o : Nat) (hlt : o < input.length)
    (h : input[o]? ≠ some c) : o + 1 ≤ memchr input c o := by
  have hd : input.drop o = input[o] :: input.drop (o + 1) := List.drop_eq_getElem_cons hlt
  have hne : input[o] ≠ c := by
    intro he
    exact h (by simp [List.getElem?_eq_getElem hlt, he])
  simp only [memchr, hd, memchrAux, if_neg hne]
  omega

theorem memchrAux_all (c : Char) (l : Str) (h : memchrAux c l = l.length) :
    ∀ j, j < l.length → l[j]? ≠ some c := by
  induction l with
  | nil => intro j hj; simp at hj
  | cons a as ih =>
    intro j hj
    by_cases ha : a = c
    · simp [memchrAux, ha] at h
    · cases j with
      | zero =>
        simp only [List.getElem?_cons_zero]
        intro he
        exact ha (Option.some.inj he)
      | succ k =>
        simp only [memchrAux, if_neg ha, List.length_cons, Nat.add_right_cancel_iff] at h
        simp only [List.getElem?_cons_succ]
        exact ih h k (by simpa using hj)

theorem memchr_none (input : Str) (c : Char) (o j : Nat) (ho : o ≤ input.length)
    (h : memchr input c o = input.length) (hj1 : o ≤ j) (hj2 : j < input.length) :
    input[j]? ≠ some c := by
  have haux : memchrAux c (input.drop o) = (input.drop o).length := by
    have h1 := memchrAux_le c (input.drop o)
    simp only [memchr] at h
    simp only [List.length_drop] at h1 ⊢
    omega
  have h2 := memchrAux_all c (input.drop o) haux (j - o)
    (by simp only [List.length_drop]; omega)
  rw [List.getElem?_drop] at h2
  have : o + (j - o) = j := by omega
  rwa [this] at h2

theorem headlineLevel_of_ge (input : Str) (o : Nat) (h : input.length ≤ o) :
    headlineLevel input o = 0 := by
  have : input.drop o = [] := List.drop_eq_nil_of_le h
  simp [headlineLevel, this, headlineLevelAux]

theorem headlineLevel_star (input : Str) (o : Nat) (h : headlineLevel input o ≠ 0) :
    o < input.length ∧ input[o]? = some '*' := by
  rcases hd : input.drop o with _ | ⟨a, as⟩
  · rw [headlineLevel, hd] at h
    simp [headlineLevelAux] at h
  · have ha : a = '*' := by
      by_contra hne
      rw [headlineLevel, hd] at h
      simp [headlineLevelAux, hne] at h
    have hlt : o < input.length := by
      by_contra hge
      rw [List.drop_eq_nil_of_le (by omega)] at hd
      exact absurd hd (by simp)
    refine ⟨hlt, ?_⟩
    have : (input.drop o)[0]? = some a := by simp [hd]
    rw [List.getElem?_drop] at this
    simpa [ha] using this

/-! ### Lemmas: the parse_section loop -/

theorem parseSectionLoopF_ge (fuel : Nat) (input : Str) (last : Nat) :
    last ≤ parseSectionLoopF fuel input last := by
  induction fuel generalizing last with
  | zero => simp [parseSectionLoopF]
  | succ n ih =>
    simp only [parseSectionLoopF]
    split_ifs with h1 h2
    · exact le_refl _
    · have hm := memchr_ge input '\n' last
      have := ih (memchr input '\n' last + 1)
      omega
    · exact le_refl _

theorem parseSectionLoopF_le (fuel : Nat) (input : Str) (last : Nat)
    (h : last ≤ input.length) : parseSectionLoopF fuel input last ≤ input.length := by
  induction fuel generalizing last with
  | zero => simpa [parseSectionLoopF] using h
  | succ n ih =>
    simp only [parseSectionLoopF]
    split_ifs with h1 h2
    · exact h
    · push_neg at h2
      exact ih _ h2.1
    · exact h

theorem parseSectionLoopF_newline (fuel : Nat) (input : Str) (last : Nat) :
    parseSectionLoopF fuel input last = last ∨
      input[parseSectionLoopF fuel input last - 1]? = some '\n' := by
  induction fuel generalizing last with
  | zero => left; simp [parseSectionLoopF]
  | succ n ih =>
    simp only [parseSectionLoopF]
    split_ifs with h1 h2
    · left; rfl
    · push_neg at h2
      rcases ih (memchr input '\n' last + 1) with hcase | hcase
      · right
        rw [hcase]
        simpa using memchr_found input '\n' last h2.1
      · right
        exact hcase
    · left; rfl

theorem parseSectionLoop_advance (input : Str) (last : Nat) (h1 : last < input.length)
    (h2 : input[last]? = some '\n') : last + 1 ≤ parseSectionLoop input last := by
  rw [parseSectionLoop]
  simp only [parseSectionLoopF, if_pos h1]
  have hm : memchr input '\n' last = last := memchr_eq_self input '\n' last h2
  have hcond : ¬(input.length ≤ memchr input '\n' last ∨
      (input[last]? = some '*' ∧ headlineLevel input last ≠ 0)) := by
    push_neg
    constructor
    · omega
    · intro hstar
      rw [h2] at hstar
      simp at hstar
  rw [if_neg hcond, hm]
  exact parseSectionLoopF_ge _ _ _

/-! ### Lemmas: parse_section -/

theorem psLast_ge (input : Str) (o : Nat) : o ≤ psLast input o := by
  have hge := parseSectionLoopF_ge (input.length + 1) input o
  rw [psLast]
  split_ifs with h1 <;> simp only [parseSectionLoop] at * <;> omega

theorem psLast_ge_loop (input : Str) (o : Nat) :
    parseSectionLoop input o ≤ psLast input o := by
  rw [psLast]
  split_ifs with h1 <;> omega

theorem psLast_le (input : Str) (o : Nat) (h : o ≤ input.length) :
    psLast input o ≤ input.length := by
  have hle := parseSectionLoopF_le (input.length + 1) input o h
  rw [psLast]
  split_ifs with h1 <;> simp only [parseSectionLoop] at * <;> omega

theorem psLast_headline (input : Str) (o : Nat) (h : psLast input o < input.length) :
    headlineLevel input (psLast input o) ≠ 0 := by
  rw [psLast] at h ⊢
  split_ifs at h ⊢ with h1
  · omega
  · intro hz
    exact h1 ⟨h, hz⟩

theorem psLast_newline (input : Str) (o : Nat) :
    psLast input o = o ∨ psLast input o = input.length ∨
      input[psLast input o - 1]? = some '\n' := by
  have hnl := parseSectionLoopF_newline (input.length + 1) input o
  rw [psLast]
  split_ifs with h1
  · right; left; rfl
  · simp only [parseSectionLoop] at *
    rcases hnl with hc | hc
    · left; exact hc
    · right; right; exact hc

theorem parseSection_eq_def (input : Str) (o : Nat) :
    parseSection input o =
      if o < psLast input o ∧ psLast input o ≤ input.length ∧
          input[psLast input o - 1]? = some '\n'
      then (psLast input o, psLast input o - 1)
      else (psLast input o, psLast input o) := rfl

theorem parseSection_fst (input : Str) (o : Nat) :
    (parseSection input o).1 = psLast input o := by
  rw [parseSection_eq_def]
  split_ifs <;> rfl

theorem parseSection_fst_ge (input : Str) (o : Nat) : o ≤ (parseSection input o).1 := by
  rw [parseSection_fst]
  exact psLast_ge input o

theorem parseSection_fst_le (input : Str) (o : Nat) (h : o ≤ input.length) :
    (parseSection input o).1 ≤ input.length := by
  rw [parseSection_fst]
  exact psLast_le input o h

theorem parseSection_snd_le (input : Str) (o : Nat) :
    (parseSection input o).2 ≤ (parseSection input o).1 := by
  rw [parseSection_eq_def]
  split_ifs with h
  · simp
  · simp

theorem parseSection_headline (input : Str) (o : Nat)
    (h : (parseSection input o).1 < input.length) :
    headlineLevel input (parseSection input o).1 ≠ 0 := by
  rw [parseSection_fst] at h ⊢
  exact psLast_headline input o h

theorem parseSection_cases (input : Str) (o : Nat) (ho : o ≤ input.length) :
    ((parseSection input o).2 = (parseSection input o).1 ∧
      ((parseSection input o).1 = o ∨
        ¬ input[(parseSection input o).1 - 1]? = some '\n')) ∨
    ((parseSection input o).2 + 1 = (parseSection input o).1 ∧
      input[(parseSection input o).2]? = some '\n' ∧ o < (parseSection input o).1) := by
  have hge := psLast_ge input o
  rw [parseSection_eq_def]
  split_ifs with hC
  · right
    refine ⟨by omega, ?_, hC.1⟩
    exact hC.2.2
  · left
    refine ⟨rfl, ?_⟩
    push_neg at hC
    by_cases hlt : o < psLast input o
    · right
      exact hC hlt (psLast_le input o ho)
    · left
      omega

theorem parseSection_advance (input : Str) (o : Nat) (h1 : o < input.length)
    (h2 : input[o]? = some '\n') : o + 1 ≤ (parseSection input o).1 := by
  have hadv := parseSectionLoop_advance input o h1 h2
  have := psLast_ge_loop input o
  rw [parseSection_fst]
  omega

theorem parseSection_prev_newline (input : Str) (o : Nat)
    (h1 : (parseSection input o).1 < input.length) (h2 : o < (parseSection input o).1) :
    input[(parseSection input o).1 - 1]? = some '\n' := by
  rw [parseSection_fst] at h1 h2 ⊢
  rcases psLast_newline input o with hc | hc | hc
  · omega
  · omega
  · exact hc

theorem parseSectionLoop_at_length (input : Str) :
    parseSectionLoop input input.length = input.length := by
  rw [parseSectionLoop]
  simp [parseSectionLoopF]

theorem parseSection_at_length (input : Str) :
    parseSection input input.length = (input.length, input.length) := by
  have hL : psLast input input.length = input.length := by
    rw [psLast, parseSectionLoop_at_length]
    split_ifs <;> rfl
  rw [parseSection_eq_def, hL]
  simp

theorem parseSection_at_headline (input : Str) (h : headlineLevel input 0 ≠ 0) :
    parseSection input 0 = (0, 0) := by
  obtain ⟨hlt, hstar⟩ := headlineLevel_star input 0 h
  have hloop : parseSectionLoop input 0 = 0 := by
    rw [parseSectionLoop]
    simp only [parseSectionLoopF, if_pos hlt]
    rw [if_pos (Or.inr ⟨hstar, h⟩)]
  have hL : psLast input 0 = 0 := by
    rw [psLast, hloop]
    simp [h]
  rw [parseSection_eq_def, hL]
  simp

/-! ### Lemmas: slices -/

theorem listSlice_append_drop (input : Str) (a b : Nat) (hab : a ≤ b) (hb : b ≤ input.length) :
    listSlice input a b ++ input.drop b = input.drop a := by
  have hlen : (input.take b).length = b := by
    rw [List.length_take]
    omega
  conv_rhs => rw [← List.take_append_drop b input]
  rw [List.drop_append_eq_append_drop, hlen, listSlice]
  have : a - b = 0 := by omega
  rw [this, List.drop_zero]

theorem listSlice_snoc (input : Str) (a e : Nat) (hae : a ≤ e) (he : e < input.length) :
    listSlice input a (e + 1) = listSlice input a e ++ [input[e]] := by
  have hlen : (input.take e).length = e := by
    rw [List.length_take]
    omega
  rw [listSlice, listSlice, List.take_succ, List.getElem?_eq_getElem he]
  rw [List.drop_append_eq_append_drop, hlen]
  have : a - e = 0 := by omega
  rw [this, List.drop_zero]
  rfl

theorem listSlice_full (input : Str) (a : Nat) : listSlice input a input.length = input.drop a := by
  rw [listSlice, List.take_length]

theorem drop_cons_self (input : Str) (e : Nat) (he : e < input.length) :
    input.drop e = input[e] :: input.drop (e + 1) := List.drop_eq_getElem_cons he

/-! ### Lemmas: the section scan reconstructs the input -/

theorem scanSectionsF_nil (fuel : Nat) (input : Str) (o : Nat)
    (h : headlineLevel input o = 0) : scanSectionsF fuel input o = [] := by
  cases fuel with
  | zero => rfl
  | succ n => simp [scanSectionsF, h]

theorem scanSectionsF_cons (fuel : Nat) (input : Str) (o : Nat)
    (h : headlineLevel input o ≠ 0) :
    scanSectionsF (fuel + 1) input o =
      (headlineLevel input o, listSlice input o (parseSection input (nextLine input o)).2)
        :: scanSectionsF fuel input (parseSection input (nextLine input o)).1 := by
  simp [scanSectionsF, h]

theorem sepJoin_cons_of_ne (t : Str) (ts : List Str) (h : ts ≠ []) :
    sepJoin (t :: ts) = t ++ '\n' :: sepJoin ts := by
  cases ts with
  | nil => exact absurd rfl h
  | cons u us => simp [sepJoin, withSep]

theorem scan_reconstruct (input : Str) (fuel : Nat) :
    ∀ o, input.length < fuel + o → headlineLevel input o ≠ 0 →
    sepJoin ((scanSectionsF fuel input o).map Prod.snd) ++ tnlTail input = input.drop o := by
  induction fuel with
  | zero =>
    intro o hfuel h
    obtain ⟨hlt, _⟩ := headlineLevel_star input o h
    omega
  | succ n ih =>
    intro o hfuel h
    obtain ⟨hlt, hstar⟩ := headlineLevel_star input o h
    rw [scanSectionsF_cons n input o h]
    have hp1 : o + 1 ≤ nextLine input o := by
      refine memchr_gt input '\n' o hlt ?_
      rw [hstar]
      simp
    have hp2 : nextLine input o ≤ input.length := memchr_le input '\n' o (le_of_lt hlt)
    have hno_ge : nextLine input o ≤ (parseSection input (nextLine input o)).1 :=
      parseSection_fst_ge input (nextLine input o)
    have hno_le : (parseSection input (nextLine input o)).1 ≤ input.length :=
      parseSection_fst_le input (nextLine input o) hp2
    have heo_le : (parseSection input (nextLine input o)).2 ≤
        (parseSection input (nextLine input o)).1 :=
      parseSection_snd_le input (nextLine input o)
    by_cases hend : (parseSection input (nextLine input o)).1 < input.length
    · -- another headline follows at new_offset
      have hhl : headlineLevel input (parseSection input (nextLine input o)).1 ≠ 0 :=
        parseSection_headline input (nextLine input o) hend
      have hplt : nextLine input o < input.length := by omega
      have hpnl : input[nextLine input o]? = some '\n' := memchr_found input '\n' o hplt
      have hadv : nextLine input o + 1 ≤ (parseSection input (nextLine input o)).1 :=
        parseSection_advance input (nextLine input o) hplt hpnl
      have hprev : input[(parseSection input (nextLine input o)).1 - 1]? = some '\n' :=
        parseSection_prev_newline input (nextLine input o) hend (by omega)
      rcases parseSection_cases input (nextLine input o) hp2 with ⟨hc1, hc2⟩ | ⟨hc1, hc2, hc3⟩
      · rcases hc2 with hc | hc
        · omega
        · exact absurd hprev hc
      · -- end = new_offset - 1 and input[end] = '\n'
        have hscan_ne :
            (scanSectionsF n input (parseSection input (nextLine input o)).1).map Prod.snd
              ≠ [] := by
          cases n with
          | zero => omega
          | succ m =>
            rw [scanSectionsF_cons m input _ hhl]
            simp
        rw [List.map_cons, sepJoin_cons_of_ne _ _ hscan_ne, List.append_assoc, List.cons_append]
        rw [ih (parseSection input (nextLine input o)).1 (by omega) hhl]
        have heo_lt : (parseSection input (nextLine input o)).2 < input.length := by omega
        have hoeo : o ≤ (parseSection input (nextLine input o)).2 := by omega
        have hval : input[(parseSection input (nextLine input o)).2] = '\n' := by
          obtain ⟨_, hv⟩ := List.getElem?_eq_some.mp hc2
          exact hv
        calc listSlice input o (parseSection input (nextLine input o)).2 ++
              '\n' :: input.drop (parseSection input (nextLine input o)).1
            = listSlice input o (parseSection input (nextLine input o)).2 ++
              input.drop (parseSection input (nextLine input o)).2 := by
              rw [drop_cons_self input _ heo_lt, hval, ← hc1]
          _ = input.drop o := listSlice_append_drop input o _ hoeo (le_of_lt heo_lt)
    · -- new_offset = input.length: this was the last section
      have hno_eq : (parseSection input (nextLine input o)).1 = input.length := by omega
      have hscan_nil : scanSectionsF n input (parseSection input (nextLine input o)).1 = [] :=
        scanSectionsF_nil n input _ (headlineLevel_of_ge input _ (by omega))
      rw [hscan_nil]
      simp only [List.map_cons, List.map_nil, sepJoin, withSep, List.append_nil]
      have hlen_pos : 0 < input.length := by omega
      rcases parseSection_cases input (nextLine input o) hp2 with ⟨hc1, hc2⟩ | ⟨hc1, hc2, hc3⟩
      · -- end = length and the input does not end in a newline
        have hlast : input[input.length - 1]? ≠ some '\n' := by
          rcases hc2 with hc | hc
          · -- new_offset = nextLine: no newline at or after o at all
            refine memchr_none input '\n' o (input.length - 1) (le_of_lt hlt) ?_ (by omega)
              (by omega)
            have : nextLine input o = input.length := by omega
            simpa [nextLine] using this
          · rw [hno_eq] at hc
            exact hc
        have htail : tnlTail input = [] := by
          rw [tnlTail, List.getLast?_eq_getElem?]
          rw [if_neg hlast]
        rw [htail, List.append_nil, hc1, hno_eq, listSlice_full]
      · -- end = length - 1 and input ends in a newline
        have heo_eq : (parseSection input (nextLine input o)).2 = input.length - 1 := by omega
        have hval : input[input.length - 1]? = some '\n' := by
          rw [← heo_eq]
          exact hc2
        have htail : tnlTail input = ['\n'] := by
          rw [tnlTail, List.getLast?_eq_getElem?]
          rw [if_pos hval]
        rw [htail, heo_eq]
        obtain ⟨hidx, hv⟩ := List.getElem?_eq_some.mp hval
        have hslice := listSlice_snoc input o (input.length - 1) (by omega) hidx
        rw [hv] at hslice
        have hfull : input.length - 1 + 1 = input.length := by omega
        rw [hfull] at hslice
        rw [← hslice, listSlice_full]

/-! ### Lemmas: the emitter produces the preorder texts joined by newlines -/

theorem withSep_append (xs ys : List Str) :
    withSep (xs ++ ys) = withSep xs ++ withSep ys := by
  induction xs with
  | nil => simp [withSep]
  | cons t ts ih => simp [withSep, ih]

theorem preTexts_ne_nil (t : STree) : preTexts t ≠ [] := by
  cases t
  simp [preTexts]

theorem forestTexts_append (xs ys : List STree) :
    forestTexts (xs ++ ys) = forestTexts xs ++ forestTexts ys := by
  induction xs with
  | nil => simp [forestTexts]
  | cons t ts ih => simp [forestTexts, ih]

theorem forestTexts_ne_nil (ts : List STree) (h : ts ≠ []) : forestTexts ts ≠ [] := by
  cases ts with
  | nil => exact absurd rfl h
  | cons t ts =>
    cases t
    simp [forestTexts, preTexts]

theorem sepJoin_append (xs ys : List Str) (h : xs ≠ []) :
    sepJoin (xs ++ ys) = sepJoin xs ++ withSep ys := by
  cases xs with
  | nil => exact absurd rfl h
  | cons t ts => simp [sepJoin, withSep_append]

mutual
theorem emitNode_owe (t : STree) (text : Str) :
    emitNode t (text, true) = (text ++ withSep (preTexts t), true) := by
  cases t with
  | node d kids =>
    rw [emitNode, emitKids_owe kids]
    simp [preTexts, withSep]

theorem emitKids_owe (ts : List STree) (text : Str) :
    emitKids ts (text, true) = (text ++ withSep (forestTexts ts), true) := by
  cases ts with
  | nil => simp [emitKids, forestTexts, withSep]
  | cons t ts =>
    rw [emitKids, emitNode_owe t, emitKids_owe ts]
    simp [forestTexts, withSep_append]
end

theorem emitNode_fresh (t : STree) (text : Str) :
    emitNode t (text, false) = (text ++ sepJoin (preTexts t), true) := by
  cases t with
  | node d kids =>
    rw [emitNode, emitKids_owe kids]
    simp [preTexts, sepJoin]

theorem emitKids_fresh (ts : List STree) (text : Str) :
    emitKids ts (text, false) =
      if ts.isEmpty then (text, false) else (text ++ sepJoin (forestTexts ts), true) := by
  cases ts with
  | nil => simp [emitKids]
  | cons t ts =>
    rw [emitKids, emitNode_fresh t, emitKids_owe ts]
    have hne : sepJoin (forestTexts (t :: ts)) =
        sepJoin (preTexts t) ++ withSep (forestTexts ts) := by
      rw [show forestTexts (t :: ts) = preTexts t ++ forestTexts ts from rfl]
      exact sepJoin_append _ _ (preTexts_ne_nil t)
    simp [hne]

theorem sectionTreeToRope_spec (d : SectionData) (kids : List STree) (tnl ers : Bool) :
    sectionTreeToRope (STree.node d kids) tnl ers =
      if d.level = 0 ∧ d.text = [] ∧ ers = true then
        sepJoin (forestTexts kids) ++ (if tnl && !kids.isEmpty then ['\n'] else [])
      else
        sepJoin (d.text :: forestTexts kids) ++ (if tnl then ['\n'] else []) := by
  have hsj : sepJoin (d.text :: forestTexts kids) = d.text ++ withSep (forestTexts kids) := rfl
  by_cases h1 : 0 < d.level
  · have h0 : ¬ d.level = 0 := by omega
    cases ers <;> cases tnl <;>
      simp [sectionTreeToRope, emitKids_owe, h1, h0, hsj]
  · have hlev : d.level = 0 := by omega
    by_cases h2 : d.text = []
    · cases ers with
      | false =>
        cases tnl <;>
          simp [sectionTreeToRope, emitKids_owe, h1, hlev, h2, sepJoin]
      | true =>
        by_cases h3 : kids = []
        · subst h3
          cases tnl <;>
            simp [sectionTreeToRope, emitKids, hlev, h2, h1, sepJoin, withSep, forestTexts]
        · cases tnl <;>
            simp [sectionTreeToRope, emitKids_fresh, hlev, h2, h1, h3, sepJoin]
    · cases tnl <;> cases ers <;>
        simp [sectionTreeToRope, emitKids_owe, h1, hlev, h2, hsj]

/-! ### Lemmas: the built tree's preorder equals the scanned section order -/

theorem frameTexts_closeFrame (top f : Frame) :
    frameTexts (closeFrame top f) = frameTexts f ++ frameTexts top := by
  obtain ⟨d, kids⟩ := top
  obtain ⟨e, kids2⟩ := f
  simp [closeFrame, frameTexts, forestTexts_append, forestTexts, preTexts]

theorem stackTexts_closeFrame (top f : Frame) (rest : List Frame) :
    stackTexts (closeFrame top f) rest = stackTexts top (f :: rest) := by
  rw [stackTexts, stackTexts, frameTexts_closeFrame]
  simp [List.reverse_cons]

theorem closeAll_preTexts (rest : List Frame) :
    ∀ top, preTexts (closeAll top rest) = stackTexts top rest := by
  induction rest with
  | nil =>
    intro top
    obtain ⟨d, kids⟩ := top
    simp [closeAll, stackTexts, frameTexts, preTexts]
  | cons f rest ih =>
    intro top
    rw [closeAll, ih, stackTexts_closeFrame]

theorem popStack_stackTexts (level : Nat) (rest : List Frame) :
    ∀ top, stackTexts (popStack level top rest).1 (popStack level top rest).2 =
      stackTexts top rest := by
  induction rest with
  | nil =>
    intro top
    rfl
  | cons f rest ih =>
    intro top
    rw [popStack]
    split_ifs with h
    · rw [ih, stackTexts_closeFrame]
    · rfl

theorem buildTree_preTexts (sections : List (Nat × Str)) :
    ∀ top rest, preTexts (buildTree top rest sections) =
      stackTexts top rest ++ sections.map Prod.snd := by
  induction sections with
  | nil =>
    intro top rest
    simp [buildTree, closeAll_preTexts]
  | cons hd ss ih =>
    intro top rest
    obtain ⟨l, t⟩ := hd
    rw [buildTree, ih]
    have hpush : stackTexts (⟨l, t⟩, [])
        ((popStack l top rest).1 :: (popStack l top rest).2) =
        stackTexts top rest ++ [t] := by
      rw [← popStack_stackTexts l rest top]
      rw [stackTexts, stackTexts]
      simp [List.reverse_cons, frameTexts, forestTexts]
    rw [hpush]
    simp

theorem getLastD_ne_nil {α : Type} (l : List α) (a b : α) (h : l ≠ []) :
    l.getLastD a = l.getLastD b := by
  cases l with
  | nil => exact absurd rfl h
  | cons x xs => rw [List.getLastD_cons, List.getLastD_cons]

theorem bottomData_closeFrame (top f : Frame) (rest : List Frame) :
    bottomData (closeFrame top f) rest = bottomData top (f :: rest) := by
  rw [bottomData, bottomData, List.getLastD_cons]
  cases rest with
  | nil => rfl
  | cons g gs => rw [getLastD_ne_nil (g :: gs) (closeFrame top f) f (by simp)]

theorem closeAll_data_eq (rest : List Frame) :
    ∀ top, (closeAll top rest).data = bottomData top rest := by
  induction rest with
  | nil =>
    intro top
    rfl
  | cons f rest ih =>
    intro top
    rw [closeAll, ih, bottomData_closeFrame]

theorem popStack_bottomData (level : Nat) (rest : List Frame) :
    ∀ top, bottomData (popStack level top rest).1 (popStack level top rest).2 =
      bottomData top rest := by
  induction rest with
  | nil =>
    intro top
    rfl
  | cons f rest ih =>
    intro top
    rw [popStack]
    split_ifs with h
    · rw [ih, bottomData_closeFrame]
    · rfl

theorem buildTree_data (sections : List (Nat × Str)) :
    ∀ top rest, (buildTree top rest sections).data = bottomData top rest := by
  induction sections with
  | nil =>
    intro top rest
    rw [buildTree, closeAll_data_eq]
  | cons hd ss ih =>
    intro top rest
    obtain ⟨l, t⟩ := hd
    rw [buildTree, ih]
    rw [show bottomData (⟨l, t⟩, [])
        ((popStack l top rest).1 :: (popStack l top rest).2) =
        bottomData (popStack l top rest).1 (popStack l top rest).2 from by
      rw [bottomData, bottomData, List.getLastD_cons]]
    rw [popStack_bottomData]

/-! ### Claim C1: parse-emit identity -/

theorem listSlice_zero (input : Str) (b : Nat) : listSlice input 0 b = input.take b := by
  simp [listSlice]

theorem take_getElem_drop (input : Str) (e : Nat) (he : e < input.length) :
    input.take e ++ input[e] :: input.drop (e + 1) = input := by
  conv_rhs => rw [← List.take_append_drop e input]
  rw [drop_cons_self input e he]

theorem parseDocument_fields (input : Str) (h : input ≠ []) :
    (parseDocument input).root =
      buildTree (⟨0, listSlice input 0 (parseSection input 0).2⟩, []) []
        (scanSections input (parseSection input 0).1) ∧
    (parseDocument input).emptyRootSection =
      ((parseSection input 0).1 == (parseSection input 0).2 &&
        0 == (parseSection input 0).2) ∧
    (parseDocument input).terminalNewline = (input.getLast? == some '\n') := by
  rw [parseDocument, if_neg (by simpa using h)]
  exact ⟨rfl, rfl, rfl⟩

theorem ifTnl_eq_tnlTail (input : Str) :
    (if (input.getLast? == some '\n') then (['\n'] : Str) else []) = tnlTail input := by
  by_cases hl : input.getLast? = some '\n' <;> simp [tnlTail, hl]

/-- **C1**: for every input string, emitting the document produced by parsing
it (via `Document::to_rope` over `parse_document`) yields exactly the input
characters; this holds for every input, including inputs containing tabs, CR
and Unicode whitespace code points, which are ordinary characters here. -/
theorem parse_emit_identity (input : Str) : (parseDocument input).toRope = input := by
  by_cases hemp : input = []
  · subst hemp
    rfl
  · obtain ⟨hroot, hers, htnl⟩ := parseDocument_fields input hemp
    have hlen_pos : 0 < input.length := List.length_pos.mpr hemp
    obtain ⟨d, kids, hshape⟩ : ∃ d kids, (parseDocument input).root = STree.node d kids := by
      cases hr : (parseDocument input).root with
      | node d kids => exact ⟨d, kids, rfl⟩
    have hbuild := hroot.symm.trans hshape
    have hdata : d = ⟨0, listSlice input 0 (parseSection input 0).2⟩ := by
      have hbd := buildTree_data (scanSections input (parseSection input 0).1)
        (⟨0, listSlice input 0 (parseSection input 0).2⟩, []) []
      rw [hbuild] at hbd
      simpa [bottomData, STree.data] using hbd
    have hpre := buildTree_preTexts (scanSections input (parseSection input 0).1)
      (⟨0, listSlice input 0 (parseSection input 0).2⟩, []) []
    rw [hbuild] at hpre
    have hfts : forestTexts kids =
        (scanSections input (parseSection input 0).1).map Prod.snd := by
      have hpre2 : d.text :: forestTexts kids =
          listSlice input 0 (parseSection input 0).2 ::
            (scanSections input (parseSection input 0).1).map Prod.snd := by
        have : preTexts (STree.node d kids) = d.text :: forestTexts kids := rfl
        rw [← this, hpre]
        simp [stackTexts, frameTexts, forestTexts]
      exact (List.cons_eq_cons.mp hpre2).2
    rw [Document.toRope, hshape, htnl, hers, sectionTreeToRope_spec]
    by_cases hC : (parseSection input 0).1 = (parseSection input 0).2 ∧
        0 = (parseSection input 0).2
    · -- empty root section: the input begins with a headline
      have hr1 : (parseSection input 0).1 = 0 := by omega
      have hr2 : (parseSection input 0).2 = 0 := hC.2.symm
      have hdd : d = ⟨0, []⟩ := by
        rw [hdata, hr2]
        simp [listSlice]
      have hersb : ((parseSection input 0).1 == (parseSection input 0).2 &&
          0 == (parseSection input 0).2) = true := by
        simp [hr1, hr2]
      have hl0 : headlineLevel input 0 ≠ 0 := by
        have := parseSection_headline input 0 (by omega)
        rwa [hr1] at this
      have hmap_ne : ((scanSections input (parseSection input 0).1).map Prod.snd) ≠ [] := by
        rw [hr1, scanSections, scanSectionsF_cons input.length input 0 hl0]
        simp
      have hkids_ne : kids.isEmpty = false := by
        rcases kids with _ | ⟨k, ks⟩
        · rw [forestTexts] at hfts
          exact absurd hfts.symm hmap_ne
        · rfl
      rw [if_pos ⟨by rw [hdd], by rw [hdd], hersb⟩, hfts, hkids_ne]
      have hrec := scan_reconstruct input (input.length + 1) 0 (by omega) hl0
      rw [List.drop_zero] at hrec
      rw [← scanSections] at hrec
      rw [hr1]
      calc sepJoin ((scanSections input 0).map Prod.snd) ++
            (if (input.getLast? == some '\n') && !false then ['\n'] else [])
          = sepJoin ((scanSections input 0).map Prod.snd) ++ tnlTail input := by
            rw [← ifTnl_eq_tnlTail input]
            simp
        _ = input := hrec
    · -- the root section is materialised
      have hersb : ((parseSection input 0).1 == (parseSection input 0).2 &&
          0 == (parseSection input 0).2) = false := by
        rcases Decidable.em ((parseSection input 0).1 = (parseSection input 0).2) with he | he
        · rcases Decidable.em ((0:Nat) = (parseSection input 0).2) with hz | hz
          · exact absurd ⟨he, hz⟩ hC
          · simp [hz]
        · simp [he]
      have hnosup : ¬ (d.level = 0 ∧ d.text = [] ∧
          ((parseSection input 0).1 == (parseSection input 0).2 &&
            0 == (parseSection input 0).2) = true) := by
        rintro ⟨-, -, hc⟩
        rw [hersb] at hc
        cases hc
      rw [if_neg hnosup]
      have hdtext : d.text = input.take (parseSection input 0).2 := by
        rw [hdata]
        exact listSlice_zero input _
      have hfst_le : (parseSection input 0).1 ≤ input.length :=
        parseSection_fst_le input 0 (Nat.zero_le _)
      by_cases hend : (parseSection input 0).1 < input.length
      · -- headlines follow the root span
        have hl1 : headlineLevel input (parseSection input 0).1 ≠ 0 :=
          parseSection_headline input 0 hend
        have hr1_pos : 0 < (parseSection input 0).1 := by
          rcases Nat.eq_zero_or_pos (parseSection input 0).1 with hz | hp
          · exfalso
            have hsle := parseSection_snd_le input 0
            exact hC ⟨by omega, by omega⟩
          · exact hp
        have hprev := parseSection_prev_newline input 0 hend hr1_pos
        rcases parseSection_cases input 0 (Nat.zero_le _) with ⟨hc1, hc2⟩ | ⟨hc1, hc2, hc3⟩
        · rcases hc2 with hc | hc
          · omega
          · exact absurd hprev hc
        · have hmap_ne : ((scanSections input (parseSection input 0).1).map Prod.snd)
              ≠ [] := by
            rw [scanSections, scanSectionsF_cons input.length input _ hl1]
            simp
          have hrec := scan_reconstruct input (input.length + 1)
            (parseSection input 0).1 (by omega) hl1
          rw [← scanSections] at hrec
          have he_lt : (parseSection input 0).2 < input.length := by omega
          have hval : input[(parseSection input 0).2] = '\n' := by
            obtain ⟨hlt2, hv⟩ := List.getElem?_eq_some.mp hc2
            exact hv
          rw [hfts, hdtext, sepJoin_cons_of_ne _ _ hmap_ne, ifTnl_eq_tnlTail input]
          calc (input.take (parseSection input 0).2 ++
                '\n' :: sepJoin ((scanSections input (parseSection input 0).1).map Prod.snd))
                ++ tnlTail input
              = input.take (parseSection input 0).2 ++
                '\n' :: (sepJoin ((scanSections input (parseSection input 0).1).map Prod.snd)
                  ++ tnlTail input) := by
                simp
            _ = input.take (parseSection input 0).2 ++
                '\n' :: input.drop (parseSection input 0).1 := by rw [hrec]
            _ = input.take (parseSection input 0).2 ++
                input[(parseSection input 0).2] ::
                  input.drop ((parseSection input 0).2 + 1) := by rw [hval, hc1]
            _ = input := take_getElem_drop input _ he_lt
      · -- the whole input is the root section
        have hr1_len : (parseSection input 0).1 = input.length := by omega
        have hscan : scanSections input (parseSection input 0).1 = [] := by
          rw [scanSections]
          exact scanSectionsF_nil _ input _ (headlineLevel_of_ge input _ (by omega))
        rw [hfts, hscan]
        simp only [List.map_nil, sepJoin, withSep, List.append_nil]
        rcases parseSection_cases input 0 (Nat.zero_le _) with ⟨hc1, hc2⟩ | ⟨hc1, hc2, hc3⟩
        · have hlast : input[input.length - 1]? ≠ some '\n' := by
            rcases hc2 with hc | hc
            · omega
            · rwa [hr1_len] at hc
          have htail : (if (input.getLast? == some '\n') then (['\n'] : Str) else []) = [] := by
            rw [ifTnl_eq_tnlTail input, tnlTail, List.getLast?_eq_getElem?, if_neg hlast]
          rw [htail, List.append_nil, hdtext, hc1, hr1_len, List.take_length]
        · have hr2_eq : (parseSection input 0).2 = input.length - 1 := by omega
          have hval : input[input.length - 1]? = some '\n' := by
            rw [← hr2_eq]
            exact hc2
          have htail : (if (input.getLast? == some '\n') then (['\n'] : Str) else [])
              = ['\n'] := by
            rw [ifTnl_eq_tnlTail input, tnlTail, List.getLast?_eq_getElem?, if_pos hval]
          obtain ⟨hidx, hv⟩ := List.getElem?_eq_some.mp hval
          rw [htail, hdtext, hr2_eq]
          have hsnoc := listSlice_snoc input 0 (input.length - 1) (Nat.zero_le _) hidx
          rw [hv, listSlice_zero, listSlice_zero] at hsnoc
          have hfull : input.length - 1 + 1 = input.length := by omega
          rw [hfull] at hsnoc
          rw [← hsnoc, List.take_length]

/-! ### Claims C4 and C6: the document flags and the two smallest inputs -/

/-- **C6**: parsing the empty string yields a single root section with empty
text, no children, `empty_root_section = true` and `terminal_newline = false`,
and emits the empty string; parsing a lone newline yields a root with empty
text, `empty_root_section = false` and `terminal_newline = true`, and emits a
lone newline. -/
theorem parse_empty_and_lone_newline :
    (parseDocument []).root.data = ⟨0, []⟩ ∧ (parseDocument []).root.kids.isEmpty = true ∧
    (parseDocument []).emptyRootSection = true ∧
    (parseDocument []).terminalNewline = false ∧
    (parseDocument []).toRope = [] ∧
    (parseDocument ['\n']).root.data = ⟨0, []⟩ ∧
    (parseDocument ['\n']).root.kids.isEmpty = true ∧
    (parseDocument ['\n']).emptyRootSection = false ∧
    (parseDocument ['\n']).terminalNewline = true ∧
    (parseDocument ['\n']).toRope = ['\n'] := by
  decide

/-- **C4 counterexample**: the input `"* x"` is non-empty, is not a lone
newline, and its first headline line starts at offset 0, yet the parsed
document has `empty_root_section = true` — not `false` as the claim states
(the claim inverts the flag's polarity). -/
theorem empty_root_section_counterexample :
    (['*', ' ', 'x'] : Str) ≠ [] ∧ (['*', ' ', 'x'] : Str) ≠ ['\n'] ∧
    lexLevel ['*', ' ', 'x'] ≠ 0 ∧
    (parseDocument ['*', ' ', 'x']).emptyRootSection = true := by
  decide

/-- **C4 (amended)**: `empty_root_section` is TRUE iff the input is empty or
its first line is a headline (no content before the first headline);
equivalently it is false for `"\n"` and whenever content precedes the first
headline. -/
theorem empty_root_section_iff (input : Str) :
    (parseDocument input).emptyRootSection = true ↔
      (input = [] ∨ lexLevel input ≠ 0) := by
  by_cases hemp : input = []
  · subst hemp
    simp [parseDocument]
  · obtain ⟨-, hers, -⟩ := parseDocument_fields input hemp
    rw [hers]
    have hlen_pos : 0 < input.length := List.length_pos.mpr hemp
    constructor
    · intro hb
      right
      simp only [Bool.and_eq_true, beq_iff_eq] at hb
      have hr1 : (parseSection input 0).1 = 0 := by omega
      have := parseSection_headline input 0 (by omega)
      rw [hr1] at this
      exact this
    · rintro (h | h)
      · exact absurd h hemp
      · rw [parseSection_at_headline input h]
        simp

/-! ## The arena mutation layer (src/src/tree.rs, src/src/arena.rs)

The arena with its parent/child/sibling links (the external `indextree`
crate) is modelled by its tree view: a forest of root trees (`Forest`).  The
document root is one forest root; `remove_subtree` detaches a subtree and
makes it a new forest root (indextree keeps the node allocated), and the
attach operations take a forest root and move it into a tree, mirroring the
source's detach-then-attach.  A node inside a tree is addressed by the path
of child indices from its root.  Attach targets are addressed by the path of
the new parent; `insert_before/after`, `remove_subtree` and
`replace_with_children` address the affected child as (parent path, child
index), which also captures the source's requirement that the node have a
parent. -/

abbrev Forest := List STree

/-- Model of `Arena::section_min_level` (src/src/arena.rs): raise the node's
level to `minLevel` if it is below it, prepending `'*'` characters to its
text, plus one ASCII space when the node previously had level 0. -/
def sectionMinLevel (d : SectionData) (minLevel : Nat) : SectionData :=
  if minLevel ≤ d.level then d
  else
    { level := minLevel
      text := List.replicate (minLevel - d.level) '*' ++
        (if d.level = 0 then [' '] else []) ++ d.text }

/-- Model of `Arena::section_max_level` (src/src/arena.rs). -/
def sectionMaxLevel (d : SectionData) (maxLevel : Nat) : SectionData :=
  if d.level ≤ maxLevel then d
  else
    { level := maxLevel
      text := d.text.drop ((d.level - maxLevel) + (if maxLevel = 0 then 1 else 0)) }

/-- Model of `Arena::set_level` (src/src/arena.rs). -/
def arenaSetLevel (d : SectionData) (level : Nat) : SectionData :=
  if level < d.level then sectionMaxLevel d level
  else if d.level < level then sectionMinLevel d level
  else d

/-- `section_min_level` applied to the root of a moved subtree (the Rust code
adjusts only the moved node's `SectionData`, not its descendants). -/
def bumpRoot (t : STree) (minLevel : Nat) : STree :=
  match t with
  | .node d kids => .node (sectionMinLevel d minLevel) kids

/-- The node of a tree at a path of child indices. -/
def getNode : STree → List Nat → Option STree
  | t, [] => some t
  | .node _ kids, i :: p =>
    match kids[i]? with
    | some c => getNode c p
    | none => none

/-- Rebuild a tree with the node at `p` replaced by `f` of it. -/
def updateAt : STree → List Nat → (STree → Option STree) → Option STree
  | t, [], f => f t
  | .node d kids, i :: p, f =>
    match kids[i]? with
    | some c =>
      match updateAt c p f with
      | some c2 => some (.node d (kids.set i c2))
      | none => none
    | none => none

/-- The attach step of `Section::append`: bump the new child against the
parent's level and add it as the last child. -/
def appendChild (c : STree) (n : STree) : Option STree :=
  some (.node n.data (n.kids ++ [bumpRoot c (n.data.level + 1)]))

/-- The attach step of `Section::prepend`. -/
def prependChild (c : STree) (n : STree) : Option STree :=
  some (.node n.data (bumpRoot c (n.data.level + 1) :: n.kids))

/-- The attach step of `Section::insert_before` applied at the parent `n` of
the addressed sibling (index `i`); the parent's existence is the source's
`self.parent(arena)` requirement. -/
def insertBeforeChild (i : Nat) (c : STree) (n : STree) : Option STree :=
  match n.kids[i]? with
  | some _ => some (.node n.data (List.insertIdx i (bumpRoot c (n.data.level + 1)) n.kids))
  | none => none

/-- The attach step of `Section::insert_after`. -/
def insertAfterChild (i : Nat) (c : STree) (n : STree) : Option STree :=
  match n.kids[i]? with
  | some _ => some (.node n.data (List.insertIdx (i + 1) (bumpRoot c (n.data.level + 1)) n.kids))
  | none => none

/-- `Section::checked_append`: fail with a `LevelError` (here `none`) instead
of bumping. -/
def checkedAppendChild (c : STree) (n : STree) : Option STree :=
  if c.data.level ≤ n.data.level then none
  else some (.node n.data (n.kids ++ [c]))

/-- `Section::checked_prepend`. -/
def checkedPrependChild (c : STree) (n : STree) : Option STree :=
  if c.data.level ≤ n.data.level then none
  else some (.node n.data (c :: n.kids))

/-- `Section::checked_insert_before` at the sibling's parent. -/
def checkedInsertBeforeChild (i : Nat) (c : STree) (n : STree) : Option STree :=
  match n.kids[i]? with
  | some _ =>
    if c.data.level ≤ n.data.level then none
    else some (.node n.data (List.insertIdx i c n.kids))
  | none => none

/-- `Section::checked_insert_after` at the sibling's parent. -/
def checkedInsertAfterChild (i : Nat) (c : STree) (n : STree) : Option STree :=
  match n.kids[i]? with
  | some _ =>
    if c.data.level ≤ n.data.level then none
    else some (.node n.data (List.insertIdx (i + 1) c n.kids))
  | none => none

/-- The detach step of `Section::remove_subtree` (indextree `detach`) at the
parent of the removed child. -/
def eraseChildAt (i : Nat) (n : STree) : Option STree :=
  match n.kids[i]? with
  | some _ => some (.node n.data (n.kids.eraseIdx i))
  | none => none

/-- `Section::replace_with_children` (indextree `remove`) at the parent of
the removed node: its children take its place. -/
def spliceChildAt (i : Nat) (n : STree) : Option STree :=
  match n.kids[i]? with
  | some ch => some (.node n.data (n.kids.take i ++ ch.kids ++ n.kids.drop (i + 1)))
  | none => none

/-- Model of `Section::level_change_ok` (src/src/headline/parser.rs).
`parentLevel?` is the level of the node's parent, if it has one. -/
def levelChangeOk (parentLevel? : Option Nat) (node : STree) (lvl : Nat) : Bool :=
  if node.data.level = lvl then true
  else if node.data.level = 0 || lvl = 0 then false
  else if (match parentLevel? with | some pl => decide (lvl ≤ pl) | none => false : Bool) then false
  else node.kids.all (fun c => decide (lvl < c.data.level))

/-- The `Section::set_level` edit at the parent of the addressed child. -/
def setLevelChild (i lvl : Nat) (n : STree) : Option STree :=
  match n.kids[i]? with
  | some ch =>
    if levelChangeOk (some n.data.level) ch lvl then
      some (.node n.data (n.kids.set i (.node (arenaSetLevel ch.data lvl) ch.kids)))
    else none
  | none => none

/-- Model of `Arena::new_section` (src/src/arena.rs): parse as a document; it
must have at most one top-level headline, and an empty root with exactly one
child collapses to that child. -/
def newSection (text : Str) : Option STree :=
  let doc := parseDocument text
  match doc.root.kids with
  | [] => some doc.root
  | [c] =>
    if doc.root.data.text.isEmpty && doc.emptyRootSection then some c else some doc.root
  | _ :: _ :: _ => none

/-- The `Section::set_raw` edit at the parent of the addressed child: the
replacement must parse as a single childless section whose level passes
`level_change_ok`; only the node's data is overwritten, its children stay. -/
def setRawChild (i : Nat) (text : Str) (n : STree) : Option STree :=
  match newSection text with
  | some parsed =>
    match parsed.kids with
    | _ :: _ => none
    | [] =>
      match n.kids[i]? with
      | some ch =>
        if levelChangeOk (some n.data.level) ch parsed.data.level then
          some (.node n.data (n.kids.set i (.node parsed.data ch.kids)))
        else none
      | none => none
  | none => none

/-- The structural operations of the claims, acting on a forest.  `r` indexes
the tree holding the edited node, `c` indexes the (detached) tree being
attached. -/
inductive TreeOp where
  | append (r : Nat) (p : List Nat) (c : Nat)
  | prepend (r : Nat) (p : List Nat) (c : Nat)
  | insertBefore (r : Nat) (q : List Nat) (i : Nat) (c : Nat)
  | insertAfter (r : Nat) (q : List Nat) (i : Nat) (c : Nat)
  | checkedAppend (r : Nat) (p : List Nat) (c : Nat)
  | checkedPrepend (r : Nat) (p : List Nat) (c : Nat)
  | checkedInsertBefore (r : Nat) (q : List Nat) (i : Nat) (c : Nat)
  | checkedInsertAfter (r : Nat) (q : List Nat) (i : Nat) (c : Nat)
  | removeSubtree (r : Nat) (q : List Nat) (i : Nat)
  | replaceWithChildren (r : Nat) (q : List Nat) (i : Nat)
  | setLevel (r : Nat) (p : List Nat) (lvl : Nat)
  | setRaw (r : Nat) (p : List Nat) (text : Str)

/-- Attach the forest root `c` into tree `r` by the local edit `f` at path
`p`; the moved tree leaves the root list. -/
def attachOp (forest : Forest) (r : Nat) (p : List Nat) (c : Nat)
    (f : STree → STree → Option STree) : Option Forest :=
  match forest[r]?, forest[c]? with
  | some t, some ct =>
    if r = c then none
    else
      match updateAt t p (f ct) with
      | some t2 => some ((forest.set r t2).eraseIdx c)
      | none => none
  | _, _ => none

/-- Edit tree `r` in place by the local edit `f` at path `p`. -/
def editOp (forest : Forest) (r : Nat) (p : List Nat)
    (f : STree → Option STree) : Option Forest :=
  match forest[r]? with
  | some t =>
    match updateAt t p f with
    | some t2 => some (forest.set r t2)
    | none => none
  | none => none

/-- One structural operation on the forest; `none` models the operation
returning an error. -/
def applyOp (forest : Forest) : TreeOp → Option Forest
  | .append r p c => attachOp forest r p c appendChild
  | .prepend r p c => attachOp forest r p c prependChild
  | .insertBefore r q i c => attachOp forest r q c (insertBeforeChild i)
  | .insertAfter r q i c => attachOp forest r q c (insertAfterChild i)
  | .checkedAppend r p c => attachOp forest r p c checkedAppendChild
  | .checkedPrepend r p c => attachOp forest r p c checkedPrependChild
  | .checkedInsertBefore r q i c => attachOp forest r q c (checkedInsertBeforeChild i)
  | .checkedInsertAfter r q i c => attachOp forest r q c (checkedInsertAfterChild i)
  | .removeSubtree r q i =>
    match forest[r]? with
    | some t =>
      match getNode t (q ++ [i]), updateAt t q (eraseChildAt i) with
      | some removed, some t2 => some (forest.set r t2 ++ [removed])
      | _, _ => none
    | none => none
  | .replaceWithChildren r q i => editOp forest r q (spliceChildAt i)
  | .setLevel r p lvl =>
    match p.getLast? with
    | some i =>
      editOp forest r p.dropLast (setLevelChild i lvl)
    | none =>
      match forest[r]? with
      | some t =>
        if levelChangeOk none t lvl then
          some (forest.set r (.node (arenaSetLevel t.data lvl) t.kids))
        else none
      | none => none
  | .setRaw r p text =>
    match p.getLast? with
    | some i =>
      editOp forest r p.dropLast (setRawChild i text)
    | none =>
      match forest[r]?, newSection text with
      | some t, some parsed =>
        match parsed.kids with
        | _ :: _ => none
        | [] =>
          if levelChangeOk none t parsed.data.level then
            some (forest.set r (.node parsed.data t.kids))
          else none
      | _, _ => none

/-- Apply a sequence of operations, all of which must succeed. -/
def applyOps (forest : Forest) : List TreeOp → Option Forest
  | [] => some forest
  | op :: ops =>
    match applyOp forest op with
    | some f2 => applyOps f2 ops
    | none => none

mutual
/-- Strict level monotonicity of a tree: every child's level strictly
exceeds its parent's. -/
def wfTree : STree → Bool
  | .node d kids => wfKidsB d.level kids

def wfKidsB : Nat → List STree → Bool
  | _, [] => true
  | l, t :: ts => decide (l < t.data.level) && wfTree t && wfKidsB l ts
end

/-- Monotonicity for every tree in the forest. -/
def wfForest (f : Forest) : Bool := f.all wfTree

/-- The side condition under which an unchecked attach preserves
monotonicity: either the moved root needs no bump, or all its children lie
strictly above the bumped level. -/
def opSafeB (forest : Forest) : TreeOp → Bool
  | .append r p c | .prepend r p c =>
    match forest[r]?, forest[c]? with
    | some t, some ct =>
      match getNode t p with
      | some n =>
        decide (n.data.level < ct.data.level) ||
          ct.kids.all (fun k => decide (n.data.level + 1 < k.data.level))
      | none => true
    | _, _ => true
  | .insertBefore r q _ c | .insertAfter r q _ c =>
    match forest[r]?, forest[c]? with
    | some t, some ct =>
      match getNode t q with
      | some n =>
        decide (n.data.level < ct.data.level) ||
          ct.kids.all (fun k => decide (n.data.level + 1 < k.data.level))
      | none => true
    | _, _ => true
  | _ => true

/-- States reachable through successful operations that each satisfy the
attach side condition. -/
inductive SafeReach : Forest → Forest → Prop where
  | refl (f : Forest) : SafeReach f f
  | step (f g h : Forest) (op : TreeOp) : SafeReach f g → opSafeB g op = true →
      applyOp g op = some h → SafeReach f h

mutual
/-- The data of every node of a tree, in preorder. -/
def allData : STree → List SectionData
  | .node d kids => d :: kidsData kids

def kidsData : List STree → List SectionData
  | [] => []
  | t :: ts => allData t ++ kidsData ts
end

/-- The data of every node of the forest. -/
def forestData (f : Forest) : List SectionData := (f.map allData).flatten

/-! ### Lemmas: level monotonicity (wf) preservation -/

theorem wfKidsB_iff (l : Nat) (ks : List STree) :
    wfKidsB l ks = true ↔ ∀ k ∈ ks, l < k.data.level ∧ wfTree k = true := by
  induction ks with
  | nil => simp [wfKidsB]
  | cons t ts ih =>
    simp only [wfKidsB, Bool.and_eq_true, decide_eq_true_eq, ih, List.mem_cons]
    constructor
    · rintro ⟨⟨h1, h2⟩, h3⟩ k hk
      rcases hk with rfl | hk
      · exact ⟨h1, h2⟩
      · exact h3 k hk
    · intro h
      exact ⟨⟨(h t (Or.inl rfl)).1, (h t (Or.inl rfl)).2⟩, fun k hk => h k (Or.inr hk)⟩

theorem wfTree_node (d : SectionData) (kids : List STree) :
    wfTree (STree.node d kids) = wfKidsB d.level kids := rfl

theorem wfTree_iff (t : STree) :
    wfTree t = true ↔ ∀ k ∈ t.kids, t.data.level < k.data.level ∧ wfTree k = true := by
  cases t with
  | node d kids => exact wfKidsB_iff d.level kids

theorem getNode_wf (p : List Nat) :
    ∀ t n, wfTree t = true → getNode t p = some n → wfTree n = true := by
  induction p with
  | nil =>
    intro t n hwf hg
    rw [getNode] at hg
    injection hg with hn
    subst hn
    exact hwf
  | cons i p ih =>
    intro t n hwf hg
    cases t with
    | node d kids =>
      rw [getNode] at hg
      cases hch : kids[i]? with
      | none => rw [hch] at hg; cases hg
      | some ch =>
        rw [hch] at hg
        dsimp only at hg
        have hmem := List.getElem?_mem hch
        have := (wfKidsB_iff d.level kids).mp hwf ch hmem
        exact ih ch n this.2 hg

theorem updateAt_wf_master (f : STree → Option STree) (p : List Nat) :
    ∀ t n t2, wfTree t = true → getNode t p = some n → updateAt t p f = some t2 →
    (∀ n2, f n = some n2 → n2.data = n.data ∧ wfTree n2 = true) →
    wfTree t2 = true ∧ t2.data = t.data := by
  induction p with
  | nil =>
    intro t n t2 hwf hg hu hf
    rw [getNode] at hg
    injection hg with hn
    subst hn
    rw [updateAt] at hu
    obtain ⟨hd, hw⟩ := hf t2 hu
    exact ⟨hw, hd⟩
  | cons i p ih =>
    intro t n t2 hwf hg hu hf
    cases t with
    | node d kids =>
      rw [getNode] at hg
      rw [updateAt] at hu
      cases hch : kids[i]? with
      | none => rw [hch] at hu; cases hu
      | some ch =>
        rw [hch] at hg hu
        dsimp only at hg hu
        cases hrec : updateAt ch p f with
        | none => rw [hrec] at hu; cases hu
        | some ch2 =>
          rw [hrec] at hu
          cases hu
          have hmem := List.getElem?_mem hch
          have hch_wf := (wfKidsB_iff d.level kids).mp hwf ch hmem
          obtain ⟨hw2, hd2⟩ := ih ch n ch2 hch_wf.2 hg hrec hf
          refine ⟨?_, rfl⟩
          rw [wfTree_node]
          rw [wfKidsB_iff]
          intro k hk
          rcases List.mem_or_eq_of_mem_set hk with hk2 | rfl
          · exact (wfKidsB_iff d.level kids).mp hwf k hk2
          · rw [hd2]
            exact ⟨hch_wf.1, hw2⟩

/-- The attach side condition, as a proposition about the parent level. -/
def attachSafe (l : Nat) (ct : STree) : Prop :=
  l < ct.data.level ∨ ∀ k ∈ ct.kids, l + 1 < k.data.level

theorem bumpRoot_level (ct : STree) (m : Nat) :
    (bumpRoot ct m).data.level = max ct.data.level m := by
  cases ct with
  | node d kids =>
    show (sectionMinLevel d m).level = max d.level m
    rw [sectionMinLevel]
    by_cases h : m ≤ d.level
    · rw [if_pos h]; omega
    · rw [if_neg h]
      show m = max d.level m
      omega

theorem bumpRoot_kids (ct : STree) (m : Nat) : (bumpRoot ct m).kids = ct.kids := by
  cases ct with
  | node d kids =>
    rfl

theorem bumpRoot_wf (ct : STree) (l : Nat) (hwf : wfTree ct = true)
    (hsafe : attachSafe l ct) :
    wfTree (bumpRoot ct (l + 1)) = true ∧ l < (bumpRoot ct (l + 1)).data.level := by
  have hlv := bumpRoot_level ct (l + 1)
  have hkd := bumpRoot_kids ct (l + 1)
  constructor
  · rw [wfTree_iff, hkd, hlv]
    intro k hk
    have hk_wf := (wfTree_iff ct).mp hwf k hk
    rcases hsafe with hs | hs
    · have : max ct.data.level (l + 1) = ct.data.level := by omega
      rw [this]
      exact hk_wf
    · have := hs k hk
      constructor
      · omega
      · exact hk_wf.2
  · omega

theorem wfForest_get (f : Forest) (r : Nat) (t : STree) (hwf : wfForest f = true)
    (h : f[r]? = some t) : wfTree t = true := by
  rw [wfForest, List.all_eq_true] at hwf
  exact hwf t (List.getElem?_mem h)

theorem wfForest_set (f : Forest) (r : Nat) (t : STree) (hwf : wfForest f = true)
    (ht : wfTree t = true) : wfForest (f.set r t) = true := by
  rw [wfForest, List.all_eq_true] at hwf ⊢
  intro x hx
  rcases List.mem_or_eq_of_mem_set hx with hx2 | rfl
  · exact hwf x hx2
  · exact ht

theorem wfForest_eraseIdx (f : Forest) (c : Nat) (hwf : wfForest f = true) :
    wfForest (f.eraseIdx c) = true := by
  rw [wfForest, List.all_eq_true] at hwf ⊢
  intro x hx
  exact hwf x (List.mem_of_mem_eraseIdx hx)

theorem wfForest_push (f : Forest) (t : STree) (hwf : wfForest f = true)
    (ht : wfTree t = true) : wfForest (f ++ [t]) = true := by
  rw [wfForest, List.all_eq_true] at hwf ⊢
  intro x hx
  rcases List.mem_append.mp hx with hx2 | hx2
  · exact hwf x hx2
  · rw [List.mem_singleton] at hx2
    subst hx2
    exact ht

theorem arenaSetLevel_level (d : SectionData) (lvl : Nat) :
    (arenaSetLevel d lvl).level = lvl := by
  rw [arenaSetLevel]
  by_cases h1 : lvl < d.level
  · rw [if_pos h1, sectionMaxLevel, if_neg (by omega)]
  · rw [if_neg h1]
    by_cases h2 : d.level < lvl
    · rw [if_pos h2, sectionMinLevel, if_neg (by omega)]
    · rw [if_neg h2]
      omega

theorem updateAt_getNode (f : STree → Option STree) (p : List Nat) :
    ∀ t t2, updateAt t p f = some t2 → ∃ n, getNode t p = some n ∧ ∃ n2, f n = some n2 := by
  induction p with
  | nil =>
    intro t t2 hu
    rw [updateAt] at hu
    exact ⟨t, by rw [getNode], t2, hu⟩
  | cons i p ih =>
    intro t t2 hu
    cases t with
    | node d kids =>
      rw [updateAt] at hu
      cases hch : kids[i]? with
      | none => rw [hch] at hu; cases hu
      | some ch =>
        rw [hch] at hu
        dsimp only at hu
        cases hrec : updateAt ch p f with
        | none => rw [hrec] at hu; cases hu
        | some ch2 =>
          obtain ⟨n, hg, hn2⟩ := ih ch ch2 hrec
          refine ⟨n, ?_, hn2⟩
          rw [getNode, hch]
          exact hg

theorem levelChangeOk_some_spec (pl : Nat) (node : STree) (lvl : Nat)
    (h : levelChangeOk (some pl) node lvl = true) :
    node.data.level = lvl ∨
      (lvl ≠ 0 ∧ pl < lvl ∧ ∀ k ∈ node.kids, lvl < k.data.level) := by
  rw [levelChangeOk] at h
  by_cases heq : node.data.level = lvl
  · exact Or.inl heq
  · rw [if_neg heq] at h
    right
    by_cases h0 : node.data.level = 0
    · rw [if_pos (by simp [h0])] at h
      cases h
    · by_cases h1 : lvl = 0
      · rw [if_pos (by simp [h1])] at h
        cases h
      · rw [if_neg (by simp [h0, h1])] at h
        by_cases hp : lvl ≤ pl
        · rw [if_pos (by simp [hp])] at h
          cases h
        · rw [if_neg (by simp [hp])] at h
          refine ⟨h1, by omega, ?_⟩
          intro k hk
          have := List.all_eq_true.mp h k hk
          simpa using this

theorem levelChangeOk_none_spec (node : STree) (lvl : Nat)
    (h : levelChangeOk none node lvl = true) :
    node.data.level = lvl ∨ (lvl ≠ 0 ∧ ∀ k ∈ node.kids, lvl < k.data.level) := by
  rw [levelChangeOk] at h
  by_cases heq : node.data.level = lvl
  · exact Or.inl heq
  · rw [if_neg heq] at h
    right
    by_cases h0 : node.data.level = 0
    · rw [if_pos (by simp [h0])] at h
      cases h
    · by_cases h1 : lvl = 0
      · rw [if_pos (by simp [h1])] at h
        cases h
      · rw [if_neg (by simp [h0, h1])] at h
        rw [if_neg (by simp)] at h
        refine ⟨h1, ?_⟩
        intro k hk
        have := List.all_eq_true.mp h k hk
        simpa using this

/-! Local-edit wf lemmas: each structural edit at a node preserves the node's
data and tree monotonicity, given the relevant side conditions. -/

theorem appendChild_wf (ct n : STree) (hct : wfTree ct = true)
    (hsafe : attachSafe n.data.level ct) (hn : wfTree n = true) :
    ∀ n2, appendChild ct n = some n2 → n2.data = n.data ∧ wfTree n2 = true := by
  intro n2 h
  rw [appendChild] at h
  injection h with h2
  subst h2
  refine ⟨rfl, ?_⟩
  rw [wfTree_node, wfKidsB_iff]
  intro k hk
  rcases List.mem_append.mp hk with hk2 | hk2
  · exact (wfTree_iff n).mp hn k hk2
  · rw [List.mem_singleton] at hk2
    subst hk2
    obtain ⟨hw, hl⟩ := bumpRoot_wf ct n.data.level hct hsafe
    exact ⟨hl, hw⟩

theorem prependChild_wf (ct n : STree) (hct : wfTree ct = true)
    (hsafe : attachSafe n.data.level ct) (hn : wfTree n = true) :
    ∀ n2, prependChild ct n = some n2 → n2.data = n.data ∧ wfTree n2 = true := by
  intro n2 h
  rw [prependChild] at h
  injection h with h2
  subst h2
  refine ⟨rfl, ?_⟩
  rw [wfTree_node, wfKidsB_iff]
  intro k hk
  rcases List.mem_cons.mp hk with hk2 | hk2
  · subst hk2
    obtain ⟨hw, hl⟩ := bumpRoot_wf ct n.data.level hct hsafe
    exact ⟨hl, hw⟩
  · exact (wfTree_iff n).mp hn k hk2

theorem insertBeforeChild_wf (i : Nat) (ct n : STree) (hct : wfTree ct = true)
    (hsafe : attachSafe n.data.level ct) (hn : wfTree n = true) :
    ∀ n2, insertBeforeChild i ct n = some n2 → n2.data = n.data ∧ wfTree n2 = true := by
  intro n2 h
  rw [insertBeforeChild] at h
  cases hch : n.kids[i]? with
  | none => rw [hch] at h; cases h
  | some ch =>
    rw [hch] at h
    dsimp only at h
    injection h with h2
    subst h2
    refine ⟨rfl, ?_⟩
    rw [wfTree_node, wfKidsB_iff]
    intro k hk
    obtain ⟨hlt, -⟩ := List.getElem?_eq_some.mp hch
    rcases (List.mem_insertIdx (le_of_lt hlt)).mp hk with rfl | hk2
    · obtain ⟨hw, hl⟩ := bumpRoot_wf ct n.data.level hct hsafe
      exact ⟨hl, hw⟩
    · exact (wfTree_iff n).mp hn k hk2

theorem insertAfterChild_wf (i : Nat) (ct n : STree) (hct : wfTree ct = true)
    (hsafe : attachSafe n.data.level ct) (hn : wfTree n = true) :
    ∀ n2, insertAfterChild i ct n = some n2 → n2.data = n.data ∧ wfTree n2 = true := by
  intro n2 h
  rw [insertAfterChild] at h
  cases hch : n.kids[i]? with
  | none => rw [hch] at h; cases h
  | some ch =>
    rw [hch] at h
    dsimp only at h
    injection h with h2
    subst h2
    refine ⟨rfl, ?_⟩
    rw [wfTree_node, wfKidsB_iff]
    intro k hk
    obtain ⟨hlt, -⟩ := List.getElem?_eq_some.mp hch
    rcases (List.mem_insertIdx (by omega)).mp hk with rfl | hk2
    · obtain ⟨hw, hl⟩ := bumpRoot_wf ct n.data.level hct hsafe
      exact ⟨hl, hw⟩
    · exact (wfTree_iff n).mp hn k hk2

theorem checkedAppendChild_wf (ct n : STree) (hct : wfTree ct = true)
    (hn : wfTree n = true) :
    ∀ n2, checkedAppendChild ct n = some n2 → n2.data = n.data ∧ wfTree n2 = true := by
  intro n2 h
  rw [checkedAppendChild] at h
  by_cases hle : ct.data.level ≤ n.data.level
  · rw [if_pos hle] at h; cases h
  · rw [if_neg hle] at h
    injection h with h2
    subst h2
    refine ⟨rfl, ?_⟩
    rw [wfTree_node, wfKidsB_iff]
    intro k hk
    rcases List.mem_append.mp hk with hk2 | hk2
    · exact (wfTree_iff n).mp hn k hk2
    · rw [List.mem_singleton] at hk2
      subst hk2
      exact ⟨by omega, hct⟩

theorem checkedPrependChild_wf (ct n : STree) (hct : wfTree ct = true)
    (hn : wfTree n = true) :
    ∀ n2, checkedPrependChild ct n = some n2 → n2.data = n.data ∧ wfTree n2 = true := by
  intro n2 h
  rw [checkedPrependChild] at h
  by_cases hle : ct.data.level ≤ n.data.level
  · rw [if_pos hle] at h; cases h
  · rw [if_neg hle] at h
    injection h with h2
    subst h2
    refine ⟨rfl, ?_⟩
    rw [wfTree_node, wfKidsB_iff]
    intro k hk
    rcases List.mem_cons.mp hk with hk2 | hk2
    · subst hk2
      exact ⟨by omega, hct⟩
    · exact (wfTree_iff n).mp hn k hk2

theorem checkedInsertBeforeChild_wf (i : Nat) (ct n : STree) (hct : wfTree ct = true)
    (hn : wfTree n = true) :
    ∀ n2, checkedInsertBeforeChild i ct n = some n2 → n2.data = n.data ∧ wfTree n2 = true := by
  intro n2 h
  rw [checkedInsertBeforeChild] at h
  cases hch : n.kids[i]? with
  | none => rw [hch] at h; cases h
  | some ch =>
    rw [hch] at h
    dsimp only at h
    by_cases hle : ct.data.level ≤ n.data.level
    · rw [if_pos hle] at h; cases h
    · rw [if_neg hle] at h
      injection h with h2
      subst h2
      refine ⟨rfl, ?_⟩
      rw [wfTree_node, wfKidsB_iff]
      intro k hk
      obtain ⟨hlt, -⟩ := List.getElem?_eq_some.mp hch
      rcases (List.mem_insertIdx (le_of_lt hlt)).mp hk with rfl | hk2
      · exact ⟨by omega, hct⟩
      · exact (wfTree_iff n).mp hn k hk2

theorem checkedInsertAfterChild_wf (i : Nat) (ct n : STree) (hct : wfTree ct = true)
    (hn : wfTree n = true) :
    ∀ n2, checkedInsertAfterChild i ct n = some n2 → n2.data = n.data ∧ wfTree n2 = true := by
  intro n2 h
  rw [checkedInsertAfterChild] at h
  cases hch : n.kids[i]? with
  | none => rw [hch] at h; cases h
  | some ch =>
    rw [hch] at h
    dsimp only at h
    by_cases hle : ct.data.level ≤ n.data.level
    · rw [if_pos hle] at h; cases h
    · rw [if_neg hle] at h
      injection h with h2
      subst h2
      refine ⟨rfl, ?_⟩
      rw [wfTree_node, wfKidsB_iff]
      intro k hk
      obtain ⟨hlt, -⟩ := List.getElem?_eq_some.mp hch
      rcases (List.mem_insertIdx (by omega)).mp hk with rfl | hk2
      · exact ⟨by omega, hct⟩
      · exact (wfTree_iff n).mp hn k hk2

theorem eraseChildAt_wf (i : Nat) (n : STree) (hn : wfTree n = true) :
    ∀ n2, eraseChildAt i n = some n2 → n2.data = n.data ∧ wfTree n2 = true := by
  intro n2 h
  rw [eraseChildAt] at h
  cases hch : n.kids[i]? with
  | none => rw [hch] at h; cases h
  | some ch =>
    rw [hch] at h
    dsimp only at h
    injection h with h2
    subst h2
    refine ⟨rfl, ?_⟩
    rw [wfTree_node, wfKidsB_iff]
    intro k hk
    exact (wfTree_iff n).mp hn k (List.mem_of_mem_eraseIdx hk)

theorem spliceChildAt_wf (i : Nat) (n : STree) (hn : wfTree n = true) :
    ∀ n2, spliceChildAt i n = some n2 → n2.data = n.data ∧ wfTree n2 = true := by
  intro n2 h
  rw [spliceChildAt] at h
  cases hch : n.kids[i]? with
  | none => rw [hch] at h; cases h
  | some ch =>
    rw [hch] at h
    dsimp only at h
    injection h with h2
    subst h2
    obtain ⟨hclt, hcw⟩ := (wfTree_iff n).mp hn ch (List.getElem?_mem hch)
    refine ⟨rfl, ?_⟩
    rw [wfTree_node, wfKidsB_iff]
    intro k hk
    rcases List.mem_append.mp hk with hk2 | hk2
    · rcases List.mem_append.mp hk2 with hk3 | hk3
      · exact (wfTree_iff n).mp hn k (List.take_subset i n.kids hk3)
      · obtain ⟨hklt, hkw⟩ := (wfTree_iff ch).mp hcw k hk3
        exact ⟨by omega, hkw⟩
    · exact (wfTree_iff n).mp hn k (List.drop_subset (i + 1) n.kids hk2)

theorem setLevelChild_wf (i lvl : Nat) (n : STree) (hn : wfTree n = true) :
    ∀ n2, setLevelChild i lvl n = some n2 → n2.data = n.data ∧ wfTree n2 = true := by
  intro n2 h
  rw [setLevelChild] at h
  cases hch : n.kids[i]? with
  | none => rw [hch] at h; cases h
  | some ch =>
    rw [hch] at h
    dsimp only at h
    by_cases hok : levelChangeOk (some n.data.level) ch lvl = true
    · rw [if_pos hok] at h
      injection h with h2
      subst h2
      obtain ⟨hclt, hcw⟩ := (wfTree_iff n).mp hn ch (List.getElem?_mem hch)
      refine ⟨rfl, ?_⟩
      rw [wfTree_node, wfKidsB_iff]
      intro k hk
      rcases List.mem_or_eq_of_mem_set hk with hk2 | rfl
      · exact (wfTree_iff n).mp hn k hk2
      · rcases levelChangeOk_some_spec n.data.level ch lvl hok with heq | ⟨h1, h2, h3⟩
        · refine ⟨?_, ?_⟩
          · show n.data.level < (arenaSetLevel ch.data lvl).level
            rw [arenaSetLevel_level]
            omega
          · rw [wfTree_node, arenaSetLevel_level, wfKidsB_iff]
            intro k2 hk2
            obtain ⟨hklt, hkw⟩ := (wfTree_iff ch).mp hcw k2 hk2
            exact ⟨by omega, hkw⟩
        · refine ⟨?_, ?_⟩
          · show n.data.level < (arenaSetLevel ch.data lvl).level
            rw [arenaSetLevel_level]
            omega
          · rw [wfTree_node, arenaSetLevel_level, wfKidsB_iff]
            intro k2 hk2
            exact ⟨h3 k2 hk2, ((wfTree_iff ch).mp hcw k2 hk2).2⟩
    · rw [if_neg hok] at h; cases h

theorem setRawChild_wf (i : Nat) (text : Str) (n : STree) (hn : wfTree n = true) :
    ∀ n2, setRawChild i text n = some n2 → n2.data = n.data ∧ wfTree n2 = true := by
  intro n2 h
  rw [setRawChild] at h
  cases hns : newSection text with
  | none => rw [hns] at h; cases h
  | some parsed =>
    rw [hns] at h
    dsimp only at h
    cases hpk : parsed.kids with
    | cons a b => rw [hpk] at h; cases h
    | nil =>
      rw [hpk] at h
      dsimp only at h
      cases hch : n.kids[i]? with
      | none => rw [hch] at h; cases h
      | some ch =>
        rw [hch] at h
        dsimp only at h
        by_cases hok : levelChangeOk (some n.data.level) ch parsed.data.level = true
        · rw [if_pos hok] at h
          injection h with h2
          subst h2
          obtain ⟨hclt, hcw⟩ := (wfTree_iff n).mp hn ch (List.getElem?_mem hch)
          refine ⟨rfl, ?_⟩
          rw [wfTree_node, wfKidsB_iff]
          intro k hk
          rcases List.mem_or_eq_of_mem_set hk with hk2 | rfl
          · exact (wfTree_iff n).mp hn k hk2
          · rcases levelChangeOk_some_spec n.data.level ch parsed.data.level hok with
              heq | ⟨h1, h2, h3⟩
            · refine ⟨?_, ?_⟩
              · show n.data.level < parsed.data.level
                omega
              · rw [wfTree_node, wfKidsB_iff]
                intro k2 hk2
                obtain ⟨hklt, hkw⟩ := (wfTree_iff ch).mp hcw k2 hk2
                exact ⟨by omega, hkw⟩
            · refine ⟨?_, ?_⟩
              · show n.data.level < parsed.data.level
                omega
              · rw [wfTree_node, wfKidsB_iff]
                intro k2 hk2
                exact ⟨h3 k2 hk2, ((wfTree_iff ch).mp hcw k2 hk2).2⟩
        · rw [if_neg hok] at h; cases h

theorem attachOp_wf (forest : Forest) (r : Nat) (p : List Nat) (c : Nat)
    (g : STree → STree → Option STree) (f2 : Forest)
    (hwf : wfForest forest = true)
    (h : attachOp forest r p c g = some f2)
    (hloc : ∀ t ct n, forest[r]? = some t → forest[c]? = some ct →
      getNode t p = some n →
      ∀ n2, g ct n = some n2 → n2.data = n.data ∧ wfTree n2 = true) :
    wfForest f2 = true := by
  rw [attachOp] at h
  cases ht : forest[r]? with
  | none =>
    cases hct : forest[c]? <;> rw [ht, hct] at h <;> cases h
  | some t =>
    cases hct : forest[c]? with
    | none => rw [ht, hct] at h; cases h
    | some ct =>
      rw [ht, hct] at h
      dsimp only at h
      by_cases hrc : r = c
      · rw [if_pos hrc] at h; cases h
      · rw [if_neg hrc] at h
        cases hu : updateAt t p (g ct) with
        | none => rw [hu] at h; cases h
        | some t2 =>
          rw [hu] at h
          dsimp only at h
          injection h with h2
          subst h2
          obtain ⟨n, hgn, -⟩ := updateAt_getNode (g ct) p t t2 hu
          have htw := wfForest_get forest r t hwf ht
          obtain ⟨hw2, -⟩ := updateAt_wf_master (g ct) p t n t2 htw hgn hu
            (hloc t ct n ht hct hgn)
          exact wfForest_eraseIdx _ c (wfForest_set forest r t2 hwf hw2)

theorem editOp_wf (forest : Forest) (r : Nat) (p : List Nat)
    (g : STree → Option STree) (f2 : Forest)
    (hwf : wfForest forest = true) (h : editOp forest r p g = some f2)
    (hloc : ∀ t n, forest[r]? = some t → getNode t p = some n →
      ∀ n2, g n = some n2 → n2.data = n.data ∧ wfTree n2 = true) :
    wfForest f2 = true := by
  rw [editOp] at h
  cases ht : forest[r]? with
  | none => rw [ht] at h; cases h
  | some t =>
    rw [ht] at h
    dsimp only at h
    cases hu : updateAt t p g with
    | none => rw [hu] at h; cases h
    | some t2 =>
      rw [hu] at h
      dsimp only at h
      injection h with h2
      subst h2
      have htw := wfForest_get forest r t hwf ht
      obtain ⟨n, hgn, -⟩ := updateAt_getNode g p t t2 hu
      obtain ⟨hw2, -⟩ := updateAt_wf_master g p t n t2 htw hgn hu (hloc t n ht hgn)
      exact wfForest_set forest r t2 hwf hw2

theorem opSafeB_attachSafe (forest : Forest) (r : Nat) (c : Nat) (p : List Nat)
    (t ct n : STree) (ht : forest[r]? = some t) (hct : forest[c]? = some ct)
    (hgn : getNode t p = some n)
    (hsafe : (match forest[r]?, forest[c]? with
      | some t, some ct =>
        match getNode t p with
        | some n =>
          decide (n.data.level < ct.data.level) ||
            ct.kids.all (fun k => decide (n.data.level + 1 < k.data.level))
        | none => true
      | _, _ => true) = true) :
    attachSafe n.data.level ct := by
  rw [ht, hct] at hsafe
  dsimp only at hsafe
  rw [hgn] at hsafe
  dsimp only at hsafe
  rw [attachSafe]
  rw [Bool.or_eq_true] at hsafe
  rcases hsafe with h1 | h1
  · exact Or.inl (of_decide_eq_true h1)
  · right
    intro k hk
    exact of_decide_eq_true (List.all_eq_true.mp h1 k hk)

/-- Any successful operation whose attach side condition holds maps a
monotone forest to a monotone forest. -/
theorem applyOp_wf (forest : Forest) (op : TreeOp) (f2 : Forest)
    (hwf : wfForest forest = true) (hsafe : opSafeB forest op = true)
    (h : applyOp forest op = some f2) : wfForest f2 = true := by
  cases op with
  | append r p c =>
    rw [applyOp] at h
    rw [opSafeB] at hsafe
    refine attachOp_wf forest r p c appendChild f2 hwf h ?_
    intro t ct n ht hct hgn n2 hn2
    have has := opSafeB_attachSafe forest r c p t ct n ht hct hgn hsafe
    exact appendChild_wf ct n (wfForest_get forest c ct hwf hct) has
      (getNode_wf p t n (wfForest_get forest r t hwf ht) hgn) n2 hn2
  | prepend r p c =>
    rw [applyOp] at h
    rw [opSafeB] at hsafe
    refine attachOp_wf forest r p c prependChild f2 hwf h ?_
    intro t ct n ht hct hgn n2 hn2
    have has := opSafeB_attachSafe forest r c p t ct n ht hct hgn hsafe
    exact prependChild_wf ct n (wfForest_get forest c ct hwf hct) has
      (getNode_wf p t n (wfForest_get forest r t hwf ht) hgn) n2 hn2
  | insertBefore r q i c =>
    rw [applyOp] at h
    rw [opSafeB] at hsafe
    refine attachOp_wf forest r q c (insertBeforeChild i) f2 hwf h ?_
    intro t ct n ht hct hgn n2 hn2
    have has := opSafeB_attachSafe forest r c q t ct n ht hct hgn hsafe
    exact insertBeforeChild_wf i ct n (wfForest_get forest c ct hwf hct) has
      (getNode_wf q t n (wfForest_get forest r t hwf ht) hgn) n2 hn2
  | insertAfter r q i c =>
    rw [applyOp] at h
    rw [opSafeB] at hsafe
    refine attachOp_wf forest r q c (insertAfterChild i) f2 hwf h ?_
    intro t ct n ht hct hgn n2 hn2
    have has := opSafeB_attachSafe forest r c q t ct n ht hct hgn hsafe
    exact insertAfterChild_wf i ct n (wfForest_get forest c ct hwf hct) has
      (getNode_wf q t n (wfForest_get forest r t hwf ht) hgn) n2 hn2
  | checkedAppend r p c =>
    rw [applyOp] at h
    refine attachOp_wf forest r p c checkedAppendChild f2 hwf h ?_
    intro t ct n ht hct hgn n2 hn2
    exact checkedAppendChild_wf ct n (wfForest_get forest c ct hwf hct)
      (getNode_wf p t n (wfForest_get forest r t hwf ht) hgn) n2 hn2
  | checkedPrepend r p c =>
    rw [applyOp] at h
    refine attachOp_wf forest r p c checkedPrependChild f2 hwf h ?_
    intro t ct n ht hct hgn n2 hn2
    exact checkedPrependChild_wf ct n (wfForest_get forest c ct hwf hct)
      (getNode_wf p t n (wfForest_get forest r t hwf ht) hgn) n2 hn2
  | checkedInsertBefore r q i c =>
    rw [applyOp] at h
    refine attachOp_wf forest r q c (checkedInsertBeforeChild i) f2 hwf h ?_
    intro t ct n ht hct hgn n2 hn2
    exact checkedInsertBeforeChild_wf i ct n (wfForest_get forest c ct hwf hct)
      (getNode_wf q t n (wfForest_get forest r t hwf ht) hgn) n2 hn2
  | checkedInsertAfter r q i c =>
    rw [applyOp] at h
    refine attachOp_wf forest r q c (checkedInsertAfterChild i) f2 hwf h ?_
    intro t ct n ht hct hgn n2 hn2
    exact checkedInsertAfterChild_wf i ct n (wfForest_get forest c ct hwf hct)
      (getNode_wf q t n (wfForest_get forest r t hwf ht) hgn) n2 hn2
  | removeSubtree r q i =>
    rw [applyOp] at h
    cases ht : forest[r]? with
    | none => rw [ht] at h; cases h
    | some t =>
      rw [ht] at h
      dsimp only at h
      cases hrm : getNode t (q ++ [i]) with
      | none =>
        cases hu : updateAt t q (eraseChildAt i) <;> rw [hrm, hu] at h <;> cases h
      | some removed =>
        cases hu : updateAt t q (eraseChildAt i) with
        | none => rw [hrm, hu] at h; cases h
        | some t2 =>
          rw [hrm, hu] at h
          dsimp only at h
          injection h with h2
          subst h2
          have htw := wfForest_get forest r t hwf ht
          obtain ⟨n, hgn, -⟩ := updateAt_getNode (eraseChildAt i) q t t2 hu
          obtain ⟨hw2, -⟩ := updateAt_wf_master (eraseChildAt i) q t n t2 htw hgn hu
            (eraseChildAt_wf i n (getNode_wf q t n htw hgn))
          exact wfForest_push _ removed (wfForest_set forest r t2 hwf hw2)
            (getNode_wf (q ++ [i]) t removed htw hrm)
  | replaceWithChildren r q i =>
    rw [applyOp] at h
    refine editOp_wf forest r q (spliceChildAt i) f2 hwf h ?_
    intro t n ht hgn n2 hn2
    exact spliceChildAt_wf i n (getNode_wf q t n (wfForest_get forest r t hwf ht) hgn) n2 hn2
  | setLevel r p lvl =>
    rw [applyOp] at h
    cases hlast : p.getLast? with
    | some i =>
      rw [hlast] at h
      dsimp only at h
      refine editOp_wf forest r p.dropLast (setLevelChild i lvl) f2 hwf h ?_
      intro t n ht hgn n2 hn2
      exact setLevelChild_wf i lvl n
        (getNode_wf p.dropLast t n (wfForest_get forest r t hwf ht) hgn) n2 hn2
    | none =>
      rw [hlast] at h
      dsimp only at h
      cases ht : forest[r]? with
      | none => rw [ht] at h; cases h
      | some t =>
        rw [ht] at h
        dsimp only at h
        by_cases hok : levelChangeOk none t lvl = true
        · rw [if_pos hok] at h
          injection h with h2
          subst h2
          have htw := wfForest_get forest r t hwf ht
          refine wfForest_set forest r _ hwf ?_
          rw [wfTree_node, arenaSetLevel_level, wfKidsB_iff]
          intro k hk
          rcases levelChangeOk_none_spec t lvl hok with heq | ⟨h1, h3⟩
          · obtain ⟨hklt, hkw⟩ := (wfTree_iff t).mp htw k hk
            exact ⟨by omega, hkw⟩
          · exact ⟨h3 k hk, ((wfTree_iff t).mp htw k hk).2⟩
        · rw [if_neg hok] at h; cases h
  | setRaw r p text =>
    rw [applyOp] at h
    cases hlast : p.getLast? with
    | some i =>
      rw [hlast] at h
      dsimp only at h
      refine editOp_wf forest r p.dropLast (setRawChild i text) f2 hwf h ?_
      intro t n ht hgn n2 hn2
      exact setRawChild_wf i text n
        (getNode_wf p.dropLast t n (wfForest_get forest r t hwf ht) hgn) n2 hn2
    | none =>
      rw [hlast] at h
      dsimp only at h
      cases ht : forest[r]? with
      | none =>
        cases hns : newSection text <;> rw [ht, hns] at h <;> cases h
      | some t =>
        cases hns : newSection text with
        | none => rw [ht, hns] at h; cases h
        | some parsed =>
          rw [ht, hns] at h
          dsimp only at h
          cases hpk : parsed.kids with
          | cons a b => rw [hpk] at h; cases h
          | nil =>
            rw [hpk] at h
            dsimp only at h
            by_cases hok : levelChangeOk none t parsed.data.level = true
            · rw [if_pos hok] at h
              injection h with h2
              subst h2
              have htw := wfForest_get forest r t hwf ht
              refine wfForest_set forest r _ hwf ?_
              rw [wfTree_node, wfKidsB_iff]
              intro k hk
              rcases levelChangeOk_none_spec t parsed.data.level hok with heq | ⟨h1, h3⟩
              · obtain ⟨hklt, hkw⟩ := (wfTree_iff t).mp htw k hk
                exact ⟨by omega, hkw⟩
              · exact ⟨h3 k hk, ((wfTree_iff t).mp htw k hk).2⟩
            · rw [if_neg hok] at h; cases h

/-! ### Claim C5: level monotonicity under structural operations -/

/-- The document of the C5 counterexample, as a one-tree forest. -/
def c5Input : Str := ("* P\n** Q\n*** R\n* A\n** B").toList

def c5Forest0 : Forest := [(parseDocument c5Input).root]

/-- Detach the second top-level section, then append it under the deepest
node of the first: `Section::append` bumps only the moved node's level. -/
def c5Ops : List TreeOp := [TreeOp.removeSubtree 0 [] 1, TreeOp.append 0 [0, 0, 0] 1]

/-- C5 (counterexample): the unqualified claim is false.  Starting from the
parse of `"* P\n** Q\n*** R\n* A\n** B"` (which satisfies level
monotonicity), the successful operations `remove_subtree` on the second
top-level section followed by `append` of it under the level-3 node leave a
forest violating level monotonicity: the moved node is bumped to level 4
while its level-2 child is untouched. -/
theorem level_monotonicity_counterexample :
    wfForest c5Forest0 = true ∧
      (applyOps c5Forest0 c5Ops).map wfForest = some false := by decide

/-- C5 (amended): after any sequence of successful structural operations in
which every unchecked attach satisfies the side condition `opSafeB` (the
moved root's level already exceeds its new parent's, or every child of the
moved root lies strictly above the bumped level), every non-root node's
level strictly exceeds its parent's. -/
theorem level_monotonicity_preserved (f g : Forest) (hwf : wfForest f = true)
    (hr : SafeReach f g) : wfForest g = true := by
  induction hr with
  | refl => exact hwf
  | step g2 h2 op hr2 hsafe happ ih => exact applyOp_wf g2 op h2 ih hsafe happ

/-- A two-tree forest: a document root with one level-1 child, plus a
detached level-2 section. -/
def c5DemoF : Forest :=
  [.node ⟨0, []⟩ [.node ⟨1, ("* a").toList⟩ []], .node ⟨2, ("** b").toList⟩ []]

/-- The result of appending the detached section under the root. -/
def c5DemoG : Forest :=
  [.node ⟨0, []⟩ [.node ⟨1, ("* a").toList⟩ [], .node ⟨2, ("** b").toList⟩ []]]

/-- Witness for C5: a concrete safe append establishes the hypotheses. -/
theorem level_monotonicity_preserved_witness : wfForest c5DemoG = true :=
  level_monotonicity_preserved c5DemoF c5DemoG (by decide)
    (SafeReach.step c5DemoF c5DemoF c5DemoG (TreeOp.append 0 [] 1)
      (SafeReach.refl c5DemoF) (by decide) rfl)

/-! ### Claim C8: the attach auto-bump -/

theorem bumpRoot_eq (ct : STree) (l : Nat) :
    bumpRoot ct (l + 1) =
      if l < ct.data.level then ct
      else .node ⟨l + 1, List.replicate (l + 1 - ct.data.level) '*' ++
          (if ct.data.level = 0 then [' '] else []) ++ ct.data.text⟩ ct.kids := by
  cases ct with
  | node d kids =>
    show STree.node (sectionMinLevel d (l + 1)) kids = _
    rw [sectionMinLevel]
    by_cases h : l + 1 ≤ d.level
    · rw [if_pos h, if_pos (show l < (STree.node d kids).data.level from h)]
    · rw [if_neg h, if_neg (show ¬l < (STree.node d kids).data.level from h)]
      rfl

/-- C8: every unchecked attach (`append`, `prepend`, `insert_before`,
`insert_after`) installs exactly `bumpRoot child (parent.level + 1)` at its
slot, and the bump leaves the moved node unchanged when its level already
strictly exceeds the parent's; otherwise it sets the node's level to
`parent.level + 1`, prepending `parent.level + 1 - old` stars to the text
plus one ASCII space exactly when the node previously had level 0. -/
theorem attach_autobump (ct n : STree) :
    appendChild ct n =
        some (.node n.data (n.kids ++ [bumpRoot ct (n.data.level + 1)])) ∧
    prependChild ct n =
        some (.node n.data (bumpRoot ct (n.data.level + 1) :: n.kids)) ∧
    (∀ i, i < n.kids.length → insertBeforeChild i ct n =
        some (.node n.data
          (List.insertIdx i (bumpRoot ct (n.data.level + 1)) n.kids))) ∧
    (∀ i, i < n.kids.length → insertAfterChild i ct n =
        some (.node n.data
          (List.insertIdx (i + 1) (bumpRoot ct (n.data.level + 1)) n.kids))) ∧
    bumpRoot ct (n.data.level + 1) =
      (if n.data.level < ct.data.level then ct
       else .node ⟨n.data.level + 1,
          List.replicate (n.data.level + 1 - ct.data.level) '*' ++
            (if ct.data.level = 0 then [' '] else []) ++ ct.data.text⟩ ct.kids) := by
  refine ⟨rfl, rfl, ?_, ?_, bumpRoot_eq ct n.data.level⟩
  · intro i hi
    rw [insertBeforeChild, List.getElem?_eq_getElem hi]
  · intro i hi
    rw [insertAfterChild, List.getElem?_eq_getElem hi]

/-- A parent with one child, used to instantiate C8. -/
def c8n : STree := .node ⟨1, ("* p").toList⟩ [.node ⟨2, ("** k").toList⟩ []]

/-- A moved node that was previously a root (level 0). -/
def c8ct : STree := .node ⟨0, ("body").toList⟩ []

/-- Witness for C8 at a concrete parent and moved node. -/
theorem attach_autobump_witness :
    insertBeforeChild 0 c8ct c8n =
        some (.node c8n.data
          (List.insertIdx 0 (bumpRoot c8ct (c8n.data.level + 1)) c8n.kids)) ∧
    insertAfterChild 0 c8ct c8n =
        some (.node c8n.data
          (List.insertIdx 1 (bumpRoot c8ct (c8n.data.level + 1)) c8n.kids)) :=
  ⟨(attach_autobump c8ct c8n).2.2.1 0 (by decide),
    (attach_autobump c8ct c8n).2.2.2.1 0 (by decide)⟩

/-! ### Claim C10: frame conditions of the structural mutations -/

theorem allData_node (d : SectionData) (ks : List STree) :
    allData (STree.node d ks) = d :: kidsData ks := by
  rw [allData]

theorem allData_eq (t : STree) : allData t = t.data :: kidsData t.kids := by
  cases t with
  | node d kids =>
    rw [allData]
    rfl

/-- Coercion of an appended list of data to a multiset. -/
theorem coe_append_ms (l1 l2 : List SectionData) :
    (↑(l1 ++ l2) : Multiset SectionData) = ↑l1 + ↑l2 := rfl

/-- Coercion of a data cons to a multiset. -/
theorem coe_cons_ms (a : SectionData) (l : List SectionData) :
    (↑(a :: l) : Multiset SectionData) = {a} + ↑l := rfl

theorem kidsData_append (ks1 ks2 : List STree) :
    kidsData (ks1 ++ ks2) = kidsData ks1 ++ kidsData ks2 := by
  induction ks1 with
  | nil => rw [List.nil_append, kidsData, List.nil_append]
  | cons a as ih =>
    rw [List.cons_append, kidsData, kidsData, ih, List.append_assoc]

theorem ms_cancel_helper (D X Y A B C C2 : Multiset SectionData)
    (hset : X + C = Y + C2) (hih : C2 + A = C + B) :
    D + X + A = D + Y + B := by
  have key : (D + X + A) + C2 = (D + Y + B) + C2 := by
    calc (D + X + A) + C2 = (D + X) + (A + C2) := by abel
      _ = (D + X) + (C + B) := by rw [add_comm A C2, hih]
      _ = (D + (X + C)) + B := by abel
      _ = (D + (Y + C2)) + B := by rw [hset]
      _ = (D + Y + B) + C2 := by abel
  exact add_right_cancel key

theorem kidsData_set_ms (kids : List STree) :
    ∀ i ch ch2, kids[i]? = some ch →
      (kidsData (kids.set i ch2) : Multiset SectionData) + ↑(allData ch) =
        (kidsData kids : Multiset SectionData) + ↑(allData ch2) := by
  induction kids with
  | nil =>
    intro i ch ch2 hch
    rw [List.getElem?_nil] at hch
    cases hch
  | cons a as ih =>
    intro i ch ch2 hch
    cases i with
    | zero =>
      rw [List.getElem?_cons_zero] at hch
      injection hch with h
      subst h
      show (kidsData (ch2 :: as) : Multiset SectionData) + ↑(allData a) = _
      rw [kidsData, kidsData]
      simp only [coe_append_ms]
      abel
    | succ j =>
      rw [List.getElem?_cons_succ] at hch
      show (kidsData (a :: as.set j ch2) : Multiset SectionData) + ↑(allData ch) = _
      rw [kidsData, kidsData]
      simp only [coe_append_ms]
      have hih := ih j ch ch2 hch
      calc (↑(allData a) + ↑(kidsData (as.set j ch2))) + (↑(allData ch) : Multiset SectionData)
          = ↑(allData a) + (↑(kidsData (as.set j ch2)) + ↑(allData ch)) := by abel
        _ = ↑(allData a) + (↑(kidsData as) + ↑(allData ch2)) := by rw [hih]
        _ = (↑(allData a) + ↑(kidsData as)) + ↑(allData ch2) := by abel

theorem kidsData_eraseIdx_ms (kids : List STree) :
    ∀ i ch, kids[i]? = some ch →
      (kidsData (kids.eraseIdx i) : Multiset SectionData) + ↑(allData ch) =
        (kidsData kids : Multiset SectionData) := by
  induction kids with
  | nil =>
    intro i ch hch
    rw [List.getElem?_nil] at hch
    cases hch
  | cons a as ih =>
    intro i ch hch
    cases i with
    | zero =>
      rw [List.getElem?_cons_zero] at hch
      injection hch with h
      subst h
      show (kidsData as : Multiset SectionData) + ↑(allData a) = _
      rw [kidsData]
      simp only [coe_append_ms]
      abel
    | succ j =>
      rw [List.getElem?_cons_succ] at hch
      show (kidsData (a :: as.eraseIdx j) : Multiset SectionData) + ↑(allData ch) = _
      rw [kidsData, kidsData]
      simp only [coe_append_ms]
      have hih := ih j ch hch
      calc (↑(allData a) + ↑(kidsData (as.eraseIdx j))) + (↑(allData ch) : Multiset SectionData)
          = ↑(allData a) + (↑(kidsData (as.eraseIdx j)) + ↑(allData ch)) := by abel
        _ = ↑(allData a) + ↑(kidsData as) := by rw [hih]

theorem kidsData_cons (t : STree) (ts : List STree) :
    kidsData (t :: ts) = allData t ++ kidsData ts := by
  rw [kidsData]

theorem kidsData_insertIdx_ms (kids : List STree) :
    ∀ i b, i ≤ kids.length →
      (kidsData (List.insertIdx i b kids) : Multiset SectionData) =
        ↑(allData b) + ↑(kidsData kids) := by
  induction kids with
  | nil =>
    intro i b hi
    cases i with
    | zero =>
      rw [List.insertIdx_zero, kidsData_cons]
      simp only [coe_append_ms]
    | succ j =>
      simp at hi
  | cons a as ih =>
    intro i b hi
    cases i with
    | zero =>
      rw [List.insertIdx_zero, kidsData_cons]
      simp only [coe_append_ms]
    | succ j =>
      rw [List.insertIdx_succ_cons, kidsData_cons, kidsData_cons]
      simp only [coe_append_ms]
      rw [ih j b (by simp only [List.length_cons] at hi; omega)]
      abel

theorem updateAt_allData (g : STree → Option STree) (A B : Multiset SectionData)
    (p : List Nat) :
    ∀ t n t2, getNode t p = some n → updateAt t p g = some t2 →
      (∀ n2, g n = some n2 →
        (allData n2 : Multiset SectionData) + A =
          (allData n : Multiset SectionData) + B) →
      (allData t2 : Multiset SectionData) + A =
        (allData t : Multiset SectionData) + B := by
  induction p with
  | nil =>
    intro t n t2 hg hu hrel
    rw [getNode] at hg
    injection hg with h
    subst h
    rw [updateAt] at hu
    exact hrel t2 hu
  | cons i p ih =>
    intro t n t2 hg hu hrel
    cases t with
    | node d kids =>
      rw [getNode] at hg
      rw [updateAt] at hu
      cases hch : kids[i]? with
      | none => rw [hch] at hu; cases hu
      | some ch =>
        rw [hch] at hg hu
        dsimp only at hg hu
        cases hrec : updateAt ch p g with
        | none => rw [hrec] at hu; cases hu
        | some ch2 =>
          rw [hrec] at hu
          injection hu with hu2
          subst hu2
          have hih := ih ch n ch2 hg hrec hrel
          have hset := kidsData_set_ms kids i ch ch2 hch
          rw [allData_node, allData_node]
          simp only [coe_cons_ms]
          exact ms_cancel_helper {d} _ _ A B _ _ hset hih

theorem forestData_cons (t : STree) (f : Forest) :
    forestData (t :: f) = allData t ++ forestData f := by
  rw [forestData, forestData, List.map_cons, List.flatten_cons]

theorem forestData_append (f1 f2 : Forest) :
    forestData (f1 ++ f2) = forestData f1 ++ forestData f2 := by
  rw [forestData, forestData, forestData, List.map_append, List.flatten_append]

theorem forestData_set_ms (f : Forest) :
    ∀ r t t2, f[r]? = some t →
      (forestData (f.set r t2) : Multiset SectionData) + ↑(allData t) =
        (forestData f : Multiset SectionData) + ↑(allData t2) := by
  induction f with
  | nil =>
    intro r t t2 h
    rw [List.getElem?_nil] at h
    cases h
  | cons a as ih =>
    intro r t t2 h
    cases r with
    | zero =>
      rw [List.getElem?_cons_zero] at h
      injection h with h2
      subst h2
      show (forestData (t2 :: as) : Multiset SectionData) + ↑(allData a) = _
      rw [forestData_cons, forestData_cons]
      simp only [coe_append_ms]
      abel
    | succ j =>
      rw [List.getElem?_cons_succ] at h
      show (forestData (a :: as.set j t2) : Multiset SectionData) + ↑(allData t) = _
      rw [forestData_cons, forestData_cons]
      simp only [coe_append_ms]
      have hih := ih j t t2 h
      calc (↑(allData a) + ↑(forestData (as.set j t2))) + (↑(allData t) : Multiset SectionData)
          = ↑(allData a) + (↑(forestData (as.set j t2)) + ↑(allData t)) := by abel
        _ = ↑(allData a) + (↑(forestData as) + ↑(allData t2)) := by rw [hih]
        _ = (↑(allData a) + ↑(forestData as)) + ↑(allData t2) := by abel

theorem forestData_eraseIdx_ms (f : Forest) :
    ∀ c ct, f[c]? = some ct →
      (forestData (f.eraseIdx c) : Multiset SectionData) + ↑(allData ct) =
        (forestData f : Multiset SectionData) := by
  induction f with
  | nil =>
    intro c ct h
    rw [List.getElem?_nil] at h
    cases h
  | cons a as ih =>
    intro c ct h
    cases c with
    | zero =>
      rw [List.getElem?_cons_zero] at h
      injection h with h2
      subst h2
      show (forestData as : Multiset SectionData) + ↑(allData a) = _
      rw [forestData_cons]
      simp only [coe_append_ms]
      abel
    | succ j =>
      rw [List.getElem?_cons_succ] at h
      show (forestData (a :: as.eraseIdx j) : Multiset SectionData) + ↑(allData ct) = _
      rw [forestData_cons, forestData_cons]
      simp only [coe_append_ms]
      have hih := ih j ct h
      calc (↑(allData a) + ↑(forestData (as.eraseIdx j))) + (↑(allData ct) : Multiset SectionData)
          = ↑(allData a) + (↑(forestData (as.eraseIdx j)) + ↑(allData ct)) := by abel
        _ = ↑(allData a) + ↑(forestData as) := by rw [hih]

theorem getNode_snoc (q : List Nat) (i : Nat) :
    ∀ t n rem, getNode t q = some n → getNode t (q ++ [i]) = some rem →
      n.kids[i]? = some rem := by
  induction q with
  | nil =>
    intro t n rem hg hg2
    rw [getNode] at hg
    injection hg with h
    subst h
    cases t with
    | node d kids =>
      rw [List.nil_append, getNode] at hg2
      cases hch : kids[i]? with
      | none => rw [hch] at hg2; cases hg2
      | some ch =>
        rw [hch] at hg2
        dsimp only at hg2
        rw [getNode] at hg2
        injection hg2 with h2
        subst h2
        exact hch
  | cons j q ih =>
    intro t n rem hg hg2
    cases t with
    | node d kids =>
      rw [getNode] at hg
      rw [List.cons_append, getNode] at hg2
      cases hch : kids[j]? with
      | none => rw [hch] at hg; cases hg
      | some ch =>
        rw [hch] at hg hg2
        dsimp only at hg hg2
        exact ih ch n rem hg hg2

theorem coe_nil_ms : (↑([] : List SectionData) : Multiset SectionData) = 0 := rfl

theorem forestData_nil : forestData ([] : Forest) = [] := rfl

theorem appendChild_allData (ct n : STree) :
    ∀ n2, appendChild ct n = some n2 →
      (allData n2 : Multiset SectionData) =
        ↑(allData n) + ↑(allData (bumpRoot ct (n.data.level + 1))) := by
  intro n2 h
  rw [appendChild] at h
  injection h with h2
  subst h2
  rw [allData_node, allData_eq n, kidsData_append, kidsData_cons, kidsData]
  simp only [coe_append_ms, coe_cons_ms, coe_nil_ms]
  abel

theorem prependChild_allData (ct n : STree) :
    ∀ n2, prependChild ct n = some n2 →
      (allData n2 : Multiset SectionData) =
        ↑(allData n) + ↑(allData (bumpRoot ct (n.data.level + 1))) := by
  intro n2 h
  rw [prependChild] at h
  injection h with h2
  subst h2
  rw [allData_node, allData_eq n, kidsData_cons]
  simp only [coe_append_ms, coe_cons_ms]
  abel

theorem insertBeforeChild_allData (i : Nat) (ct n : STree) :
    ∀ n2, insertBeforeChild i ct n = some n2 →
      (allData n2 : Multiset SectionData) =
        ↑(allData n) + ↑(allData (bumpRoot ct (n.data.level + 1))) := by
  intro n2 h
  rw [insertBeforeChild] at h
  cases hch : n.kids[i]? with
  | none => rw [hch] at h; cases h
  | some ch =>
    rw [hch] at h
    dsimp only at h
    injection h with h2
    subst h2
    obtain ⟨hlt, -⟩ := List.getElem?_eq_some.mp hch
    rw [allData_node, allData_eq n]
    simp only [coe_cons_ms]
    rw [kidsData_insertIdx_ms n.kids i (bumpRoot ct (n.data.level + 1)) (le_of_lt hlt)]
    abel

theorem insertAfterChild_allData (i : Nat) (ct n : STree) :
    ∀ n2, insertAfterChild i ct n = some n2 →
      (allData n2 : Multiset SectionData) =
        ↑(allData n) + ↑(allData (bumpRoot ct (n.data.level + 1))) := by
  intro n2 h
  rw [insertAfterChild] at h
  cases hch : n.kids[i]? with
  | none => rw [hch] at h; cases h
  | some ch =>
    rw [hch] at h
    dsimp only at h
    injection h with h2
    subst h2
    obtain ⟨hlt, -⟩ := List.getElem?_eq_some.mp hch
    rw [allData_node, allData_eq n]
    simp only [coe_cons_ms]
    rw [kidsData_insertIdx_ms n.kids (i + 1) (bumpRoot ct (n.data.level + 1)) (by omega)]
    abel

theorem eraseChildAt_allData (i : Nat) (n rem : STree) (hch : n.kids[i]? = some rem) :
    ∀ n2, eraseChildAt i n = some n2 →
      (allData n2 : Multiset SectionData) + ↑(allData rem) = ↑(allData n) := by
  intro n2 h
  rw [eraseChildAt, hch] at h
  dsimp only at h
  injection h with h2
  subst h2
  rw [allData_node, allData_eq n]
  simp only [coe_cons_ms]
  have he := kidsData_eraseIdx_ms n.kids i rem hch
  calc ({n.data} + ↑(kidsData (n.kids.eraseIdx i))) + (↑(allData rem) : Multiset SectionData)
      = {n.data} + (↑(kidsData (n.kids.eraseIdx i)) + ↑(allData rem)) := by abel
    _ = {n.data} + ↑(kidsData n.kids) := by rw [he]

theorem spliceChildAt_allData (i : Nat) (n rem : STree) (hch : n.kids[i]? = some rem) :
    ∀ n2, spliceChildAt i n = some n2 →
      (allData n2 : Multiset SectionData) + {rem.data} = ↑(allData n) := by
  intro n2 h
  rw [spliceChildAt, hch] at h
  dsimp only at h
  injection h with h2
  subst h2
  obtain ⟨hlt, hv⟩ := List.getElem?_eq_some.mp hch
  have hsplit : n.kids = n.kids.take i ++ rem :: n.kids.drop (i + 1) := by
    conv_lhs => rw [← List.take_append_drop i n.kids,
      ← List.getElem_cons_drop n.kids i hlt]
    rw [hv]
  rw [allData_node, allData_eq n]
  conv_rhs => rw [hsplit]
  rw [kidsData_append, kidsData_append, kidsData_append, kidsData_cons, allData_eq rem]
  simp only [coe_append_ms, coe_cons_ms]
  abel

theorem attach_frame_master (forest : Forest) (r : Nat) (p : List Nat) (c : Nat)
    (g : STree → STree → Option STree) (f2 : Forest) (t ct n : STree)
    (ht : forest[r]? = some t) (hct : forest[c]? = some ct)
    (hgn : getNode t p = some n)
    (h : attachOp forest r p c g = some f2)
    (hrel : ∀ n2, g ct n = some n2 →
      (allData n2 : Multiset SectionData) =
        ↑(allData n) + ↑(allData (bumpRoot ct (n.data.level + 1)))) :
    (forestData f2 : Multiset SectionData) + {ct.data} =
      ↑(forestData forest) + {(bumpRoot ct (n.data.level + 1)).data} := by
  rw [attachOp, ht, hct] at h
  dsimp only at h
  by_cases hrc : r = c
  · rw [if_pos hrc] at h; cases h
  · rw [if_neg hrc] at h
    cases hu : updateAt t p (g ct) with
    | none => rw [hu] at h; cases h
    | some t2 =>
      rw [hu] at h
      dsimp only at h
      injection h with h2
      subst h2
      have hm := updateAt_allData (g ct) 0
        (↑(allData (bumpRoot ct (n.data.level + 1)))) p t n t2 hgn hu
        (by intro n2 hn2; rw [add_zero]; exact hrel n2 hn2)
      rw [add_zero] at hm
      have hbump : (↑(allData (bumpRoot ct (n.data.level + 1))) : Multiset SectionData) =
          {(bumpRoot ct (n.data.level + 1)).data} + ↑(kidsData ct.kids) := by
        rw [allData_eq, bumpRoot_kids]
        exact coe_cons_ms _ _
      have hct_ms : (↑(allData ct) : Multiset SectionData) =
          {ct.data} + ↑(kidsData ct.kids) := by
        rw [allData_eq]
        exact coe_cons_ms _ _
      rw [hbump] at hm
      have hc2 : (forest.set r t2)[c]? = some ct := by
        rw [List.getElem?_set_ne hrc]
        exact hct
      have h2 := forestData_eraseIdx_ms (forest.set r t2) c ct hc2
      have h1 := forestData_set_ms forest r t t2 ht
      have key : ((forestData ((forest.set r t2).eraseIdx c) : Multiset SectionData) +
            {ct.data}) + (↑(kidsData ct.kids) + ↑(allData t)) =
          ((forestData forest : Multiset SectionData) +
            {(bumpRoot ct (n.data.level + 1)).data}) +
            (↑(kidsData ct.kids) + ↑(allData t)) := by
        calc ((forestData ((forest.set r t2).eraseIdx c) : Multiset SectionData) +
              {ct.data}) + (↑(kidsData ct.kids) + ↑(allData t))
            = ((forestData ((forest.set r t2).eraseIdx c) : Multiset SectionData) +
                ({ct.data} + ↑(kidsData ct.kids))) + ↑(allData t) := by abel
          _ = ((forestData ((forest.set r t2).eraseIdx c) : Multiset SectionData) +
                ↑(allData ct)) + ↑(allData t) := by rw [hct_ms]
          _ = (forestData (forest.set r t2) : Multiset SectionData) + ↑(allData t) := by
                rw [h2]
          _ = (forestData forest : Multiset SectionData) + ↑(allData t2) := h1
          _ = (forestData forest : Multiset SectionData) +
                (↑(allData t) + ({(bumpRoot ct (n.data.level + 1)).data} +
                  ↑(kidsData ct.kids))) := by rw [hm]
          _ = ((forestData forest : Multiset SectionData) +
                {(bumpRoot ct (n.data.level + 1)).data}) +
                (↑(kidsData ct.kids) + ↑(allData t)) := by abel
      exact add_right_cancel key

/-- C10: frame conditions of the structural mutations, stated on the
multiset of all nodes' `SectionData` (level and text).  A successful
`append`/`prepend`/`insert_before`/`insert_after` replaces exactly the moved
node's data by its auto-bumped data, leaving every other node's level and
text unchanged; `remove_subtree` (pure detachment) changes no node's data at
all; `replace_with_children` removes exactly the replaced node's own data. -/
theorem structural_ops_frame (forest : Forest) :
    (∀ f2 r p c t ct n, forest[r]? = some t → forest[c]? = some ct →
      getNode t p = some n →
      (applyOp forest (TreeOp.append r p c) = some f2 ∨
        applyOp forest (TreeOp.prepend r p c) = some f2) →
      (forestData f2 : Multiset SectionData) + {ct.data} =
        ↑(forestData forest) + {(bumpRoot ct (n.data.level + 1)).data}) ∧
    (∀ f2 r q i c t ct n, forest[r]? = some t → forest[c]? = some ct →
      getNode t q = some n →
      (applyOp forest (TreeOp.insertBefore r q i c) = some f2 ∨
        applyOp forest (TreeOp.insertAfter r q i c) = some f2) →
      (forestData f2 : Multiset SectionData) + {ct.data} =
        ↑(forestData forest) + {(bumpRoot ct (n.data.level + 1)).data}) ∧
    (∀ f2 r q i, applyOp forest (TreeOp.removeSubtree r q i) = some f2 →
      (forestData f2 : Multiset SectionData) = ↑(forestData forest)) ∧
    (∀ f2 r q i t rem, forest[r]? = some t → getNode t (q ++ [i]) = some rem →
      applyOp forest (TreeOp.replaceWithChildren r q i) = some f2 →
      (forestData f2 : Multiset SectionData) + {rem.data} =
        ↑(forestData forest)) := by
  refine ⟨?_, ?_, ?_, ?_⟩
  · intro f2 r p c t ct n ht hct hgn hor
    rcases hor with h | h
    · rw [applyOp] at h
      exact attach_frame_master forest r p c appendChild f2 t ct n ht hct hgn h
        (appendChild_allData ct n)
    · rw [applyOp] at h
      exact attach_frame_master forest r p c prependChild f2 t ct n ht hct hgn h
        (prependChild_allData ct n)
  · intro f2 r q i c t ct n ht hct hgn hor
    rcases hor with h | h
    · rw [applyOp] at h
      exact attach_frame_master forest r q c (insertBeforeChild i) f2 t ct n ht hct hgn h
        (insertBeforeChild_allData i ct n)
    · rw [applyOp] at h
      exact attach_frame_master forest r q c (insertAfterChild i) f2 t ct n ht hct hgn h
        (insertAfterChild_allData i ct n)
  · intro f2 r q i h
    rw [applyOp] at h
    cases ht : forest[r]? with
    | none => rw [ht] at h; cases h
    | some t =>
      rw [ht] at h
      dsimp only at h
      cases hrm : getNode t (q ++ [i]) with
      | none =>
        cases hu : updateAt t q (eraseChildAt i) <;> rw [hrm, hu] at h <;> cases h
      | some removed =>
        cases hu : updateAt t q (eraseChildAt i) with
        | none => rw [hrm, hu] at h; cases h
        | some t2 =>
          rw [hrm, hu] at h
          dsimp only at h
          injection h with h2
          subst h2
          obtain ⟨n, hgn, -⟩ := updateAt_getNode (eraseChildAt i) q t t2 hu
          have hchild : n.kids[i]? = some removed := getNode_snoc q i t n removed hgn hrm
          have hm := updateAt_allData (eraseChildAt i) (↑(allData removed)) 0 q t n t2
            hgn hu
            (by intro n2 hn2; rw [add_zero]; exact eraseChildAt_allData i n removed hchild n2 hn2)
          rw [add_zero] at hm
          have h1 := forestData_set_ms forest r t t2 ht
          rw [forestData_append, forestData_cons, forestData_nil, List.append_nil]
          simp only [coe_append_ms]
          have key : ((forestData (forest.set r t2) : Multiset SectionData) +
                ↑(allData removed)) + ↑(allData t2) =
              (forestData forest : Multiset SectionData) + ↑(allData t2) := by
            calc ((forestData (forest.set r t2) : Multiset SectionData) +
                  ↑(allData removed)) + ↑(allData t2)
                = (forestData (forest.set r t2) : Multiset SectionData) +
                    (↑(allData t2) + ↑(allData removed)) := by abel
              _ = (forestData (forest.set r t2) : Multiset SectionData) +
                    ↑(allData t) := by rw [hm]
              _ = (forestData forest : Multiset SectionData) + ↑(allData t2) := h1
          exact add_right_cancel key
  · intro f2 r q i t rem ht hrm h
    rw [applyOp, editOp, ht] at h
    dsimp only at h
    cases hu : updateAt t q (spliceChildAt i) with
    | none => rw [hu] at h; cases h
    | some t2 =>
      rw [hu] at h
      dsimp only at h
      injection h with h2
      subst h2
      obtain ⟨n, hgn, -⟩ := updateAt_getNode (spliceChildAt i) q t t2 hu
      have hchild : n.kids[i]? = some rem := getNode_snoc q i t n rem hgn hrm
      have hm := updateAt_allData (spliceChildAt i) {rem.data} 0 q t n t2 hgn hu
        (by intro n2 hn2; rw [add_zero]; exact spliceChildAt_allData i n rem hchild n2 hn2)
      rw [add_zero] at hm
      have h1 := forestData_set_ms forest r t t2 ht
      have key : ((forestData (forest.set r t2) : Multiset SectionData) + {rem.data}) +
            ↑(allData t2) =
          (forestData forest : Multiset SectionData) + ↑(allData t2) := by
        calc ((forestData (forest.set r t2) : Multiset SectionData) + {rem.data}) +
              ↑(allData t2)
            = (forestData (forest.set r t2) : Multiset SectionData) +
                (↑(allData t2) + {rem.data}) := by abel
          _ = (forestData (forest.set r t2) : Multiset SectionData) + ↑(allData t) := by
                rw [hm]
          _ = (forestData forest : Multiset SectionData) + ↑(allData t2) := h1
      exact add_right_cancel key

/-- A concrete forest for the C10 witness: a root with one child plus a
detached level-2 section. -/
def c10child : STree := .node ⟨1, ("* a").toList⟩ []

def c10ct : STree := .node ⟨2, ("** b").toList⟩ []

def c10root : STree := .node ⟨0, []⟩ [c10child]

def c10F : Forest := [c10root, c10ct]

/-- Witness for C10: the four frame conditions at a concrete forest. -/
theorem structural_ops_frame_witness :
    ((forestData [STree.node ⟨0, []⟩ [c10child, c10ct]] : Multiset SectionData) +
        {c10ct.data} =
      ↑(forestData c10F) + {(bumpRoot c10ct (c10root.data.level + 1)).data}) ∧
    ((forestData [STree.node ⟨0, []⟩ [c10ct, c10child]] : Multiset SectionData) +
        {c10ct.data} =
      ↑(forestData c10F) + {(bumpRoot c10ct (c10root.data.level + 1)).data}) ∧
    ((forestData [STree.node ⟨0, []⟩ [], c10ct, c10child] : Multiset SectionData) =
      ↑(forestData c10F)) ∧
    ((forestData [STree.node ⟨0, []⟩ [], c10ct] : Multiset SectionData) +
        {c10child.data} =
      ↑(forestData c10F)) := by
  have h := structural_ops_frame c10F
  exact ⟨h.1 _ 0 [] 1 c10root c10ct c10root rfl rfl rfl (Or.inl rfl),
    h.2.1 _ 0 [] 0 1 c10root c10ct c10root rfl rfl rfl (Or.inl rfl),
    h.2.2.1 _ 0 [] 0 rfl,
    h.2.2.2 _ 0 [] 0 c10root c10child rfl rfl rfl⟩

/-! ### Timestamp values (src/src/headline/timestamp.rs) and their parsers
(src/src/parser/timestamp.rs).

The Rust values wrap `chrono::NaiveTime`/`NaiveDate`; the embedding stores
the hour/minute and year/month/day fields directly (the crate constructs
times with zero seconds throughout).  Rust `&str` parsing is modelled on
`List Char`; the compared characters are all ASCII, so char-level equality
coincides with the byte-level behaviour of the source. -/

inductive Activity where
  | active
  | inactive
deriving DecidableEq, Repr

structure Time where
  hour : Nat
  minute : Nat
deriving DecidableEq, Repr

structure TsDate where
  year : Nat
  month : Nat
  day : Nat
deriving DecidableEq, Repr

inductive TimeUnit where
  | hour
  | day
  | week
  | month
  | year
deriving DecidableEq, Repr

inductive RepeaterMark where
  | cumulate
  | catchUp
  | restart
deriving DecidableEq, Repr

inductive DelayMark where
  | all
  | first
deriving DecidableEq, Repr

structure Interval where
  value : Nat
  unit : TimeUnit
deriving DecidableEq, Repr

structure Repeater where
  mark : RepeaterMark
  interval : Interval
deriving DecidableEq, Repr

structure Delay where
  mark : DelayMark
  interval : Interval
deriving DecidableEq, Repr

structure RepeaterAndDelay where
  repeater : Option Repeater
  delay : Option Delay
deriving DecidableEq, Repr

structure Point where
  active : Activity
  date : TsDate
  time : Option Time
  cookie : RepeaterAndDelay
deriving DecidableEq, Repr

/-- `Range`; the Rust field `end` is a Lean keyword, rendered `stop`. -/
structure Range where
  start : Point
  stop : Point
deriving DecidableEq, Repr

structure TimeRange where
  start : Point
  endTime : Time
deriving DecidableEq, Repr

structure Diary where
  text : Str
deriving DecidableEq, Repr

inductive Timestamp where
  | diary (d : Diary)
  | point (p : Point)
  | range (r : Range)
  | timeRange (tr : TimeRange)
deriving DecidableEq, Repr

/-- Either a `Time` or a `Times` (`TimeSpec` in the source; the `Times` pair
is inlined). -/
inductive TimeSpec where
  | single (t : Time)
  | range (a b : Time)
deriving DecidableEq, Repr

/-- The result of a fallible Rust parser: success with the unconsumed rest,
a nom error, or a panic (which unwinds through every caller, including
`alt`). -/
inductive PR (α : Type) where
  | ok (val : α) (rest : Str)
  | fail
  | panic
deriving DecidableEq, Repr

/-- Rust `char::is_whitespace`: the Unicode `White_Space` code points. -/
def rustIsWhitespace (c : Char) : Bool :=
  c == '\t' || c == '\n' || c == '\x0b' || c == '\x0c' || c == '\r' ||
  c == ' ' || c == '\u0085' || c == '\u00a0' || c == '\u1680' ||
  c == '\u2000' || c == '\u2001' || c == '\u2002' || c == '\u2003' ||
  c == '\u2004' || c == '\u2005' || c == '\u2006' || c == '\u2007' ||
  c == '\u2008' || c == '\u2009' || c == '\u200a' || c == '\u2028' ||
  c == '\u2029' || c == '\u202f' || c == '\u205f' || c == '\u3000'

/-- The characters accepted by nom `space0`/`space1`. -/
def isSpaceTab (c : Char) : Bool := c == ' ' || c == '\t'

/-- nom `space1`: one or more spaces or tabs, returning the rest. -/
def space1T (input : Str) : Option Str :=
  if (input.takeWhile isSpaceTab).isEmpty then none
  else some (input.dropWhile isSpaceTab)

/-- nom `space0`: zero or more spaces or tabs. -/
def space0T (input : Str) : Str := input.dropWhile isSpaceTab

/-- nom `take_while_m_n m n p`. -/
def takeWhileMN (m n : Nat) (p : Char → Bool) (input : Str) : Option (Str × Str) :=
  let t := (input.takeWhile p).take n
  if t.length < m then none else some (t, input.drop t.length)

/-- nom `digit1` / `take_while1 is_ascii_digit`. -/
def digit1 (input : Str) : Option (Str × Str) :=
  let t := input.takeWhile Char.isDigit
  if t.isEmpty then none else some (t, input.drop t.length)

/-- nom `is_not cs`: one or more characters outside `cs`. -/
def isNotTake (excl : List Char) (input : Str) : Option (Str × Str) :=
  let t := input.takeWhile (fun c => !excl.contains c)
  if t.isEmpty then none else some (t, input.drop t.length)

def digitVal (c : Char) : Nat := c.toNat - 48

/-- The value of an ASCII digit string (`uXX::from_str_radix(_, 10)`). -/
def natOfDigits (ds : Str) : Nat := ds.foldl (fun acc c => acc * 10 + digitVal c) 0

/-- `parse_integer_4`: exactly four digits (the `u16` conversion cannot
fail: four digits are at most 9999). -/
def parseInteger4 (input : Str) : Option (Nat × Str) :=
  match takeWhileMN 4 4 Char.isDigit input with
  | some (ds, rest) => some (natOfDigits ds, rest)
  | none => none

/-- `parse_integer_2`. -/
def parseInteger2 (input : Str) : Option (Nat × Str) :=
  match takeWhileMN 2 2 Char.isDigit input with
  | some (ds, rest) => some (natOfDigits ds, rest)
  | none => none

/-- `parse_integer_1_2`. -/
def parseInteger12 (input : Str) : Option (Nat × Str) :=
  match takeWhileMN 1 2 Char.isDigit input with
  | some (ds, rest) => some (natOfDigits ds, rest)
  | none => none

/-- `parse_dayname`. -/
def parseDayname (input : Str) : Option (Str × Str) :=
  let t := input.takeWhile (fun c => !rustIsWhitespace c && c != '>' && c != ']')
  if t.isEmpty then none
  else if t.any (fun c => c.isDigit || c == '+' || c == '-') then none
  else some (t, input.drop t.length)

/-- nom `tag` for a single character. -/
def tagChar (c : Char) : Str → Option Str
  | x :: rest => if x = c then some rest else none
  | [] => none

/-- nom `tag` for a literal string. -/
def tagStr : Str → Str → Option Str
  | [], input => some input
  | c :: cs, input =>
    match input with
    | x :: rest => if x = c then tagStr cs rest else none
    | [] => none

/-- `Time::parse`; `NaiveTime::from_hms_opt(h, m, 0)` is `none` (a nom
error, not a panic) unless `h < 24` and `m < 60`. -/
def timeParse (input : Str) : Option (Time × Str) :=
  match parseInteger12 input with
  | none => none
  | some (h, r1) =>
    match tagChar ':' r1 with
    | some r2 =>
      match parseInteger2 r2 with
      | none => none
      | some (m, r3) => if h < 24 && m < 60 then some (⟨h, m⟩, r3) else none
    | none => none

/-- `TimeSpec::parse`. -/
def timeSpecParse (input : Str) : Option (TimeSpec × Str) :=
  match timeParse input with
  | none => none
  | some (start, r1) =>
    match tagChar '-' r1 with
    | some r2 =>
      match timeParse r2 with
      | some (e, r3) => some (.range start e, r3)
      | none => some (.single start, r1)
    | none => some (.single start, r1)

/-- `RepeaterMark::parse` (`alt(("++", "+", ".+"))`). -/
def repeaterMarkParse (input : Str) : Option (RepeaterMark × Str) :=
  match input with
  | '+' :: '+' :: rest => some (.catchUp, rest)
  | '+' :: rest => some (.cumulate, rest)
  | '.' :: '+' :: rest => some (.restart, rest)
  | _ => none

/-- `DelayMark::parse` (`alt(("--", "-"))`). -/
def delayMarkParse (input : Str) : Option (DelayMark × Str) :=
  match input with
  | '-' :: '-' :: rest => some (.first, rest)
  | '-' :: rest => some (.all, rest)
  | _ => none

/-- `TimeUnit::parse` (`one_of "hdwmy"`). -/
def timeUnitParse (input : Str) : Option (TimeUnit × Str) :=
  match input with
  | 'h' :: rest => some (.hour, rest)
  | 'd' :: rest => some (.day, rest)
  | 'w' :: rest => some (.week, rest)
  | 'm' :: rest => some (.month, rest)
  | 'y' :: rest => some (.year, rest)
  | _ => none

/-- `Interval::parse`. -/
def intervalParse (input : Str) : Option (Interval × Str) :=
  match digit1 input with
  | none => none
  | some (ds, r1) =>
    match timeUnitParse r1 with
    | none => none
    | some (u, r2) => some (⟨natOfDigits ds, u⟩, r2)

/-- `Repeater::parse`. -/
def repeaterParse (input : Str) : Option (Repeater × Str) :=
  match repeaterMarkParse input with
  | none => none
  | some (mk, r1) =>
    match intervalParse r1 with
    | none => none
    | some (iv, r2) => some (⟨mk, iv⟩, r2)

/-- `Delay::parse`. -/
def delayParse (input : Str) : Option (Delay × Str) :=
  match delayMarkParse input with
  | none => none
  | some (mk, r1) =>
    match intervalParse r1 with
    | none => none
    | some (iv, r2) => some (⟨mk, iv⟩, r2)

/-- First branch of `RepeaterAndDelay::parse`:
`pair(Repeater::parse, preceded(space1, Delay::parse))`. -/
def radBranch1 (input : Str) : Option (RepeaterAndDelay × Str) :=
  match repeaterParse input with
  | none => none
  | some (r, r1) =>
    match space1T r1 with
    | none => none
    | some r2 =>
      match delayParse r2 with
      | none => none
      | some (d, r3) => some (⟨some r, some d⟩, r3)

/-- Second branch: `pair(Delay::parse, preceded(space1, Repeater::parse))`. -/
def radBranch2 (input : Str) : Option (RepeaterAndDelay × Str) :=
  match delayParse input with
  | none => none
  | some (d, r1) =>
    match space1T r1 with
    | none => none
    | some r2 =>
      match repeaterParse r2 with
      | none => none
      | some (r, r3) => some (⟨some r, some d⟩, r3)

/-- `RepeaterAndDelay::parse`: the four branches with an always-succeeding
empty fallback. -/
def radParse (input : Str) : RepeaterAndDelay × Str :=
  match radBranch1 input with
  | some res => res
  | none =>
    match radBranch2 input with
    | some res => res
    | none =>
      match delayParse input with
      | some (d, r1) => (⟨none, some d⟩, r1)
      | none =>
        match repeaterParse input with
        | some (r, r1) => (⟨some r, none⟩, r1)
        | none => (⟨none, none⟩, input)

/-- Proleptic Gregorian leap year, as `chrono::NaiveDate` uses. -/
def isLeap (y : Nat) : Bool := y % 4 == 0 && (y % 100 != 0 || y % 400 == 0)

def daysInMonth (y m : Nat) : Nat :=
  match m with
  | 1 => 31
  | 2 => if isLeap y then 29 else 28
  | 3 => 31
  | 4 => 30
  | 5 => 31
  | 6 => 30
  | 7 => 31
  | 8 => 31
  | 9 => 30
  | 10 => 31
  | 11 => 30
  | 12 => 31
  | _ => 0

/-- Validity of a calendar date, as checked by `chrono::NaiveDate::from_ymd`
(four-digit years are always inside chrono's representable year range). -/
def isValidDate (y m d : Nat) : Bool :=
  1 ≤ m && m ≤ 12 && 1 ≤ d && d ≤ daysInMonth y m

/-- The `opt(preceded(space1, parse_dayname))` step of `Date::parse`. -/
def afterDayname (rest : Str) : Str :=
  match space1T rest with
  | some rr =>
    match parseDayname rr with
    | some (_, rest2) => rest2
    | none => rest
  | none => rest

/-- `Date::parse` (src/src/parser/timestamp.rs:166).  The final
`NaiveDate::from_ymd` is the panicking chrono constructor: an invalid
calendar date aborts the process rather than returning a nom error. -/
def dateParse (input : Str) : PR TsDate :=
  match parseInteger4 input with
  | none => .fail
  | some (y, r1) =>
    match tagChar '-' r1 with
    | some r2 =>
      match parseInteger2 r2 with
      | none => .fail
      | some (mo, r3) =>
        match tagChar '-' r3 with
        | some r4 =>
          match parseInteger2 r4 with
          | none => .fail
          | some (d, r5) =>
            if isValidDate y mo d then .ok ⟨y, mo, d⟩ (afterDayname r5) else .panic
        | none => .fail
    | none => .fail

/-- `opt(preceded(space1, TimeSpec::parse))`: a failed inner parse
backtracks to `r1`. -/
def optSpec (r1 : Str) : Option TimeSpec × Str :=
  match space1T r1 with
  | some rr =>
    match timeSpecParse rr with
    | some (s, rest2) => (some s, rest2)
    | none => (none, r1)
  | none => (none, r1)

/-- First `alt` branch for the cookie:
`verify(preceded(space1, RepeaterAndDelay::parse), non-empty)`. -/
def radAlt (r2 : Str) : Option (RepeaterAndDelay × Str) :=
  match space1T r2 with
  | some rr =>
    let rr2 := radParse rr
    if rr2.1.repeater.isSome || rr2.1.delay.isSome then some rr2 else none
  | none => none

/-- Both `alt` branches: the second is
`verify(RepeaterAndDelay::parse, empty)`. -/
def radAlt2 (r2 : Str) : Option (RepeaterAndDelay × Str) :=
  match radAlt r2 with
  | some res => some res
  | none =>
    let rr2 := radParse r2
    if rr2.1.repeater.isNone && rr2.1.delay.isNone then some rr2 else none

/-- The trailing `opt(is_not ">]\n")`. -/
def skipJunk (r3 : Str) : Str :=
  match isNotTake ['>', ']', '\n'] r3 with
  | some (_, rest4) => rest4
  | none => r3

/-- The steps of `parse_atomic_timestamp`'s `inner` closure after the
date. -/
def atomicTail (act : Activity) (date : TsDate) (r1 : Str) : PR (Point × Option Time) :=
  let sp := optSpec r1
  match radAlt2 sp.2 with
  | none => .fail
  | some (rad, r3) =>
    let startAndEnd : Option Time × Option Time :=
      match sp.1 with
      | none => (none, none)
      | some (.single t) => (some t, none)
      | some (.range a b) => (some a, some b)
    .ok (⟨act, date, startAndEnd.1, rad⟩, startAndEnd.2) (skipJunk r3)

/-- The body of `parse_atomic_timestamp`'s `inner` closure. -/
def atomicInner (act : Activity) (input : Str) : PR (Point × Option Time) :=
  match dateParse input with
  | .panic => .panic
  | .fail => .fail
  | .ok date r1 => atomicTail act date r1

/-- The trailing `one_of "]>")` of `parse_atomic_timestamp`. -/
def atomicClose : PR (Point × Option Time) → PR (Point × Option Time)
  | .ok v rest =>
    match rest with
    | '>' :: r => .ok v r
    | ']' :: r => .ok v r
    | _ => .fail
  | .fail => .fail
  | .panic => .panic

/-- `parse_atomic_timestamp`. -/
def parseAtomic (input : Str) : PR (Point × Option Time) :=
  match input with
  | '<' :: r0 => atomicClose (atomicInner .active r0)
  | '[' :: r0 => atomicClose (atomicInner .inactive r0)
  | _ => .fail

/-- `Point::parse`. -/
def pointParse (input : Str) : PR Point :=
  match parseAtomic input with
  | .ok (p, none) rest => .ok p rest
  | .ok (_, some _) _ => .fail
  | .fail => .fail
  | .panic => .panic

/-- `Range::parse`; the end point inherits the start's activity. -/
def rangeParse (input : Str) : PR Range :=
  match pointParse input with
  | .panic => .panic
  | .fail => .fail
  | .ok start r1 =>
    match tagStr ['-', '-'] r1 with
    | some r2 =>
      match pointParse r2 with
      | .panic => .panic
      | .fail => .fail
      | .ok e r3 => .ok ⟨start, { e with active := start.active }⟩ r3
    | none => .fail

/-- `TimeRange::parse`. -/
def timeRangeParse (input : Str) : PR TimeRange :=
  match parseAtomic input with
  | .ok (p, some e) rest => .ok ⟨p, e⟩ rest
  | .ok (_, none) _ => .fail
  | .fail => .fail
  | .panic => .panic

/-- `Diary::parse`. -/
def diaryParse (input : Str) : Option (Diary × Str) :=
  match tagStr ['<', '%', '%', '('] input with
  | some r0 =>
    match isNotTake ['\n', '>'] r0 with
    | some (t, r1) =>
      match tagChar '>' r1 with
      | some r2 =>
        match t.getLast? with
        | some ')' => some (⟨t.dropLast⟩, r2)
        | _ => none
      | none => none
    | none => none
  | none => none

/-- `Timestamp::parse`: `alt((Diary, Range, TimeRange, Point))`; a panic
unwinds through `alt`. -/
def timestampParse (input : Str) : PR Timestamp :=
  match diaryParse input with
  | some (d, rest) => .ok (.diary d) rest
  | none =>
    match rangeParse input with
    | .ok r rest => .ok (.range r) rest
    | .panic => .panic
    | .fail =>
      match timeRangeParse input with
      | .ok tr rest => .ok (.timeRange tr) rest
      | .panic => .panic
      | .fail =>
        match pointParse input with
        | .ok p rest => .ok (.point p) rest
        | .panic => .panic
        | .fail => .fail

/-! ### Timestamp Display (src/src/headline/timestamp.rs) -/

def digitChar : Nat → Char
  | 0 => '0'
  | 1 => '1'
  | 2 => '2'
  | 3 => '3'
  | 4 => '4'
  | 5 => '5'
  | 6 => '6'
  | 7 => '7'
  | 8 => '8'
  | _ => '9'

/-- Two-digit zero-padded decimal (`%H`, `%M`, `%m`, `%d`). -/
def pad2 (n : Nat) : Str := [digitChar (n / 10), digitChar (n % 10)]

/-- Four-digit zero-padded decimal (`%Y` for years 0..=9999). -/
def pad4 (n : Nat) : Str :=
  [digitChar (n / 1000), digitChar (n / 100 % 10), digitChar (n / 10 % 10), digitChar (n % 10)]

/-- Unpadded decimal, fuel-based so the kernel can evaluate it. -/
def toDecimalF : Nat → Nat → Str
  | 0, _ => []
  | fuel + 1, n => if n < 10 then [digitChar n] else toDecimalF fuel (n / 10) ++ [digitChar (n % 10)]

def toDecimal (n : Nat) : Str := toDecimalF (n + 1) n

/-- chrono `%Y`: years above 9999 are printed with an explicit sign
(negative years cannot arise from the embedding's `Nat` years). -/
def emitYear (y : Nat) : Str := if y ≤ 9999 then pad4 y else '+' :: toDecimal y

def emitDate (d : TsDate) : Str := emitYear d.year ++ '-' :: pad2 d.month ++ '-' :: pad2 d.day

def emitTime (t : Time) : Str := pad2 t.hour ++ ':' :: pad2 t.minute

def unitChar : TimeUnit → Char
  | .hour => 'h'
  | .day => 'd'
  | .week => 'w'
  | .month => 'm'
  | .year => 'y'

def emitInterval (i : Interval) : Str := toDecimal i.value ++ [unitChar i.unit]

def emitRepeaterMark : RepeaterMark → Str
  | .catchUp => ['+', '+']
  | .cumulate => ['+']
  | .restart => ['.', '+']

def emitDelayMark : DelayMark → Str
  | .all => ['-']
  | .first => ['-', '-']

def emitRepeater (r : Repeater) : Str := emitRepeaterMark r.mark ++ emitInterval r.interval

def emitDelay (d : Delay) : Str := emitDelayMark d.mark ++ emitInterval d.interval

def emitRad (rad : RepeaterAndDelay) : Str :=
  match rad.repeater, rad.delay with
  | some r, some d => emitRepeater r ++ ' ' :: emitDelay d
  | some r, none => emitRepeater r
  | none, some d => emitDelay d
  | none, none => []

def openChar : Activity → Char
  | .active => '<'
  | .inactive => '['

def closeChar : Activity → Char
  | .active => '>'
  | .inactive => ']'

def emitSpec : TimeSpec → Str
  | .single t => emitTime t
  | .range a b => emitTime a ++ '-' :: emitTime b

/-- The bracket-interior shared by `Point` and `TimeRange` Display. -/
def emitInner (d : TsDate) (spec : Option TimeSpec) (cookie : RepeaterAndDelay) : Str :=
  emitDate d ++
    (match spec with
     | none => []
     | some s => ' ' :: emitSpec s) ++
    (if cookie = ⟨none, none⟩ then [] else ' ' :: emitRad cookie)

def emitPoint (p : Point) : Str :=
  openChar p.active ::
    emitInner p.date (p.time.map TimeSpec.single) p.cookie ++ [closeChar p.active]

def emitRange (r : Range) : Str := emitPoint r.start ++ '-' :: '-' :: emitPoint r.stop

/-- `TimeRange` Display (the source `expect`s a start time; an absent one is
ruled out by the well-formedness predicate). -/
def emitTimeRange (tr : TimeRange) : Str :=
  openChar tr.start.active ::
    emitInner tr.start.date
      (some (.range (tr.start.time.getD ⟨0, 0⟩) tr.endTime)) tr.start.cookie ++
    [closeChar tr.start.active]

def emitDiary (d : Diary) : Str := '<' :: '%' :: '%' :: '(' :: d.text ++ [')', '>']

def emitTimestamp : Timestamp → Str
  | .diary d => emitDiary d
  | .point p => emitPoint p
  | .range r => emitRange r
  | .timeRange tr => emitTimeRange tr

/-! ### Well-formedness of timestamp values -/

def timeWF (t : Time) : Bool := decide (t.hour < 24) && decide (t.minute < 60)

/-- The `NaiveDate`/`NaiveTime` invariants of a `Point`. -/
def pointWF (p : Point) : Bool :=
  isValidDate p.date.year p.date.month p.date.day &&
    (match p.time with
     | some t => timeWF t
     | none => true)

def diaryWF (d : Diary) : Bool := d.text.all (fun c => c != '\n' && c != '>')

/-- The claim's well-formed timestamp values. -/
def timestampWF : Timestamp → Bool
  | .point p => pointWF p
  | .range r => pointWF r.start && pointWF r.stop && decide (r.start.active = r.stop.active)
  | .timeRange tr => pointWF tr.start && tr.start.time.isSome && timeWF tr.endTime
  | .diary d => diaryWF d

/-- The largest year mentioned by a timestamp value. -/
def tsMaxYear : Timestamp → Nat
  | .point p => p.date.year
  | .range r => max r.start.date.year r.stop.date.year
  | .timeRange tr => tr.start.date.year
  | .diary _ => 0

/-! ### Claim C2: invalid calendar dates panic -/

/-- C2: the claim is false of the code.  `Date::parse` hands the parsed
fields to the panicking `NaiveDate::from_ymd`, so a syntactically
date-shaped timestamp whose calendar date is invalid (February 30th, or a
13th month) aborts the process instead of returning a parse failure:
`Timestamp::parse`, `Point::parse` and `Date::parse` all panic on such
input. -/
theorem invalid_date_panics :
    timestampParse (("<2021-02-30>").toList) = PR.panic ∧
    timestampParse (("<2020-13-01>").toList) = PR.panic ∧
    pointParse (("<2021-02-30>").toList) = PR.panic ∧
    dateParse (("2021-02-30").toList) = PR.panic ∧
    isValidDate 2021 2 30 = false ∧ isValidDate 2020 13 1 = false := by decide

/-! ### Claim C7 support: decimal emission and scanning -/

theorem digitChar_isDigit (d : Nat) : (digitChar d).isDigit = true := by
  rcases d with _|_|_|_|_|_|_|_|_|d <;> rfl

theorem digitVal_digitChar (d : Nat) (h : d ≤ 9) : digitVal (digitChar d) = d := by
  interval_cases d <;> decide

theorem takeWhile_append_all (p : Char → Bool) (l r : Str) (h : ∀ c ∈ l, p c = true) :
    (l ++ r).takeWhile p = l ++ r.takeWhile p := by
  induction l with
  | nil => simp
  | cons a as ih =>
    rw [List.cons_append, List.takeWhile_cons, h a (by simp), if_pos rfl, List.cons_append,
      ih (fun c hc => h c (by simp [hc]))]

theorem takeWhileMN_exact (k : Nat) (p : Char → Bool) (l r : Str)
    (hall : ∀ c ∈ l, p c = true) (hlen : l.length = k) :
    takeWhileMN k k p (l ++ r) = some (l, r) := by
  simp only [takeWhileMN, takeWhile_append_all p l r hall]
  subst hlen
  rw [List.take_left]
  rw [if_neg (by omega)]
  rw [List.drop_left]

theorem takeWhileMN_12 (p : Char → Bool) (l r : Str)
    (hall : ∀ c ∈ l, p c = true) (hlen : l.length = 2)
    (hr : r.takeWhile p = []) :
    takeWhileMN 1 2 p (l ++ r) = some (l, r) := by
  simp only [takeWhileMN, takeWhile_append_all p l r hall, hr, List.append_nil]
  rw [← hlen, List.take_length]
  rw [if_neg (by omega)]
  rw [List.drop_left]

theorem digit1_emit (l r : Str) (hall : ∀ c ∈ l, Char.isDigit c = true) (hne : l ≠ [])
    (hr : r.takeWhile Char.isDigit = []) :
    digit1 (l ++ r) = some (l, r) := by
  simp only [digit1, takeWhile_append_all _ l r hall, hr, List.append_nil]
  rw [if_neg (by simpa using hne)]
  rw [List.drop_left]

theorem natOfDigits_append (l : Str) (c : Char) :
    natOfDigits (l ++ [c]) = natOfDigits l * 10 + digitVal c := by
  rw [natOfDigits, natOfDigits, List.foldl_append]
  rfl

theorem pad2_all_digits (n : Nat) : ∀ c ∈ pad2 n, c.isDigit = true := by
  intro c hc
  rw [pad2] at hc
  simp only [List.mem_cons, List.mem_singleton, List.not_mem_nil, or_false] at hc
  rcases hc with rfl | rfl
  · exact digitChar_isDigit _
  · exact digitChar_isDigit _

theorem pad4_all_digits (n : Nat) : ∀ c ∈ pad4 n, c.isDigit = true := by
  intro c hc
  rw [pad4] at hc
  simp only [List.mem_cons, List.mem_singleton, List.not_mem_nil, or_false] at hc
  rcases hc with rfl | rfl | rfl | rfl
  · exact digitChar_isDigit _
  · exact digitChar_isDigit _
  · exact digitChar_isDigit _
  · exact digitChar_isDigit _

theorem natOfDigits_pad2 (n : Nat) (h : n ≤ 99) : natOfDigits (pad2 n) = n := by
  rw [pad2]
  show (0 * 10 + digitVal (digitChar (n / 10))) * 10 + digitVal (digitChar (n % 10)) = n
  rw [digitVal_digitChar _ (by omega), digitVal_digitChar _ (by omega)]
  omega

theorem natOfDigits_pad4 (n : Nat) (h : n ≤ 9999) : natOfDigits (pad4 n) = n := by
  rw [pad4]
  show (((0 * 10 + digitVal (digitChar (n / 1000))) * 10 + digitVal (digitChar (n / 100 % 10)))
      * 10 + digitVal (digitChar (n / 10 % 10))) * 10 + digitVal (digitChar (n % 10)) = n
  rw [digitVal_digitChar _ (by omega), digitVal_digitChar _ (by omega),
    digitVal_digitChar _ (by omega), digitVal_digitChar _ (by omega)]
  omega

theorem toDecimalF_spec (fuel : Nat) : ∀ n, n < fuel →
    (∀ c ∈ toDecimalF fuel n, c.isDigit = true) ∧ toDecimalF fuel n ≠ [] ∧
      natOfDigits (toDecimalF fuel n) = n := by
  induction fuel with
  | zero => intro n h; omega
  | succ fuel ih =>
    intro n h
    rw [toDecimalF]
    by_cases h10 : n < 10
    · rw [if_pos h10]
      refine ⟨?_, by simp, ?_⟩
      · intro c hc
        rw [List.mem_singleton] at hc
        subst hc
        exact digitChar_isDigit n
      · show 0 * 10 + digitVal (digitChar n) = n
        rw [digitVal_digitChar n (by omega)]
        omega
    · rw [if_neg h10]
      have hlt : n / 10 < fuel := by omega
      obtain ⟨hd, hne, hv⟩ := ih (n / 10) hlt
      refine ⟨?_, by simp, ?_⟩
      · intro c hc
        rcases List.mem_append.mp hc with hc2 | hc2
        · exact hd c hc2
        · rw [List.mem_singleton] at hc2
          subst hc2
          exact digitChar_isDigit _
      · rw [natOfDigits_append, hv, digitVal_digitChar _ (by omega)]
        omega

theorem toDecimal_digits (n : Nat) : ∀ c ∈ toDecimal n, c.isDigit = true :=
  (toDecimalF_spec (n + 1) n (by omega)).1

theorem toDecimal_ne_nil (n : Nat) : toDecimal n ≠ [] :=
  (toDecimalF_spec (n + 1) n (by omega)).2.1

theorem natOfDigits_toDecimal (n : Nat) : natOfDigits (toDecimal n) = n :=
  (toDecimalF_spec (n + 1) n (by omega)).2.2

theorem parseInteger2_emit (n : Nat) (h : n ≤ 99) (rest : Str) :
    parseInteger2 (pad2 n ++ rest) = some (n, rest) := by
  rw [parseInteger2, takeWhileMN_exact 2 Char.isDigit (pad2 n) rest (pad2_all_digits n) rfl]
  dsimp only
  rw [natOfDigits_pad2 n h]

theorem parseInteger4_emit (y : Nat) (h : y ≤ 9999) (rest : Str) :
    parseInteger4 (pad4 y ++ rest) = some (y, rest) := by
  rw [parseInteger4, takeWhileMN_exact 4 Char.isDigit (pad4 y) rest (pad4_all_digits y) rfl]
  dsimp only
  rw [natOfDigits_pad4 y h]

theorem parseInteger12_emit (n : Nat) (h : n ≤ 99) (rest : Str)
    (hr : rest.takeWhile Char.isDigit = []) :
    parseInteger12 (pad2 n ++ rest) = some (n, rest) := by
  rw [parseInteger12, takeWhileMN_12 Char.isDigit (pad2 n) rest (pad2_all_digits n) rfl hr]
  dsimp only
  rw [natOfDigits_pad2 n h]

theorem tagChar_pos (c : Char) (rest : Str) : tagChar c (c :: rest) = some rest := by
  show (if c = c then some rest else none) = some rest
  rw [if_pos rfl]

theorem tagChar_neg (c x : Char) (h : x ≠ c) (rest : Str) :
    tagChar c (x :: rest) = none := by
  show (if x = c then some rest else none) = none
  rw [if_neg h]

theorem tagChar_nil (c : Char) : tagChar c [] = none := rfl

theorem tagStr_pos (pre : Str) : ∀ rest, tagStr pre (pre ++ rest) = some rest := by
  induction pre with
  | nil => intro rest; rfl
  | cons c cs ih =>
    intro rest
    show (if c = c then tagStr cs (cs ++ rest) else none) = some rest
    rw [if_pos rfl, ih rest]

theorem tagStr_ne (c x : Char) (h : x ≠ c) (cs rest : Str) :
    tagStr (c :: cs) (x :: rest) = none := by
  show (if x = c then tagStr cs rest else none) = none
  rw [if_neg h]

theorem tagStr_nil (c : Char) (cs : Str) : tagStr (c :: cs) [] = none := rfl

theorem timeWF_iff (t : Time) (h : timeWF t = true) : t.hour < 24 ∧ t.minute < 60 := by
  rw [timeWF, Bool.and_eq_true, decide_eq_true_eq, decide_eq_true_eq] at h
  exact h

theorem timeParse_emit (t : Time) (h : timeWF t = true) (rest : Str) :
    timeParse (emitTime t ++ rest) = some (t, rest) := by
  obtain ⟨h1, h2⟩ := timeWF_iff t h
  have he : emitTime t ++ rest = pad2 t.hour ++ (':' :: (pad2 t.minute ++ rest)) := by
    rw [emitTime, List.append_assoc, List.cons_append]
  rw [he, timeParse,
    parseInteger12_emit t.hour (by omega) _ (List.takeWhile_cons_of_neg (by decide))]
  dsimp only
  rw [tagChar_pos]
  dsimp only
  rw [parseInteger2_emit t.minute (by omega) rest]
  dsimp only
  rw [if_pos (by simp [h1, h2])]

theorem unitChar_not_digit (u : TimeUnit) : Char.isDigit (unitChar u) = false := by
  cases u <;> decide

theorem timeUnitParse_emit (u : TimeUnit) (rest : Str) :
    timeUnitParse (unitChar u :: rest) = some (u, rest) := by
  cases u <;> rfl

theorem intervalParse_emit (i : Interval) (rest : Str) :
    intervalParse (emitInterval i ++ rest) = some (i, rest) := by
  have he : emitInterval i ++ rest = toDecimal i.value ++ (unitChar i.unit :: rest) := by
    rw [emitInterval, List.append_assoc, List.singleton_append]
  rw [he, intervalParse,
    digit1_emit _ _ (toDecimal_digits i.value) (toDecimal_ne_nil i.value)
      (List.takeWhile_cons_of_neg (by simp [unitChar_not_digit]))]
  dsimp only
  rw [timeUnitParse_emit]
  dsimp only
  rw [natOfDigits_toDecimal]

theorem toDecimal_head_digit (n : Nat) :
    ∃ c cs, toDecimal n = c :: cs ∧ c.isDigit = true := by
  cases hc : toDecimal n with
  | nil => exact absurd hc (toDecimal_ne_nil n)
  | cons c cs =>
    refine ⟨c, cs, rfl, ?_⟩
    exact toDecimal_digits n c (by rw [hc]; exact List.mem_cons_self c cs)

theorem repeaterMarkParse_plus (c : Char) (hc : c ≠ '+') (X : Str) :
    repeaterMarkParse ('+' :: c :: X) = some (.cumulate, c :: X) := by
  unfold repeaterMarkParse
  split
  · rename_i rest heq
    injection heq with h1 h2
    injection h2 with h3 h4
    exact absurd h3 hc
  · rename_i rest heq
    injection heq with h1 h2
    rw [h2]
  · rename_i rest heq
    injection heq with h1 h2
    exact absurd h1 (by decide)
  · rename_i h1 h2 h3
    exact absurd rfl (h2 (c :: X))

theorem repeaterMarkParse_fail (c : Char) (hc1 : c ≠ '+') (hc2 : c ≠ '.') (X : Str) :
    repeaterMarkParse (c :: X) = none := by
  unfold repeaterMarkParse
  split
  · rename_i rest heq
    injection heq with h1 h2
    exact absurd h1 hc1
  · rename_i rest heq
    injection heq with h1 h2
    exact absurd h1 hc1
  · rename_i rest heq
    injection heq with h1 h2
    exact absurd h1 hc2
  · rfl

theorem repeaterMarkParse_nil : repeaterMarkParse [] = none := rfl

theorem delayMarkParse_dash (c : Char) (hc : c ≠ '-') (X : Str) :
    delayMarkParse ('-' :: c :: X) = some (.all, c :: X) := by
  unfold delayMarkParse
  split
  · rename_i rest heq
    injection heq with h1 h2
    injection h2 with h3 h4
    exact absurd h3 hc
  · rename_i rest heq
    injection heq with h1 h2
    rw [h2]
  · rename_i h1 h2
    exact absurd rfl (h2 (c :: X))

theorem delayMarkParse_fail (c : Char) (hc : c ≠ '-') (X : Str) :
    delayMarkParse (c :: X) = none := by
  unfold delayMarkParse
  split
  · rename_i rest heq
    injection heq with h1 h2
    exact absurd h1 hc
  · rename_i rest heq
    injection heq with h1 h2
    exact absurd h1 hc
  · rfl

theorem delayMarkParse_nil : delayMarkParse [] = none := rfl

theorem repeaterParse_emit (r : Repeater) (rest : Str) :
    repeaterParse (emitRepeater r ++ rest) = some (r, rest) := by
  obtain ⟨mk, iv⟩ := r
  obtain ⟨c, cs, hc, hcd⟩ := toDecimal_head_digit iv.value
  have hcp : c ≠ '+' := by rintro rfl; exact absurd hcd (by decide)
  have hin : emitInterval iv ++ rest = c :: (cs ++ (unitChar iv.unit :: rest)) := by
    rw [emitInterval, hc]
    simp [List.append_assoc]
  cases mk with
  | cumulate =>
    have he : emitRepeater ⟨.cumulate, iv⟩ ++ rest = '+' :: (emitInterval iv ++ rest) := by
      rw [emitRepeater]
      rfl
    rw [he, repeaterParse, hin,
      repeaterMarkParse_plus c hcp (cs ++ (unitChar iv.unit :: rest))]
    dsimp only
    rw [← hin, intervalParse_emit]
  | catchUp =>
    have he : emitRepeater ⟨.catchUp, iv⟩ ++ rest = '+' :: '+' :: (emitInterval iv ++ rest) := by
      rw [emitRepeater]
      rfl
    rw [he, repeaterParse]
    rw [show repeaterMarkParse ('+' :: '+' :: (emitInterval iv ++ rest)) =
      some (.catchUp, emitInterval iv ++ rest) from rfl]
    dsimp only
    rw [intervalParse_emit]
  | restart =>
    have he : emitRepeater ⟨.restart, iv⟩ ++ rest = '.' :: '+' :: (emitInterval iv ++ rest) := by
      rw [emitRepeater]
      rfl
    rw [he, repeaterParse]
    rw [show repeaterMarkParse ('.' :: '+' :: (emitInterval iv ++ rest)) =
      some (.restart, emitInterval iv ++ rest) from rfl]
    dsimp only
    rw [intervalParse_emit]

theorem delayParse_emit (d : Delay) (rest : Str) :
    delayParse (emitDelay d ++ rest) = some (d, rest) := by
  obtain ⟨mk, iv⟩ := d
  obtain ⟨c, cs, hc, hcd⟩ := toDecimal_head_digit iv.value
  have hcp : c ≠ '-' := by rintro rfl; exact absurd hcd (by decide)
  have hin : emitInterval iv ++ rest = c :: (cs ++ (unitChar iv.unit :: rest)) := by
    rw [emitInterval, hc]
    simp [List.append_assoc]
  cases mk with
  | all =>
    have he : emitDelay ⟨.all, iv⟩ ++ rest = '-' :: (emitInterval iv ++ rest) := by
      rw [emitDelay]
      rfl
    rw [he, delayParse, hin,
      delayMarkParse_dash c hcp (cs ++ (unitChar iv.unit :: rest))]
    dsimp only
    rw [← hin, intervalParse_emit]
  | first =>
    have he : emitDelay ⟨.first, iv⟩ ++ rest = '-' :: '-' :: (emitInterval iv ++ rest) := by
      rw [emitDelay]
      rfl
    rw [he, delayParse]
    rw [show delayMarkParse ('-' :: '-' :: (emitInterval iv ++ rest)) =
      some (.first, emitInterval iv ++ rest) from rfl]
    dsimp only
    rw [intervalParse_emit]

theorem repeaterParse_fail (c : Char) (hc1 : c ≠ '+') (hc2 : c ≠ '.') (X : Str) :
    repeaterParse (c :: X) = none := by
  rw [repeaterParse, repeaterMarkParse_fail c hc1 hc2]

theorem delayParse_fail (c : Char) (hc : c ≠ '-') (X : Str) :
    delayParse (c :: X) = none := by
  rw [delayParse, delayMarkParse_fail c hc]

theorem takeWhile_nil_dropWhile (p : Char → Bool) (X : Str) (h : X.takeWhile p = []) :
    X.dropWhile p = X := by
  cases X with
  | nil => rfl
  | cons a as =>
    rw [List.takeWhile_cons] at h
    by_cases hp : p a = true
    · rw [if_pos hp] at h; cases h
    · rw [List.dropWhile_cons_of_neg (by simpa using hp)]

theorem space1T_fail (c : Char) (hc : isSpaceTab c = false) (X : Str) :
    space1T (c :: X) = none := by
  rw [space1T, List.takeWhile_cons_of_neg (by simp [hc])]
  rfl

theorem space1T_space (X : Str) (h : X.takeWhile isSpaceTab = []) :
    space1T (' ' :: X) = some X := by
  rw [space1T, List.takeWhile_cons_of_pos (by decide)]
  rw [if_neg (by simp)]
  rw [List.dropWhile_cons_of_pos (by decide), takeWhile_nil_dropWhile _ X h]

theorem space1T_nil : space1T [] = none := rfl

theorem emitDelay_cons (d : Delay) : ∃ X, emitDelay d = '-' :: X := by
  obtain ⟨mk, iv⟩ := d
  cases mk
  · exact ⟨emitInterval iv, rfl⟩
  · exact ⟨'-' :: emitInterval iv, rfl⟩

theorem emitRepeater_cons (r : Repeater) :
    ∃ c X, emitRepeater r = c :: X ∧ (c = '+' ∨ c = '.') := by
  obtain ⟨mk, iv⟩ := r
  cases mk
  · exact ⟨'+', emitInterval iv, rfl, Or.inl rfl⟩
  · exact ⟨'+', '+' :: emitInterval iv, rfl, Or.inl rfl⟩
  · exact ⟨'.', '+' :: emitInterval iv, rfl, Or.inr rfl⟩

theorem radParse_both (r : Repeater) (d : Delay) (rest : Str) :
    radParse (emitRepeater r ++ ' ' :: (emitDelay d ++ rest)) =
      (⟨some r, some d⟩, rest) := by
  obtain ⟨X, hX⟩ := emitDelay_cons d
  have hb1 : radBranch1 (emitRepeater r ++ ' ' :: (emitDelay d ++ rest)) =
      some (⟨some r, some d⟩, rest) := by
    rw [radBranch1, repeaterParse_emit]
    dsimp only
    rw [space1T_space _ (by rw [hX, List.cons_append, List.takeWhile_cons_of_neg (by decide)])]
    dsimp only
    rw [delayParse_emit]
  rw [radParse, hb1]

theorem radParse_rep (r : Repeater) (rest : Str) (hsp : space1T rest = none) :
    radParse (emitRepeater r ++ rest) = (⟨some r, none⟩, rest) := by
  obtain ⟨c, X, hcX, hcor⟩ := emitRepeater_cons r
  have hdm : delayParse (emitRepeater r ++ rest) = none := by
    rw [hcX, List.cons_append]
    refine delayParse_fail c ?_ _
    rcases hcor with rfl | rfl <;> decide
  have hb1 : radBranch1 (emitRepeater r ++ rest) = none := by
    rw [radBranch1, repeaterParse_emit]
    dsimp only
    rw [hsp]
  have hb2 : radBranch2 (emitRepeater r ++ rest) = none := by
    rw [radBranch2, hdm]
  rw [radParse, hb1]
  dsimp only
  rw [hb2]
  dsimp only
  rw [hdm]
  dsimp only
  rw [repeaterParse_emit]

theorem radParse_del (d : Delay) (rest : Str) (hsp : space1T rest = none) :
    radParse (emitDelay d ++ rest) = (⟨none, some d⟩, rest) := by
  obtain ⟨X, hX⟩ := emitDelay_cons d
  have hrm : repeaterParse (emitDelay d ++ rest) = none := by
    rw [hX, List.cons_append]
    exact repeaterParse_fail '-' (by decide) (by decide) _
  have hb1 : radBranch1 (emitDelay d ++ rest) = none := by
    rw [radBranch1, hrm]
  have hb2 : radBranch2 (emitDelay d ++ rest) = none := by
    rw [radBranch2, delayParse_emit]
    dsimp only
    rw [hsp]
  rw [radParse, hb1]
  dsimp only
  rw [hb2]
  dsimp only
  rw [delayParse_emit]

theorem radParse_other (c : Char) (X : Str) (hc1 : c ≠ '+') (hc2 : c ≠ '.')
    (hc3 : c ≠ '-') : radParse (c :: X) = (⟨none, none⟩, c :: X) := by
  have hrm := repeaterParse_fail c hc1 hc2 X
  have hdm := delayParse_fail c hc3 X
  have hb1 : radBranch1 (c :: X) = none := by rw [radBranch1, hrm]
  have hb2 : radBranch2 (c :: X) = none := by rw [radBranch2, hdm]
  rw [radParse, hb1]
  dsimp only
  rw [hb2]
  dsimp only
  rw [hdm]
  dsimp only
  rw [hrm]

theorem radParse_nil : radParse [] = (⟨none, none⟩, []) := rfl

theorem digitChar_dayname_pred (k : Nat) :
    (!rustIsWhitespace (digitChar k) && digitChar k != '>' && digitChar k != ']') = true := by
  rcases k with _|_|_|_|_|_|_|_|_|k <;> rfl

theorem parseDayname_none_of (c : Char) (X : Str)
    (hpred : (!rustIsWhitespace c && c != '>' && c != ']') = true)
    (hany : (c.isDigit || c == '+' || c == '-') = true) :
    parseDayname (c :: X) = none := by
  simp only [parseDayname, List.takeWhile_cons]
  rw [hpred, if_pos rfl]
  rw [if_neg (by simp)]
  simp only [List.any_cons]
  simp only [Bool.or_eq_true] at hany
  rcases hany with (h | h) | h <;> simp [h]

theorem parseDayname_none_of2 (c1 c2 : Char) (X : Str)
    (hp1 : (!rustIsWhitespace c1 && c1 != '>' && c1 != ']') = true)
    (hp2 : (!rustIsWhitespace c2 && c2 != '>' && c2 != ']') = true)
    (hany : (c2.isDigit || c2 == '+' || c2 == '-') = true) :
    parseDayname (c1 :: c2 :: X) = none := by
  simp only [parseDayname, List.takeWhile_cons]
  rw [hp1, if_pos rfl, hp2, if_pos rfl]
  rw [if_neg (by simp)]
  simp only [List.any_cons]
  simp only [Bool.or_eq_true] at hany
  rcases hany with (h | h) | h <;> simp [h]

theorem parseDayname_digit (k : Nat) (X : Str) : parseDayname (digitChar k :: X) = none :=
  parseDayname_none_of _ X (digitChar_dayname_pred k)
    (by rw [digitChar_isDigit k]; simp)

theorem parseDayname_plusminus (c : Char) (hc : c = '+' ∨ c = '-') (X : Str) :
    parseDayname (c :: X) = none := by
  rcases hc with rfl | rfl
  · exact parseDayname_none_of _ X (by decide) (by decide)
  · exact parseDayname_none_of _ X (by decide) (by decide)

theorem parseDayname_dotplus (X : Str) : parseDayname ('.' :: '+' :: X) = none :=
  parseDayname_none_of2 '.' '+' X (by decide) (by decide) (by decide)

theorem afterDayname_nospace (c : Char) (hc : isSpaceTab c = false) (X : Str) :
    afterDayname (c :: X) = c :: X := by
  rw [afterDayname, space1T_fail c hc]

theorem afterDayname_nil : afterDayname [] = [] := rfl

theorem afterDayname_space (X : Str) (ht : X.takeWhile isSpaceTab = [])
    (hd : parseDayname X = none) : afterDayname (' ' :: X) = ' ' :: X := by
  rw [afterDayname, space1T_space X ht]
  dsimp only
  rw [hd]

theorem daysInMonth_le (y m : Nat) : daysInMonth y m ≤ 31 := by
  unfold daysInMonth
  split <;> first | omega | (split_ifs <;> omega)

theorem isValidDate_bounds (y m d : Nat) (h : isValidDate y m d = true) :
    1 ≤ m ∧ m ≤ 12 ∧ 1 ≤ d ∧ d ≤ 31 := by
  rw [isValidDate] at h
  simp only [Bool.and_eq_true, decide_eq_true_eq] at h
  have hdm := daysInMonth_le y m
  omega

theorem dateParse_emit (dt : TsDate) (hv : isValidDate dt.year dt.month dt.day = true)
    (hy : dt.year ≤ 9999) (rest : Str) (hdn : afterDayname rest = rest) :
    dateParse (emitDate dt ++ rest) = .ok dt rest := by
  obtain ⟨hm1, hm2, hd1, hd2⟩ := isValidDate_bounds _ _ _ hv
  have he : emitDate dt ++ rest =
      pad4 dt.year ++ ('-' :: (pad2 dt.month ++ ('-' :: (pad2 dt.day ++ rest)))) := by
    rw [emitDate, emitYear, if_pos hy]
    simp [List.append_assoc]
  rw [he, dateParse, parseInteger4_emit dt.year hy]
  dsimp only
  rw [tagChar_pos]
  dsimp only
  rw [parseInteger2_emit dt.month (by omega)]
  dsimp only
  rw [tagChar_pos]
  dsimp only
  rw [parseInteger2_emit dt.day (by omega)]
  dsimp only
  rw [if_pos hv, hdn]

theorem parseInteger12_fail (c : Char) (hc : c.isDigit = false) (X : Str) :
    parseInteger12 (c :: X) = none := by
  have ht : (c :: X).takeWhile Char.isDigit = [] :=
    List.takeWhile_cons_of_neg (by simp [hc])
  simp only [parseInteger12, takeWhileMN, ht, List.take_nil, List.length_nil]
  rw [if_pos (by omega)]

theorem timeParse_fail (c : Char) (hc : c.isDigit = false) (X : Str) :
    timeParse (c :: X) = none := by
  rw [timeParse, parseInteger12_fail c hc]

theorem timeSpecParse_fail (c : Char) (hc : c.isDigit = false) (X : Str) :
    timeSpecParse (c :: X) = none := by
  rw [timeSpecParse, timeParse_fail c hc]

theorem timeSpecParse_single (t : Time) (h : timeWF t = true) (c : Char) (hc : c ≠ '-')
    (X : Str) :
    timeSpecParse (emitTime t ++ c :: X) = some (.single t, c :: X) := by
  rw [timeSpecParse, timeParse_emit t h]
  dsimp only
  rw [tagChar_neg '-' c hc]

theorem timeSpecParse_range (a b : Time) (ha : timeWF a = true) (hb : timeWF b = true)
    (rest : Str) :
    timeSpecParse (emitTime a ++ '-' :: (emitTime b ++ rest)) = some (.range a b, rest) := by
  rw [timeSpecParse, timeParse_emit a ha]
  dsimp only
  rw [tagChar_pos]
  dsimp only
  rw [timeParse_emit b hb]

theorem emitTime_cons (t : Time) :
    emitTime t = digitChar (t.hour / 10) :: (digitChar (t.hour % 10) :: ':' :: pad2 t.minute) :=
  rfl

theorem emitSpec_head (s : TimeSpec) : ∃ k X, emitSpec s = digitChar k :: X := by
  cases s with
  | single t => exact ⟨t.hour / 10, _, rfl⟩
  | range a b =>
    exact ⟨a.hour / 10,
      (digitChar (a.hour % 10) :: ':' :: pad2 a.minute) ++ '-' :: emitTime b,
      by rw [emitSpec, emitTime_cons, List.cons_append]⟩

theorem emitRepeater_shape (r : Repeater) :
    (∃ X, emitRepeater r = '+' :: X) ∨ (∃ X, emitRepeater r = '.' :: '+' :: X) := by
  obtain ⟨mk, iv⟩ := r
  cases mk
  · exact Or.inl ⟨emitInterval iv, rfl⟩
  · exact Or.inl ⟨'+' :: emitInterval iv, rfl⟩
  · exact Or.inr ⟨emitInterval iv, rfl⟩

/-- Start/end times extracted from an optional `TimeSpec` as
`parse_atomic_timestamp` does. -/
def specStart : Option TimeSpec → Option Time
  | none => none
  | some (.single t) => some t
  | some (.range a _) => some a

def specEnd : Option TimeSpec → Option Time
  | none => none
  | some (.single _) => none
  | some (.range _ b) => some b

/-- Well-formedness of the emitted time spec. -/
def specWF : Option TimeSpec → Prop
  | none => True
  | some (.single t) => timeWF t = true
  | some (.range a b) => timeWF a = true ∧ timeWF b = true

theorem digitChar_not_spacetab (k : Nat) : isSpaceTab (digitChar k) = false := by
  rcases k with _|_|_|_|_|_|_|_|_|k <;> rfl

theorem digitChar_not_dash (k : Nat) : digitChar k ≠ '-' := by
  intro h
  have hd := digitChar_isDigit k
  rw [h] at hd
  exact absurd hd (by decide)

theorem emitRad_shape (ck : RepeaterAndDelay) (h : ck ≠ ⟨none, none⟩) :
    (∃ X, emitRad ck = '+' :: X) ∨ (∃ X, emitRad ck = '.' :: '+' :: X) ∨
      (∃ X, emitRad ck = '-' :: X) := by
  obtain ⟨or, od⟩ := ck
  cases or with
  | none =>
    cases od with
    | none => exact absurd rfl h
    | some d2 =>
      obtain ⟨X, hX⟩ := emitDelay_cons d2
      exact Or.inr (Or.inr ⟨X, hX⟩)
  | some r =>
    rcases emitRepeater_shape r with ⟨X, hX⟩ | ⟨X, hX⟩
    · left
      cases od with
      | none => exact ⟨X, hX⟩
      | some d2 =>
        refine ⟨X ++ ' ' :: emitDelay d2, ?_⟩
        show emitRepeater r ++ ' ' :: emitDelay d2 = '+' :: (X ++ ' ' :: emitDelay d2)
        rw [hX, List.cons_append]
    · right
      left
      cases od with
      | none => exact ⟨X, hX⟩
      | some d2 =>
        refine ⟨X ++ ' ' :: emitDelay d2, ?_⟩
        show emitRepeater r ++ ' ' :: emitDelay d2 = '.' :: '+' :: (X ++ ' ' :: emitDelay d2)
        rw [hX]
        rfl

theorem emitRad_facts (ck : RepeaterAndDelay) (hck : ck ≠ ⟨none, none⟩) (T : Str) :
    parseDayname (emitRad ck ++ T) = none ∧
    (emitRad ck ++ T).takeWhile isSpaceTab = [] ∧
    timeSpecParse (emitRad ck ++ T) = none := by
  rcases emitRad_shape ck hck with ⟨X, hX⟩ | ⟨X, hX⟩ | ⟨X, hX⟩
  · rw [hX, List.cons_append]
    exact ⟨parseDayname_plusminus '+' (Or.inl rfl) _,
      List.takeWhile_cons_of_neg (by decide),
      timeSpecParse_fail '+' (by decide) _⟩
  · rw [hX, List.cons_append, List.cons_append]
    exact ⟨parseDayname_dotplus _,
      List.takeWhile_cons_of_neg (by decide),
      timeSpecParse_fail '.' (by decide) _⟩
  · rw [hX, List.cons_append]
    exact ⟨parseDayname_plusminus '-' (Or.inr rfl) _,
      List.takeWhile_cons_of_neg (by decide),
      timeSpecParse_fail '-' (by decide) _⟩

theorem optSpec_nospace (r1 : Str) (hsp : space1T r1 = none) : optSpec r1 = (none, r1) := by
  rw [optSpec, hsp]

theorem optSpec_space_fail (Z : Str) (htw : Z.takeWhile isSpaceTab = [])
    (hts : timeSpecParse Z = none) : optSpec (' ' :: Z) = (none, ' ' :: Z) := by
  rw [optSpec, space1T_space Z htw]
  dsimp only
  rw [hts]

theorem optSpec_space_spec (Z TAIL : Str) (s : TimeSpec)
    (htw : Z.takeWhile isSpaceTab = [])
    (hts : timeSpecParse Z = some (s, TAIL)) : optSpec (' ' :: Z) = (some s, TAIL) := by
  rw [optSpec, space1T_space Z htw]
  dsimp only
  rw [hts]

theorem radAlt2_empty (r2 : Str) (hsp : space1T r2 = none)
    (hrad : radParse r2 = (⟨none, none⟩, r2)) :
    radAlt2 r2 = some (⟨none, none⟩, r2) := by
  have h1 : radAlt r2 = none := by rw [radAlt, hsp]
  rw [radAlt2, h1]
  dsimp only
  rw [hrad]
  rfl

theorem radAlt2_cookie (Z : Str) (ck : RepeaterAndDelay) (T : Str)
    (htw : Z.takeWhile isSpaceTab = [])
    (hzrad : radParse Z = (ck, T))
    (hck : (ck.repeater.isSome || ck.delay.isSome) = true) :
    radAlt2 (' ' :: Z) = some (ck, T) := by
  have h1 : radAlt (' ' :: Z) = some (ck, T) := by
    rw [radAlt, space1T_space Z htw]
    dsimp only
    rw [hzrad]
    dsimp only
    rw [if_pos hck]
  rw [radAlt2, h1]

theorem skipJunk_closer (closer : Char) (rest : Str) (hclo : closer = '>' ∨ closer = ']') :
    skipJunk (closer :: rest) = closer :: rest := by
  rcases hclo with rfl | rfl <;>
    (rw [skipJunk, isNotTake, List.takeWhile_cons_of_neg (by decide)]; rfl)

theorem atomicTail_emit (act : Activity) (date : TsDate) (spec? : Option TimeSpec)
    (cookie : RepeaterAndDelay) (R1 R2 T : Str)
    (h1 : optSpec R1 = (spec?, R2)) (h2 : radAlt2 R2 = some (cookie, T))
    (h3 : skipJunk T = T) :
    atomicTail act date R1 = .ok (⟨act, date, specStart spec?, cookie⟩, specEnd spec?) T := by
  rw [atomicTail, h1]
  dsimp only
  rw [h2]
  dsimp only
  rw [h3]
  cases spec? with
  | none => rfl
  | some s => cases s <;> rfl

theorem atomicInner_emit (act : Activity) (d : TsDate) (spec? : Option TimeSpec)
    (cookie : RepeaterAndDelay) (closer : Char) (rest : Str)
    (hv : isValidDate d.year d.month d.day = true) (hy : d.year ≤ 9999)
    (hs : specWF spec?) (hclo : closer = '>' ∨ closer = ']') :
    atomicInner act (emitInner d spec? cookie ++ closer :: rest) =
      PR.ok (⟨act, d, specStart spec?, cookie⟩, specEnd spec?) (closer :: rest) := by
  have hcl1 : isSpaceTab closer = false := by rcases hclo with rfl | rfl <;> decide
  have hclD : closer ≠ '-' := by rcases hclo with rfl | rfl <;> decide
  have hspC : space1T (closer :: rest) = none := space1T_fail closer hcl1 rest
  have hradC : radParse (closer :: rest) = (⟨none, none⟩, closer :: rest) := by
    rcases hclo with rfl | rfl <;>
      exact radParse_other _ _ (by decide) (by decide) (by decide)
  have hjunk : skipJunk (closer :: rest) = closer :: rest := skipJunk_closer closer rest hclo
  by_cases hck : cookie = ⟨none, none⟩
  · subst hck
    have hrad2 : radAlt2 (closer :: rest) = some (⟨none, none⟩, closer :: rest) :=
      radAlt2_empty _ hspC hradC
    cases spec? with
    | none =>
      have hC : emitInner d none ⟨none, none⟩ ++ closer :: rest =
          emitDate d ++ closer :: rest := by
        simp [emitInner]
      rw [hC, atomicInner,
        dateParse_emit d hv hy (closer :: rest) (afterDayname_nospace closer hcl1 rest)]
      exact atomicTail_emit act d none ⟨none, none⟩ _ _ _
        (optSpec_nospace _ hspC) hrad2 hjunk
    | some s =>
      have hC : emitInner d (some s) ⟨none, none⟩ ++ closer :: rest =
          emitDate d ++ (' ' :: (emitSpec s ++ closer :: rest)) := by
        simp [emitInner]
      obtain ⟨k, X, hkX⟩ := emitSpec_head s
      have htw : (emitSpec s ++ closer :: rest).takeWhile isSpaceTab = [] := by
        rw [hkX, List.cons_append]
        exact List.takeWhile_cons_of_neg (by simp [digitChar_not_spacetab])
      have hdn : afterDayname (' ' :: (emitSpec s ++ closer :: rest)) =
          ' ' :: (emitSpec s ++ closer :: rest) := by
        refine afterDayname_space _ htw ?_
        rw [hkX, List.cons_append]
        exact parseDayname_digit k _
      have hts : timeSpecParse (emitSpec s ++ closer :: rest) =
          some (s, closer :: rest) := by
        cases s with
        | single t =>
          exact timeSpecParse_single t hs closer hclD rest
        | range a b =>
          rw [emitSpec, List.append_assoc, List.cons_append]
          exact timeSpecParse_range a b hs.1 hs.2 (closer :: rest)
      rw [hC, atomicInner, dateParse_emit d hv hy _ hdn]
      exact atomicTail_emit act d (some s) ⟨none, none⟩ _ _ _
        (optSpec_space_spec _ _ s htw hts) hrad2 hjunk
  · obtain ⟨hznd, hztw, hzts⟩ := emitRad_facts cookie hck (closer :: rest)
    have hckb : (cookie.repeater.isSome || cookie.delay.isSome) = true := by
      obtain ⟨or, od⟩ := cookie
      cases or with
      | some r => rfl
      | none =>
        cases od with
        | some d2 => rfl
        | none => exact absurd rfl hck
    have hzrad : radParse (emitRad cookie ++ closer :: rest) =
        (cookie, closer :: rest) := by
      obtain ⟨or, od⟩ := cookie
      cases or with
      | some r =>
        cases od with
        | some d2 =>
          have hsh : emitRad ⟨some r, some d2⟩ ++ closer :: rest =
              emitRepeater r ++ ' ' :: (emitDelay d2 ++ closer :: rest) := by
            show (emitRepeater r ++ ' ' :: emitDelay d2) ++ closer :: rest = _
            rw [List.append_assoc, List.cons_append]
          rw [hsh]
          exact radParse_both r d2 (closer :: rest)
        | none => exact radParse_rep r (closer :: rest) hspC
      | none =>
        cases od with
        | some d2 => exact radParse_del d2 (closer :: rest) hspC
        | none => exact absurd rfl hck
    have hrad2 : radAlt2 (' ' :: (emitRad cookie ++ closer :: rest)) =
        some (cookie, closer :: rest) :=
      radAlt2_cookie _ cookie _ hztw hzrad hckb
    cases spec? with
    | none =>
      have hC : emitInner d none cookie ++ closer :: rest =
          emitDate d ++ (' ' :: (emitRad cookie ++ closer :: rest)) := by
        simp [emitInner, hck]
      have hdn : afterDayname (' ' :: (emitRad cookie ++ closer :: rest)) =
          ' ' :: (emitRad cookie ++ closer :: rest) :=
        afterDayname_space _ hztw hznd
      rw [hC, atomicInner, dateParse_emit d hv hy _ hdn]
      exact atomicTail_emit act d none cookie _ _ _
        (optSpec_space_fail _ hztw hzts) hrad2 hjunk
    | some s =>
      have hC : emitInner d (some s) cookie ++ closer :: rest =
          emitDate d ++
            (' ' :: (emitSpec s ++ (' ' :: (emitRad cookie ++ closer :: rest)))) := by
        simp [emitInner, hck]
      obtain ⟨k, X, hkX⟩ := emitSpec_head s
      have htw : (emitSpec s ++ (' ' :: (emitRad cookie ++ closer :: rest))).takeWhile
          isSpaceTab = [] := by
        rw [hkX, List.cons_append]
        exact List.takeWhile_cons_of_neg (by simp [digitChar_not_spacetab])
      have hdn : afterDayname
          (' ' :: (emitSpec s ++ (' ' :: (emitRad cookie ++ closer :: rest)))) =
          ' ' :: (emitSpec s ++ (' ' :: (emitRad cookie ++ closer :: rest))) := by
        refine afterDayname_space _ htw ?_
        rw [hkX, List.cons_append]
        exact parseDayname_digit k _
      have hts : timeSpecParse (emitSpec s ++ (' ' :: (emitRad cookie ++ closer :: rest))) =
          some (s, ' ' :: (emitRad cookie ++ closer :: rest)) := by
        cases s with
        | single t =>
          exact timeSpecParse_single t hs ' ' (by decide) _
        | range a b =>
          rw [emitSpec, List.append_assoc, List.cons_append]
          exact timeSpecParse_range a b hs.1 hs.2 _
      rw [hC, atomicInner, dateParse_emit d hv hy _ hdn]
      exact atomicTail_emit act d (some s) cookie _ _ _
        (optSpec_space_spec _ _ s htw hts) hrad2 hjunk

theorem parseAtomic_open (act : Activity) (r0 : Str) :
    parseAtomic (openChar act :: r0) = atomicClose (atomicInner act r0) := by
  cases act <;> rfl

theorem atomicClose_close (act : Activity) (v : Point × Option Time) (r : Str) :
    atomicClose (.ok v (closeChar act :: r)) = .ok v r := by
  cases act <;> rfl

theorem closeChar_or (act : Activity) : closeChar act = '>' ∨ closeChar act = ']' := by
  cases act
  · exact Or.inl rfl
  · exact Or.inr rfl

theorem parseAtomic_emit (act : Activity) (d : TsDate) (spec? : Option TimeSpec)
    (cookie : RepeaterAndDelay) (rest : Str)
    (hv : isValidDate d.year d.month d.day = true) (hy : d.year ≤ 9999)
    (hs : specWF spec?) :
    parseAtomic ((openChar act :: (emitInner d spec? cookie ++ [closeChar act])) ++ rest) =
      PR.ok (⟨act, d, specStart spec?, cookie⟩, specEnd spec?) rest := by
  have hin : (openChar act :: (emitInner d spec? cookie ++ [closeChar act])) ++ rest =
      openChar act :: (emitInner d spec? cookie ++ closeChar act :: rest) := by
    simp
  rw [hin, parseAtomic_open,
    atomicInner_emit act d spec? cookie (closeChar act) rest hv hy hs (closeChar_or act),
    atomicClose_close]

theorem emitPoint_eq (p : Point) :
    emitPoint p = openChar p.active ::
      (emitInner p.date (p.time.map TimeSpec.single) p.cookie ++ [closeChar p.active]) := rfl

theorem specStart_map_single (t? : Option Time) :
    specStart (t?.map TimeSpec.single) = t? := by
  cases t? <;> rfl

theorem specEnd_map_single (t? : Option Time) :
    specEnd (t?.map TimeSpec.single) = none := by
  cases t? <;> rfl

theorem pointWF_parts (p : Point) (hp : pointWF p = true) :
    isValidDate p.date.year p.date.month p.date.day = true ∧
      specWF (p.time.map TimeSpec.single) := by
  rw [pointWF, Bool.and_eq_true] at hp
  refine ⟨hp.1, ?_⟩
  have h2 := hp.2
  cases ht : p.time with
  | none => trivial
  | some t =>
    rw [ht] at h2
    exact h2

theorem parseAtomic_emitPoint (p : Point) (hp : pointWF p = true)
    (hy : p.date.year ≤ 9999) (rest : Str) :
    parseAtomic (emitPoint p ++ rest) = PR.ok (p, none) rest := by
  obtain ⟨hv, hsw⟩ := pointWF_parts p hp
  rw [emitPoint_eq, parseAtomic_emit p.active p.date _ p.cookie rest hv hy hsw,
    specStart_map_single, specEnd_map_single]

theorem pointParse_emit (p : Point) (hp : pointWF p = true)
    (hy : p.date.year ≤ 9999) (rest : Str) :
    pointParse (emitPoint p ++ rest) = .ok p rest := by
  rw [pointParse, parseAtomic_emitPoint p hp hy rest]

theorem rangeParse_emit (r : Range) (h1 : pointWF r.start = true)
    (h2 : pointWF r.stop = true) (hact : r.start.active = r.stop.active)
    (hy1 : r.start.date.year ≤ 9999) (hy2 : r.stop.date.year ≤ 9999) (rest : Str) :
    rangeParse (emitRange r ++ rest) = .ok r rest := by
  have hin : emitRange r ++ rest =
      emitPoint r.start ++ ('-' :: '-' :: (emitPoint r.stop ++ rest)) := by
    rw [emitRange]
    simp
  rw [rangeParse, hin, pointParse_emit r.start h1 hy1]
  dsimp only
  rw [show ('-' :: '-' :: (emitPoint r.stop ++ rest) : Str) =
    ['-', '-'] ++ (emitPoint r.stop ++ rest) from rfl, tagStr_pos]
  dsimp only
  rw [pointParse_emit r.stop h2 hy2]
  dsimp only
  rw [hact]

theorem emitTimeRange_eq (tr : TimeRange) (t0 : Time) (ht0 : tr.start.time = some t0) :
    emitTimeRange tr = openChar tr.start.active ::
      (emitInner tr.start.date (some (.range t0 tr.endTime)) tr.start.cookie ++
        [closeChar tr.start.active]) := by
  rw [emitTimeRange, ht0]
  rfl

theorem parseAtomic_emitTimeRange (tr : TimeRange) (t0 : Time)
    (ht0 : tr.start.time = some t0) (hp : pointWF tr.start = true)
    (hte : timeWF tr.endTime = true) (hy : tr.start.date.year ≤ 9999) (rest : Str) :
    parseAtomic (emitTimeRange tr ++ rest) =
      PR.ok (tr.start, some tr.endTime) rest := by
  obtain ⟨hv, hsw⟩ := pointWF_parts tr.start hp
  have ht0w : timeWF t0 = true := by
    rw [ht0] at hsw
    exact hsw
  rw [emitTimeRange_eq tr t0 ht0,
    parseAtomic_emit tr.start.active tr.start.date (some (.range t0 tr.endTime))
      tr.start.cookie rest hv hy ⟨ht0w, hte⟩]
  show PR.ok ((⟨tr.start.active, tr.start.date, some t0, tr.start.cookie⟩ : Point),
    some tr.endTime) rest = _
  rw [← ht0]

theorem timeRangeParse_emit (tr : TimeRange) (t0 : Time)
    (ht0 : tr.start.time = some t0) (hp : pointWF tr.start = true)
    (hte : timeWF tr.endTime = true) (hy : tr.start.date.year ≤ 9999) (rest : Str) :
    timeRangeParse (emitTimeRange tr ++ rest) = .ok tr rest := by
  rw [timeRangeParse, parseAtomic_emitTimeRange tr t0 ht0 hp hte hy rest]

theorem diaryParse_emit (dy : Diary) (h : diaryWF dy = true) (rest : Str) :
    diaryParse (emitDiary dy ++ rest) = some (dy, rest) := by
  have hall : ∀ c ∈ dy.text ++ [')'],
      (!List.contains ['\n', '>'] c) = true := by
    intro c hc
    rcases List.mem_append.mp hc with hc2 | hc2
    · rw [diaryWF, List.all_eq_true] at h
      have := h c hc2
      simp only [Bool.and_eq_true, bne_iff_ne, ne_eq] at this
      simp [this.1, this.2]
    · rw [List.mem_singleton] at hc2
      subst hc2
      decide
  have hin : emitDiary dy ++ rest =
      ['<', '%', '%', '('] ++ ((dy.text ++ [')']) ++ ('>' :: rest)) := by
    rw [emitDiary]
    simp
  rw [diaryParse, hin, tagStr_pos]
  dsimp only
  have hnt : isNotTake ['\n', '>'] ((dy.text ++ [')']) ++ ('>' :: rest)) =
      some (dy.text ++ [')'], '>' :: rest) := by
    rw [isNotTake]
    rw [takeWhile_append_all _ _ _ hall, List.takeWhile_cons_of_neg (by decide),
      List.append_nil]
    rw [if_neg (by simp)]
    rw [List.drop_left]
  rw [hnt]
  dsimp only
  rw [tagChar_pos]
  dsimp only
  rw [List.getLast?_concat, List.dropLast_concat]
  rfl

theorem digitChar_ne_percent (k : Nat) : digitChar k ≠ '%' := by
  intro hcontra
  have hd := digitChar_isDigit k
  rw [hcontra] at hd
  exact absurd hd (by decide)

theorem emitDate_head (d : TsDate) (hy : d.year ≤ 9999) :
    emitDate d = digitChar (d.year / 1000) ::
      (digitChar (d.year / 100 % 10) :: digitChar (d.year / 10 % 10) ::
        digitChar (d.year % 10) :: '-' :: pad2 d.month ++ '-' :: pad2 d.day) := by
  rw [emitDate, emitYear, if_pos hy]
  rfl

theorem emitInner_head (d : TsDate) (spec? : Option TimeSpec) (ck : RepeaterAndDelay)
    (hy : d.year ≤ 9999) :
    ∃ X, emitInner d spec? ck = digitChar (d.year / 1000) :: X := by
  refine ⟨(digitChar (d.year / 100 % 10) :: digitChar (d.year / 10 % 10) ::
        digitChar (d.year % 10) :: '-' :: pad2 d.month ++ '-' :: pad2 d.day) ++
      (match spec? with
       | none => []
       | some s => ' ' :: emitSpec s) ++
      (if ck = ⟨none, none⟩ then [] else ' ' :: emitRad ck), ?_⟩
  rw [emitInner.eq_def, emitDate_head d hy]
  simp

theorem diaryParse_fail_digit (act : Activity) (k : Nat) (X : Str) :
    diaryParse (openChar act :: digitChar k :: X) = none := by
  cases act with
  | active =>
    have h1 : tagStr ['<', '%', '%', '('] ('<' :: digitChar k :: X) = none := by
      show (if '<' = '<' then tagStr ['%', '%', '('] (digitChar k :: X) else none) = none
      rw [if_pos rfl, tagStr_ne '%' (digitChar k) (digitChar_ne_percent k)]
    rw [diaryParse, show openChar Activity.active = '<' from rfl, h1]
  | inactive =>
    rw [diaryParse, show openChar Activity.inactive = '[' from rfl,
      tagStr_ne '<' '[' (by decide)]

theorem diaryParse_fail_point (p : Point) (hy : p.date.year ≤ 9999) (Y : Str) :
    diaryParse (emitPoint p ++ Y) = none := by
  obtain ⟨X, hX⟩ := emitInner_head p.date (p.time.map TimeSpec.single) p.cookie hy
  have hsh : emitPoint p ++ Y = openChar p.active ::
      digitChar (p.date.year / 1000) :: (X ++ closeChar p.active :: Y) := by
    rw [emitPoint_eq, hX]
    simp
  rw [hsh, diaryParse_fail_digit]

theorem diaryParse_fail_timeRange (tr : TimeRange) (hy : tr.start.date.year ≤ 9999)
    (Y : Str) :
    diaryParse (emitTimeRange tr ++ Y) = none := by
  obtain ⟨X, hX⟩ := emitInner_head tr.start.date
    (some (.range (tr.start.time.getD ⟨0, 0⟩) tr.endTime)) tr.start.cookie hy
  have hsh : emitTimeRange tr ++ Y = openChar tr.start.active ::
      digitChar (tr.start.date.year / 1000) :: (X ++ closeChar tr.start.active :: Y) := by
    rw [emitTimeRange, hX]
    simp
  rw [hsh, diaryParse_fail_digit]

/-- C7 (amended): round-tripping `Timestamp::parse ∘ Display` is the
identity on well-formed timestamp values whose years are at most 9999.
Well-formed means: valid calendar dates, in-range times, a `Range` with
equal activity on both ends, a `TimeRange` whose start carries a time, a
`Diary` body free of newlines and closing angle brackets.  (The year bound
is needed: chrono renders year 10000 as "+10000", which the parser
rejects — see the counterexample.) -/
theorem timestamp_roundtrip (T : Timestamp) (hwf : timestampWF T = true)
    (hy : tsMaxYear T ≤ 9999) :
    timestampParse (emitTimestamp T) = PR.ok T [] := by
  cases T with
  | diary dy =>
    have hd : diaryParse (emitDiary dy) = some (dy, []) := by
      have h0 := diaryParse_emit dy hwf []
      rwa [List.append_nil] at h0
    rw [show emitTimestamp (.diary dy) = emitDiary dy from rfl, timestampParse, hd]
  | point p =>
    have hp : pointWF p = true := hwf
    have hy9 : p.date.year ≤ 9999 := hy
    have hpp : pointParse (emitPoint p) = .ok p [] := by
      have h0 := pointParse_emit p hp hy9 []
      rwa [List.append_nil] at h0
    have hd : diaryParse (emitPoint p) = none := by
      have h0 := diaryParse_fail_point p hy9 []
      rwa [List.append_nil] at h0
    have hat : parseAtomic (emitPoint p) = .ok (p, none) [] := by
      have h0 := parseAtomic_emitPoint p hp hy9 []
      rwa [List.append_nil] at h0
    have htr : timeRangeParse (emitPoint p) = .fail := by
      rw [timeRangeParse, hat]
    have hrg : rangeParse (emitPoint p) = .fail := by
      rw [rangeParse, hpp]
      rfl
    rw [show emitTimestamp (.point p) = emitPoint p from rfl, timestampParse, hd]
    dsimp only
    rw [hrg]
    dsimp only
    rw [htr]
    dsimp only
    rw [hpp]
  | range r =>
    have hw : (pointWF r.start && pointWF r.stop &&
        decide (r.start.active = r.stop.active)) = true := hwf
    rw [Bool.and_eq_true, Bool.and_eq_true, decide_eq_true_eq] at hw
    obtain ⟨⟨h1, h2⟩, hact⟩ := hw
    have hym : max r.start.date.year r.stop.date.year ≤ 9999 := hy
    have hy1 : r.start.date.year ≤ 9999 := le_trans (le_max_left _ _) hym
    have hy2 : r.stop.date.year ≤ 9999 := le_trans (le_max_right _ _) hym
    have hd : diaryParse (emitRange r) = none := by
      rw [show emitRange r = emitPoint r.start ++ ('-' :: '-' :: emitPoint r.stop)
          from rfl,
        diaryParse_fail_point r.start hy1]
    have hr : rangeParse (emitRange r) = .ok r [] := by
      have h0 := rangeParse_emit r h1 h2 hact hy1 hy2 []
      rwa [List.append_nil] at h0
    rw [show emitTimestamp (.range r) = emitRange r from rfl, timestampParse, hd]
    dsimp only
    rw [hr]
  | timeRange tr =>
    have hw : (pointWF tr.start && tr.start.time.isSome && timeWF tr.endTime) = true := hwf
    rw [Bool.and_eq_true, Bool.and_eq_true] at hw
    obtain ⟨⟨h1, h2⟩, h3⟩ := hw
    obtain ⟨t0, ht0⟩ := Option.isSome_iff_exists.mp h2
    have hy9 : tr.start.date.year ≤ 9999 := hy
    have hat : parseAtomic (emitTimeRange tr) = .ok (tr.start, some tr.endTime) [] := by
      have h0 := parseAtomic_emitTimeRange tr t0 ht0 h1 h3 hy9 []
      rwa [List.append_nil] at h0
    have htr2 : timeRangeParse (emitTimeRange tr) = .ok tr [] := by
      rw [timeRangeParse, hat]
    have hpf : pointParse (emitTimeRange tr) = .fail := by
      rw [pointParse, hat]
    have hrf : rangeParse (emitTimeRange tr) = .fail := by
      rw [rangeParse, hpf]
    have hd : diaryParse (emitTimeRange tr) = none := by
      have h0 := diaryParse_fail_timeRange tr hy9 []
      rwa [List.append_nil] at h0
    rw [show emitTimestamp (.timeRange tr) = emitTimeRange tr from rfl, timestampParse, hd]
    dsimp only
    rw [hrf]
    dsimp only
    rw [htr2]

/-- A well-formed `Point` in year 10000: its Display rendering starts with
"<+10000", which `Timestamp::parse` rejects, so the round-trip of the
original claim fails without the year bound. -/
theorem timestamp_roundtrip_counterexample :
    timestampWF (.point ⟨.active, ⟨10000, 1, 1⟩, none, ⟨none, none⟩⟩) = true ∧
      timestampParse (emitTimestamp
          (.point ⟨.active, ⟨10000, 1, 1⟩, none, ⟨none, none⟩⟩)) ≠
        PR.ok (.point ⟨.active, ⟨10000, 1, 1⟩, none, ⟨none, none⟩⟩) [] := by
  decide

def c7T : Timestamp :=
  .range ⟨⟨.active, ⟨2021, 2, 28⟩, some ⟨9, 5⟩,
      ⟨some ⟨.cumulate, ⟨2, .week⟩⟩, some ⟨.first, ⟨3, .day⟩⟩⟩⟩,
    ⟨.active, ⟨2021, 3, 1⟩, some ⟨12, 30⟩, ⟨none, none⟩⟩⟩

theorem timestamp_roundtrip_witness :
    timestampParse (emitTimestamp c7T) = PR.ok c7T [] :=
  timestamp_roundtrip c7T (by decide) (by decide)

/-! ### Headline builder validation (src/src/headline/parser.rs) -/

/-- The fields of `HeadlinePod` that `validate_partially` inspects. -/
structure HeadlinePodM where
  level : Nat
  priority : Option Char
  rawTags : Str
  keyword : Option Str
  body : Str
deriving DecidableEq, Repr

inductive HeadlineError where
  | invalidLevel
  | invalidPriority
  | invalidTags
  | invalidKeyword
  | invalidBody
deriving DecidableEq, Repr

/-- Rust `str::split(sep)` (also used for the line structure of a body). -/
def splitOnChar (sep : Char) : Str → List Str
  | [] => [[]]
  | c :: rest =>
    if c = sep then [] :: splitOnChar sep rest
    else
      match splitOnChar sep rest with
      | l :: ls => (c :: l) :: ls
      | [] => [[c]]

/-- `Context::default()` keeps the colon-joined keyword string "TODO:DONE". -/
def defaultContext : Str := ("TODO:DONE").toList

/-- `char::is_ascii_uppercase`. -/
def isAsciiUppercase (c : Char) : Bool := decide ('A' ≤ c ∧ c ≤ 'Z')

/-- `TAG_VALIDATION_RE.is_match`: the pattern `[\w@#%:]*` is unanchored and
nullable, so `Regex::is_match` finds the empty match at the start of every
haystack and returns `true` on every input; the character class is
irrelevant to `is_match` because of the `*`. -/
def tagValidationIsMatch (_ : Str) : Bool := true

/-- One character of the tag class `[A-Za-z0-9@#%:_]` the spec demands
(ASCII reading of `\w`). -/
def tagClassChar (c : Char) : Bool :=
  c.isAlphanum || c = '@' || c = '#' || c = '%' || c = ':' || c = '_'

/-- A run of one-or-more stars followed by a space, after the first star of
`CONTAINS_HEADLINE_RE`: the `\** ` tail of the pattern. -/
def starsThenSpace : Str → Bool
  | '*' :: rest => starsThenSpace rest
  | ' ' :: _ => true
  | _ => false

/-- Whether a single line matches `\*\** .*`. -/
def isHeadlineLineM : Str → Bool
  | '*' :: rest => starsThenSpace rest
  | _ => false

/-- `CONTAINS_HEADLINE_RE.is_match`: the pattern `(^|.*\n)\*\** .*` holds
iff some line of the body starts with stars followed by a space. -/
def containsHeadlineM (body : Str) : Bool :=
  (splitOnChar '\n' body).any isHeadlineLineM

/-- `HeadlineBuilder::validate_partially` (src/src/headline/parser.rs:128).
The context is the colon-joined keyword string. -/
def validatePartially (ctx : Str) (b : HeadlinePodM) : Except HeadlineError Unit :=
  if b.level = 0 then .error .invalidLevel
  else if (match b.priority with
           | some c => !isAsciiUppercase c
           | none => false) then .error .invalidPriority
  else if (!b.rawTags.isEmpty && !tagValidationIsMatch b.rawTags) then
    .error .invalidTags
  else if (match b.keyword with
           | some kw => !(splitOnChar ':' ctx).any (fun k => k == kw)
           | none => false) then .error .invalidKeyword
  else if containsHeadlineM b.body then .error .invalidBody
  else .ok ()

/-- A builder whose raw tags string is "a b": non-empty, and the space is
outside the allowed class. -/
def c3Builder : HeadlinePodM := ⟨1, none, ['a', ' ', 'b'], none, []⟩

/-- C3: the claim is false of the code.  `TAG_VALIDATION_RE` is the
unanchored nullable pattern `[\w@#%:]*`, whose `is_match` accepts every
string, so the guard `!raw_tags.is_empty() && !is_match(raw_tags)` is never
taken: `validate_partially` can never return `InvalidTagsError`, and in
particular accepts the non-empty tag string "a b" although the space lies
outside `[A-Za-z0-9@#%:_]`. -/
theorem invalid_tags_never_rejected :
    (∀ ctx b, validatePartially ctx b ≠ .error .invalidTags) ∧
      c3Builder.rawTags ≠ [] ∧
      (∃ c ∈ c3Builder.rawTags, tagClassChar c = false) ∧
      validatePartially defaultContext c3Builder = .ok () := by
  refine ⟨?_, by decide, ⟨' ', by decide, by decide⟩, by rfl⟩
  intro ctx b
  rw [validatePartially]
  simp only [tagValidationIsMatch, Bool.not_true, Bool.and_false]
  split_ifs <;> simp_all

/-! ### Planning lines (src/src/parser/headline.rs) -/

inductive PlanningKeyword where
  | deadline
  | scheduled
  | closed
deriving DecidableEq, Repr

structure InfoPattern where
  keyword : PlanningKeyword
  timestamp : Timestamp
deriving DecidableEq, Repr

structure Planning where
  deadline : Option Timestamp
  scheduled : Option Timestamp
  closed : Option Timestamp
deriving DecidableEq, Repr

/-- A value, or the propagation of a panic raised below. -/
inductive PV (α : Type) where
  | val (a : α)
  | panic
deriving DecidableEq, Repr

/-- Modelled from the spec: `crate::parser::structure::consuming_line` is
called by `parse_headline` but its definition is absent from the `src/`
snapshot.  Per the spec's line structure (the planning line is "the line
immediately following the title"), it splits text at its first newline:
the first line without the newline, and the remainder after it; with no
newline the whole text is the line and the remainder is empty. -/
def consumingLine : Str → Str × Str
  | [] => ([], [])
  | '\n' :: rest => ([], rest)
  | c :: rest =>
    let (l, r) := consumingLine rest
    (c :: l, r)

/-- `parse_planning_keyword`: note the Rust slices keep the trailing `':'`
("DEADLINE:" has length 9 but only 8 bytes are cut, and so on); the colon
is consumed later by `parse_info_pattern`. -/
def parsePlanningKeyword (input : Str) : Option (PlanningKeyword × Str) :=
  if (tagStr ("DEADLINE:").toList input).isSome then some (.deadline, input.drop 8)
  else if (tagStr ("SCHEDULED:").toList input).isSome then
    some (.scheduled, input.drop 9)
  else if (tagStr ("CLOSED:").toList input).isSome then some (.closed, input.drop 6)
  else none

/-- `parse_info_pattern`: `separated_pair(parse_planning_keyword,
pair(char(':'), space0), Timestamp::parse)`; a timestamp panic
propagates. -/
def parseInfoPattern (input : Str) : PR InfoPattern :=
  match parsePlanningKeyword input with
  | none => .fail
  | some (kw, r1) =>
    match tagChar ':' r1 with
    | none => .fail
    | some r2 =>
      match timestampParse (space0T r2) with
      | .ok t rest => .ok ⟨kw, t⟩ rest
      | .fail => .fail
      | .panic => .panic

/-- `many0(terminated(parse_info_pattern, space0))`, fuel-based; each
success consumes at least one character, so `input.length + 1` fuel is
exact. -/
def many0InfoF : Nat → Str → PR (List InfoPattern)
  | 0, input => .ok [] input
  | fuel + 1, input =>
    match parseInfoPattern input with
    | .fail => .ok [] input
    | .panic => .panic
    | .ok info r1 =>
      match many0InfoF fuel (space0T r1) with
      | .ok infos rest => .ok (info :: infos) rest
      | .fail => .fail
      | .panic => .panic

/-- The duplicate-resolution loop of `parse_planning_line`: later patterns
overwrite earlier ones with the same keyword. -/
def buildPlanning (infos : List InfoPattern) : Planning :=
  infos.foldl
    (fun pl info =>
      match info.keyword with
      | .closed => { pl with closed := some info.timestamp }
      | .scheduled => { pl with scheduled := some info.timestamp }
      | .deadline => { pl with deadline := some info.timestamp })
    ⟨none, none, none⟩

/-- `parse_planning_line`: `preceded(space0, many0(terminated(...)))` from
the start of the line; at least one pattern is required, and the leftover
of the line is ignored. -/
def parsePlanningLine (input : Str) : PV (Option Planning) :=
  match many0InfoF (input.length + 1) (space0T input) with
  | .panic => .panic
  | .fail => .val none
  | .ok infos _rest =>
    if infos.isEmpty then .val none else .val (some (buildPlanning infos))

/-- Lines 178-183 of `parse_headline`: split the body's first line, try it
as a planning line, and consume it exactly when that succeeds. -/
def planningOfBody (body : Str) : PV (Option Planning × Str) :=
  match parsePlanningLine (consumingLine body).1 with
  | .panic => .panic
  | .val (some planning) => .val (some planning, (consumingLine body).2)
  | .val none => .val (none, body)

theorem many0InfoF_succ (fuel : Nat) (input : Str) :
    many0InfoF (fuel + 1) input =
      match parseInfoPattern input with
      | .fail => .ok [] input
      | .panic => .panic
      | .ok info r1 =>
        match many0InfoF fuel (space0T r1) with
        | .ok infos rest => .ok (info :: infos) rest
        | .fail => .fail
        | .panic => .panic := rfl

theorem parsePlanningLine_eq (input : Str) :
    parsePlanningLine input =
      match many0InfoF (input.length + 1) (space0T input) with
      | .panic => .panic
      | .fail => .val none
      | .ok infos _rest =>
        if infos.isEmpty then .val none else .val (some (buildPlanning infos)) := rfl

theorem planningOfBody_eq (body : Str) :
    planningOfBody body =
      match parsePlanningLine (consumingLine body).1 with
      | .panic => .panic
      | .val (some planning) => .val (some planning, (consumingLine body).2)
      | .val none => .val (none, body) := rfl

/-- C9 (amended): the planning parser is anchored at the start of the
body's first line, not at an arbitrary position inside it.  (1) If, after
leading spaces and tabs, the first line begins with a non-empty run of
`KEYWORD: <timestamp>` patterns, the line is consumed and the planning
fields are folded from the parsed list; (2) that fold is last-wins on
duplicate keywords; (3) if no pattern parses at the start of the line, the
body is left unchanged with no planning.  A line that merely CONTAINS a
valid pair further in is not consumed — see the counterexample. -/
theorem planning_line_last_wins :
    (∀ body line rest infos restLine,
        consumingLine body = (line, rest) →
        many0InfoF (line.length + 1) (space0T line) = .ok infos restLine →
        infos ≠ [] →
        planningOfBody body = .val (some (buildPlanning infos), rest)) ∧
      (∀ infos t,
        buildPlanning (infos ++ [⟨.deadline, t⟩]) =
          { buildPlanning infos with deadline := some t } ∧
        buildPlanning (infos ++ [⟨.scheduled, t⟩]) =
          { buildPlanning infos with scheduled := some t } ∧
        buildPlanning (infos ++ [⟨.closed, t⟩]) =
          { buildPlanning infos with closed := some t }) ∧
      (∀ body line rest,
        consumingLine body = (line, rest) →
        parseInfoPattern (space0T line) = .fail →
        planningOfBody body = .val (none, body)) := by
  refine ⟨?_, ?_, ?_⟩
  · intro body line rest infos restLine hcl hm hne
    have hp : parsePlanningLine line = .val (some (buildPlanning infos)) := by
      rw [parsePlanningLine_eq, hm]
      cases infos with
      | nil => exact absurd rfl hne
      | cons a as => rfl
    rw [planningOfBody_eq, hcl]
    dsimp only
    rw [hp]
  · intro infos t
    refine ⟨?_, ?_, ?_⟩ <;> simp [buildPlanning, List.foldl_append]
  · intro body line rest hcl hf
    have hp : parsePlanningLine line = .val none := by
      rw [parsePlanningLine_eq, many0InfoF_succ, hf]
      rfl
    rw [planningOfBody_eq, hcl]
    dsimp only
    rw [hp]

/-- The original claim fails: the body "x DEADLINE: <2020-01-01>" has a
first line that CONTAINS a valid DEADLINE pattern (it parses in isolation,
first conjunct), yet the headline parser leaves the body unchanged with no
planning, because `parse_planning_line` only matches patterns anchored at
the start of the line. -/
theorem planning_line_counterexample :
    parseInfoPattern (("DEADLINE: <2020-01-01>").toList) =
      .ok ⟨.deadline, .point ⟨.active, ⟨2020, 1, 1⟩, none, ⟨none, none⟩⟩⟩ [] ∧
      planningOfBody (("x DEADLINE: <2020-01-01>").toList) =
        .val (none, ("x DEADLINE: <2020-01-01>").toList) := by
  decide

def c9Body : Str :=
  ("DEADLINE: <2020-01-05> SCHEDULED: [2020-02-06] DEADLINE: <2020-03-07>\nrest").toList

def c9Line : Str :=
  ("DEADLINE: <2020-01-05> SCHEDULED: [2020-02-06] DEADLINE: <2020-03-07>").toList

def c9Infos : List InfoPattern :=
  [⟨.deadline, .point ⟨.active, ⟨2020, 1, 5⟩, none, ⟨none, none⟩⟩⟩,
   ⟨.scheduled, .point ⟨.inactive, ⟨2020, 2, 6⟩, none, ⟨none, none⟩⟩⟩,
   ⟨.deadline, .point ⟨.active, ⟨2020, 3, 7⟩, none, ⟨none, none⟩⟩⟩]

theorem planning_line_last_wins_witness :
    planningOfBody c9Body = .val (some (buildPlanning c9Infos), ("rest").toList) :=
  planning_line_last_wins.1 c9Body c9Line (("rest").toList) c9Infos []
    (by decide) (by decide) (by decide)

end Starsector
